import Mathlib

/-!
GHASH with carry-less multiplication (`gcm-simd.cpp`)

A shallow embedding of the CLMUL and PMULL back ends of `gcm-simd.cpp`
together with the bit-serial reference `gcm_gf_mult` that the file keeps
for testing.

Conventions:

* A 128-bit vector register is a natural number below `2 ^ 128`.  Lane `k`
  (`k = 0, 1`) is the 64-bit word in bits `64 k .. 64 k + 63`, byte `k`
  is bits `8 k .. 8 k + 7`; a load from memory is little-endian, as on the
  x86 and little-endian AArch64 hosts the file is built for.
* Memory buffers (`hashKey`, `mulTable`, `data`, `hbuffer`) are lists of
  bytes; a byte is a natural number read modulo 256.  An access outside
  the buffer makes the operation return `none`.  Alignment requirements of
  the aligned load and store forms are not modelled.
* Loops whose trip count is not syntactically bounded carry a fuel
  argument; the theorems show that the fuel supplied is enough.
-/

namespace GcmSimd

/-! ## Registers and memory -/

/-- The 64-bit lane `k` of a register. -/
def lane (a k : Nat) : Nat := (a >>> (64 * k)) % 2 ^ 64

/-- The register with low lane `lo` and high lane `hi`. -/
def ofLanes (lo hi : Nat) : Nat := lo % 2 ^ 64 + 2 ^ 64 * (hi % 2 ^ 64)

/-- Byte `k` of a register or word. -/
def byteOf (a k : Nat) : Nat := (a >>> (8 * k)) % 256

/-- Little-endian value of a byte string. -/
def ofBytesLE : List Nat → Nat
  | [] => 0
  | b :: bs => b % 256 + 256 * ofBytesLE bs

/-- The `n` low bytes of `v`, least significant first. -/
def toBytesLE : Nat → Nat → List Nat
  | 0, _ => []
  | n + 1, v => v % 256 :: toBytesLE n (v / 256)

/-- Big-endian value of a byte string. -/
def ofBytesBE (bs : List Nat) : Nat := ofBytesLE bs.reverse

/-- The `n` low bytes of `v`, most significant first. -/
def toBytesBE (n v : Nat) : List Nat := (toBytesLE n v).reverse

/-- Read `n` bytes at offset `off`, little-endian. -/
def loadLE (n : Nat) (mem : List Nat) (off : Nat) : Option Nat :=
  if off + n ≤ mem.length then some (ofBytesLE ((mem.drop off).take n)) else none

/-- Write the `n` low bytes of `v` at offset `off`, little-endian. -/
def storeLE (n : Nat) (mem : List Nat) (off v : Nat) : Option (List Nat) :=
  if off + n ≤ mem.length then
    some (mem.take off ++ toBytesLE n v ++ mem.drop (off + n))
  else none

/-! ## SSE2 / SSSE3 / PCLMULQDQ intrinsics -/

def _mm_setzero_si128 : Nat := 0

def _mm_xor_si128 (a b : Nat) : Nat := a ^^^ b

/-- Byte shift left of the whole register by `n` bytes. -/
def _mm_slli_si128 (a n : Nat) : Nat := (a <<< (8 * n)) % 2 ^ 128

/-- Byte shift right of the whole register by `n` bytes. -/
def _mm_srli_si128 (a n : Nat) : Nat := (a % 2 ^ 128) >>> (8 * n)

/-- Shift each 64-bit lane left by `n` bits. -/
def _mm_slli_epi64 (a n : Nat) : Nat := ofLanes (lane a 0 <<< n) (lane a 1 <<< n)

/-- Shift each 64-bit lane right by `n` bits. -/
def _mm_srli_epi64 (a n : Nat) : Nat := ofLanes (lane a 0 >>> n) (lane a 1 >>> n)

/-- Interleave the low lanes of `a` and `b`. -/
def _mm_unpacklo_epi64 (a b : Nat) : Nat := ofLanes (lane a 0) (lane b 0)

/-- Four 32-bit words, most significant first. -/
def _mm_set_epi32 (e3 e2 e1 e0 : Nat) : Nat :=
  e0 % 2 ^ 32 + 2 ^ 32 * (e1 % 2 ^ 32) + 2 ^ 64 * (e2 % 2 ^ 32) + 2 ^ 96 * (e3 % 2 ^ 32)

/-- Byte `k` of the result is zero when bit 7 of byte `k` of `m` is set and
byte `m_k mod 16` of `a` otherwise. -/
def _mm_shuffle_epi8 (a m : Nat) : Nat :=
  (List.range 16).foldl
    (fun acc k =>
      acc + (if 128 ≤ byteOf m k then 0 else byteOf a (byteOf m k % 16)) <<< (8 * k)) 0

def _MM_SHUFFLE (z y x w : Nat) : Nat := (z <<< 6) ||| (y <<< 4) ||| (x <<< 2) ||| w

/-- The 32-bit word `k` of a register. -/
def dwordOf (a k : Nat) : Nat := (a >>> (32 * k)) % 2 ^ 32

/-- Word `k` of the result is word `(imm >> 2k) & 3` of `a`. -/
def _mm_shuffle_epi32 (a imm : Nat) : Nat :=
  (List.range 4).foldl
    (fun acc k => acc + dwordOf a ((imm >>> (2 * k)) % 4) <<< (32 * k)) 0

/-- Shift-and-xor carry-less multiplication of the `n` low bits of `a` by `b`. -/
def clmulBits : Nat → Nat → Nat → Nat
  | 0, _, _ => 0
  | n + 1, a, b => (if a % 2 = 1 then b else 0) ^^^ clmulBits n (a / 2) (2 * b)

/-- The 64 x 64 -> 128 bit carry-less product. -/
def clmul64 (a b : Nat) : Nat := clmulBits 64 (a % 2 ^ 64) (b % 2 ^ 64)

/-- PCLMULQDQ: bit 0 of `imm` selects the lane of `a`, bit 4 the lane of `b`. -/
def _mm_clmulepi64_si128 (a b imm : Nat) : Nat :=
  clmul64 (lane a (imm % 2)) (lane b (imm / 16 % 2))

def _mm_load_si128 (mem : List Nat) (off : Nat) : Option Nat := loadLE 16 mem off

def _mm_loadu_si128 (mem : List Nat) (off : Nat) : Option Nat := loadLE 16 mem off

def _mm_store_si128 (mem : List Nat) (off v : Nat) : Option (List Nat) := storeLE 16 mem off v

def _mm_storeu_si128 (mem : List Nat) (off v : Nat) : Option (List Nat) := storeLE 16 mem off v

/-- Store the low lane. -/
def _mm_storel_epi64 (mem : List Nat) (off v : Nat) : Option (List Nat) :=
  storeLE 8 mem off (lane v 0)

/-! ## The bit-serial reference kept in the source -/

/-- One pass of the inner loop body of `gcm_gf_mult` for the mask `j` and
the byte `bi` of `b`; the state is `(Z0, Z1, V0, V1)`. -/
def gcm_gf_mult_step (bi : Nat) (st : Nat × Nat × Nat × Nat) (j : Nat) :
    Nat × Nat × Nat × Nat :=
  let (Z0, Z1, V0, V1) := st
  let x := bi &&& j
  let Z0 := Z0 ^^^ (if x ≠ 0 then V0 else 0)
  let Z1 := Z1 ^^^ (if x ≠ 0 then V1 else 0)
  let x := V1 &&& 1
  let V1' := (V1 >>> 1) ||| ((V0 <<< 63) % 2 ^ 64)
  let V0' := (V0 >>> 1) ^^^ (if x ≠ 0 then (0xe1 <<< 56) % 2 ^ 64 else 0)
  (Z0, Z1, V0', V1')

/-- The values `j` takes in `for (int j=0x80; j!=0; j>>=1)`. -/
def gcm_gf_mult_masks : List Nat := [0x80, 0x40, 0x20, 0x10, 0x08, 0x04, 0x02, 0x01]

/-- Reference multiplication `gcm_gf_mult(a, b, c)`: returns the 16 bytes
written to `c`. -/
def gcm_gf_mult (a b : List Nat) : List Nat :=
  let V0 := ofBytesBE (a.take 8)
  let V1 := ofBytesBE ((a.drop 8).take 8)
  let st := (List.range 16).foldl
    (fun st i => gcm_gf_mult_masks.foldl (gcm_gf_mult_step (b.getD i 0 % 256)) st)
    (0, 0, V0, V1)
  toBytesBE 8 st.1 ++ toBytesBE 8 st.2.1

/-! ## CLMUL back end -/

/-- The reduction constant `r` of the source,
`_mm_set_epi32(0xc2000000, 0x00000000, 0xe1000000, 0x00000000)`. -/
def gcm_r : Nat := _mm_set_epi32 0xc2000000 0x00000000 0xe1000000 0x00000000

/-- Full byte reversal mask,
`_mm_set_epi32(0x00010203, 0x04050607, 0x08090a0b, 0x0c0d0e0f)`. -/
def gcm_m1 : Nat := _mm_set_epi32 0x00010203 0x04050607 0x08090a0b 0x0c0d0e0f

/-- Per-lane byte reversal mask,
`_mm_set_epi32(0x08090a0b, 0x0c0d0e0f, 0x00010203, 0x04050607)`. -/
def gcm_m2 : Nat := _mm_set_epi32 0x08090a0b 0x0c0d0e0f 0x00010203 0x04050607

def GCM_Reduce_CLMUL (c0 c1 c2 r : Nat) : Nat :=
  let c1 := _mm_xor_si128 c1 (_mm_slli_si128 c0 8)
  let c1 := _mm_xor_si128 c1 (_mm_clmulepi64_si128 c0 r 0x10)
  let c0 := _mm_srli_si128 c0 8
  let c0 := _mm_xor_si128 c0 c1
  let c0 := _mm_slli_epi64 c0 1
  let c0 := _mm_clmulepi64_si128 c0 r 0
  let c2 := _mm_xor_si128 c2 c0
  let c2 := _mm_xor_si128 c2 (_mm_srli_si128 c1 8)
  let c1 := _mm_unpacklo_epi64 c1 c2
  let c1 := _mm_srli_epi64 c1 63
  let c2 := _mm_slli_epi64 c2 1
  _mm_xor_si128 c2 c1

def GCM_Multiply_CLMUL (x h r : Nat) : Nat :=
  let c0 := _mm_clmulepi64_si128 x h 0
  let c1 := _mm_xor_si128 (_mm_clmulepi64_si128 x h 1) (_mm_clmulepi64_si128 x h 0x10)
  let c2 := _mm_clmulepi64_si128 x h 0x11
  GCM_Reduce_CLMUL c0 c1 c2 r


/-- One round of stores of `GCM_SetKeyWithoutResync_CLMUL` at table offset `i`. -/
def GCM_SetKeyWithoutResync_CLMUL_stores (mulTable : List Nat) (i h h1 : Nat) :
    Option (List Nat) := do
  let t ← _mm_storel_epi64 mulTable i h
  let t ← _mm_storeu_si128 t (i + 16) h1
  let t ← _mm_storeu_si128 t (i + 8) h
  _mm_storel_epi64 t (i + 8) h1

/-- The loop `for (i=0; i<tableSize-32; i+=32)` of `GCM_SetKeyWithoutResync_CLMUL`;
`i` and `tableSize` are `unsigned int`.  Returns the table, `i` and `h` at loop exit. -/
def GCM_SetKeyWithoutResync_CLMUL_loop (h0 r tableSize : Nat) :
    Nat → Nat → Nat → List Nat → Option (List Nat × Nat × Nat)
  | 0, _, _, _ => none
  | fuel + 1, i, h, mulTable =>
    if i < (tableSize % 2 ^ 32 + 2 ^ 32 - 32) % 2 ^ 32 then do
      let h1 := GCM_Multiply_CLMUL h h0 r
      let t ← GCM_SetKeyWithoutResync_CLMUL_stores mulTable i h h1
      let h := GCM_Multiply_CLMUL h1 h0 r
      GCM_SetKeyWithoutResync_CLMUL_loop h0 r tableSize fuel ((i + 32) % 2 ^ 32) h t
    else some (mulTable, i, h)

/-- `GCM_SetKeyWithoutResync_CLMUL(hashKey, mulTable, tableSize)`: the table
buffer after the call.  The loop counter takes each multiple of 32 below
`2 ^ 32` at most once in a terminating run, so `2 ^ 27 + 1` is enough fuel. -/
def GCM_SetKeyWithoutResync_CLMUL (hashKey mulTable : List Nat) (tableSize : Nat) :
    Option (List Nat) := do
  let r := gcm_r
  let m := gcm_m1
  let h0 := _mm_shuffle_epi8 (← _mm_load_si128 hashKey 0) m
  let (t, i, h) ← GCM_SetKeyWithoutResync_CLMUL_loop h0 r tableSize (2 ^ 27 + 1) 0 h0 mulTable
  let h1 := GCM_Multiply_CLMUL h h0 r
  GCM_SetKeyWithoutResync_CLMUL_stores t i h h1

/-- `UnsignedMin(len/16, 8U)`: the number of blocks of one group. -/
def groupSize (len : Nat) : Nat := min (len / 16) 8

/-- The inner `while (true)` loop of `GCM_AuthenticateBlocks_CLMUL` for a group of
`s` blocks starting at `data`; the state is `i, d1, d2, c0, c1, c2`.  Returns
`c0, c1, c2` at the `break`.  Where the loop body is reached `i < s`, so the
`size_t` expression `(s-i)*16-8` does not wrap. -/
def GCM_AuthenticateBlocks_CLMUL_inner (data table : List Nat) (x s : Nat) :
    Nat → Nat → Nat → Nat → Nat → Nat → Nat → Option (Nat × Nat × Nat)
  | 0, _, _, _, _, _, _ => none
  | fuel + 1, i, d1, d2, c0, c1, c2 => do
    let h0 ← _mm_load_si128 table (16 * i)
    let h1 ← _mm_load_si128 table (16 * (i + 1))
    let h2 := _mm_xor_si128 h0 h1
    let i := i + 1
    if i = s then
      let d1 := _mm_shuffle_epi8 (← _mm_loadu_si128 data 0) gcm_m1
      let d1 := _mm_xor_si128 d1 x
      let c0 := _mm_xor_si128 c0 (_mm_clmulepi64_si128 d1 h0 0)
      let c2 := _mm_xor_si128 c2 (_mm_clmulepi64_si128 d1 h1 1)
      let d1 := _mm_xor_si128 d1 (_mm_shuffle_epi32 d1 (_MM_SHUFFLE 1 0 3 2))
      let c1 := _mm_xor_si128 c1 (_mm_clmulepi64_si128 d1 h2 0)
      some (c0, c1, c2)
    else
      let d1 := _mm_shuffle_epi8 (← _mm_loadu_si128 data ((s - i) * 16 - 8)) gcm_m2
      let c0 := _mm_xor_si128 c0 (_mm_clmulepi64_si128 d2 h0 1)
      let c2 := _mm_xor_si128 c2 (_mm_clmulepi64_si128 d1 h1 1)
      let d2 := _mm_xor_si128 d2 d1
      let c1 := _mm_xor_si128 c1 (_mm_clmulepi64_si128 d2 h2 1)
      let i := i + 1
      if i = s then
        let d1 := _mm_shuffle_epi8 (← _mm_loadu_si128 data 0) gcm_m1
        let d1 := _mm_xor_si128 d1 x
        let c0 := _mm_xor_si128 c0 (_mm_clmulepi64_si128 d1 h0 0x10)
        let c2 := _mm_xor_si128 c2 (_mm_clmulepi64_si128 d1 h1 0x11)
        let d1 := _mm_xor_si128 d1 (_mm_shuffle_epi32 d1 (_MM_SHUFFLE 1 0 3 2))
        let c1 := _mm_xor_si128 c1 (_mm_clmulepi64_si128 d1 h2 0x10)
        some (c0, c1, c2)
      else
        let d2 := _mm_shuffle_epi8 (← _mm_loadu_si128 data ((s - i) * 16 - 8)) gcm_m1
        let c0 := _mm_xor_si128 c0 (_mm_clmulepi64_si128 d1 h0 0x10)
        let c2 := _mm_xor_si128 c2 (_mm_clmulepi64_si128 d2 h1 0x10)
        let d1 := _mm_xor_si128 d1 d2
        let c1 := _mm_xor_si128 c1 (_mm_clmulepi64_si128 d1 h2 0x10)
        GCM_AuthenticateBlocks_CLMUL_inner data table x s fuel i d1 d2 c0 c1 c2

/-- The outer loop `while (len >= 16)` of `GCM_AuthenticateBlocks_CLMUL`.  The
list `data` is the buffer from the current `data` pointer on, so `len` is its
length.  Returns `x` and the unconsumed rest of the buffer at loop exit. -/
def GCM_AuthenticateBlocks_CLMUL_loop (table : List Nat) :
    Nat → List Nat → Nat → Option (Nat × List Nat)
  | 0, _, _ => none
  | fuel + 1, data, x =>
    if 16 ≤ data.length then do
      let r := gcm_r
      let s := groupSize data.length
      let d1 ← _mm_loadu_si128 data ((s - 1) * 16)
      let d2 := _mm_shuffle_epi8 d1 gcm_m2
      let c0 := _mm_setzero_si128
      let c1 := _mm_setzero_si128
      let c2 := _mm_setzero_si128
      let (c0, c1, c2) ← GCM_AuthenticateBlocks_CLMUL_inner data table x s s 0 d1 d2 c0 c1 c2
      let c1 := _mm_xor_si128 (_mm_xor_si128 c1 c0) c2
      let x := GCM_Reduce_CLMUL c0 c1 c2 r
      GCM_AuthenticateBlocks_CLMUL_loop table fuel (data.drop (s * 16)) x
    else some (x, data)

/-- `GCM_AuthenticateBlocks_CLMUL(data, len, mtable, hbuffer)` with
`len = data.length`: the contents of `hbuffer` after the call and the value
returned.  Every pass of the outer loop consumes at least 16 bytes, so
`len / 16 + 1` is enough fuel. -/
def GCM_AuthenticateBlocks_CLMUL (data mtable hbuffer : List Nat) :
    Option (List Nat × Nat) := do
  let x ← _mm_load_si128 hbuffer 0
  let (x, rest) ← GCM_AuthenticateBlocks_CLMUL_loop mtable (data.length / 16 + 1) data x
  let hb ← _mm_store_si128 hbuffer 0 x
  some (hb, rest.length)

def GCM_ReverseHashBufferIfNeeded_CLMUL (hashBuffer : List Nat) : Option (List Nat) := do
  let val ← _mm_load_si128 hashBuffer 0
  let mask := gcm_m1
  _mm_store_si128 hashBuffer 0 (_mm_shuffle_epi8 val mask)

/-! ## NEON intrinsics and the PMULL back end -/

def vdupq_n_u64 (v : Nat) : Nat := ofLanes v v

def veorq_u64 (a b : Nat) : Nat := a ^^^ b

def vget_low_u64 (a : Nat) : Nat := lane a 0

def vget_high_u64 (a : Nat) : Nat := lane a 1

def vcombine_u64 (lo hi : Nat) : Nat := ofLanes lo hi

/-- `vreinterpretq_u32_u64` followed by `vget_low_u32`: the low 64 bits. -/
def vget_low_u32 (a : Nat) : Nat := lane a 0

/-- `vreinterpretq_u32_u64` followed by `vget_high_u32`: the high 64 bits. -/
def vget_high_u32 (a : Nat) : Nat := lane a 1

def vcombine_u32 (lo hi : Nat) : Nat := ofLanes lo hi

def vshlq_n_u64 (a n : Nat) : Nat := ofLanes (lane a 0 <<< n) (lane a 1 <<< n)

def vshrq_n_u64 (a n : Nat) : Nat := ofLanes (lane a 0 >>> n) (lane a 1 >>> n)

/-- `EXT`: bytes `c .. c + 15` of the 32-byte string `a` followed by `b`. -/
def VEXT_U8 (a b c : Nat) : Nat := ((a % 2 ^ 128 + 2 ^ 128 * (b % 2 ^ 128)) >>> (8 * c)) % 2 ^ 128

def vextq_u8 (a b c : Nat) : Nat := VEXT_U8 a b c

/-- Lanes `n .. n + 1` of the four 64-bit lanes of `a` followed by `b`. -/
def vextq_u64 (a b n : Nat) : Nat :=
  ((a % 2 ^ 128 + 2 ^ 128 * (b % 2 ^ 128)) >>> (64 * n)) % 2 ^ 128

/-- Byte reversal of a 64-bit word. -/
def bswap64 (v : Nat) : Nat :=
  (List.range 8).foldl (fun acc k => acc + byteOf v k <<< (8 * (7 - k))) 0

/-- Reverse the bytes inside each 64-bit lane. -/
def vrev64q_u8 (a : Nat) : Nat := ofLanes (bswap64 (lane a 0)) (bswap64 (lane a 1))

def vld1q_u8 (mem : List Nat) (off : Nat) : Option Nat := loadLE 16 mem off

def vld1q_u64 (mem : List Nat) (off : Nat) : Option Nat := loadLE 16 mem off

def vst1q_u8 (mem : List Nat) (off v : Nat) : Option (List Nat) := storeLE 16 mem off v

def vst1q_u64 (mem : List Nat) (off v : Nat) : Option (List Nat) := storeLE 16 mem off v

/-- Store one 64-bit word. -/
def vst1_u64 (mem : List Nat) (off v : Nat) : Option (List Nat) := storeLE 8 mem off v

/-- `pmull` of the low lanes. -/
def PMULL_00 (a b : Nat) : Nat := clmul64 (lane a 0) (lane b 0)

/-- `pmull` of the low lane of `a` and the high lane of `b`. -/
def PMULL_01 (a b : Nat) : Nat := clmul64 (lane a 0) (vget_high_u64 b)

/-- `pmull` of the high lane of `a` and the low lane of `b`. -/
def PMULL_10 (a b : Nat) : Nat := clmul64 (vget_high_u64 a) (lane b 0)

/-- `pmull2`: the product of the high lanes. -/
def PMULL_11 (a b : Nat) : Nat := clmul64 (lane a 1) (lane b 1)

/-- The constant `r = {0xe100000000000000ull, 0xc200000000000000ull}` of the
PMULL functions. -/
def gcm_r_neon : Nat := ofLanes 0xe100000000000000 0xc200000000000000

def GCM_Reduce_PMULL (c0 c1 c2 r : Nat) : Nat :=
  let c1 := veorq_u64 c1 (VEXT_U8 (vdupq_n_u64 0) c0 8)
  let c1 := veorq_u64 c1 (PMULL_01 c0 r)
  let c0 := VEXT_U8 c0 (vdupq_n_u64 0) 8
  let c0 := vshlq_n_u64 (veorq_u64 c0 c1) 1
  let c0 := PMULL_00 c0 r
  let c2 := veorq_u64 c2 c0
  let c2 := veorq_u64 c2 (VEXT_U8 c1 (vdupq_n_u64 0) 8)
  let c1 := vshrq_n_u64 (vcombine_u64 (vget_low_u64 c1) (vget_low_u64 c2)) 63
  let c2 := vshlq_n_u64 c2 1
  veorq_u64 c2 c1

def GCM_Multiply_PMULL (x h r : Nat) : Nat :=
  let c0 := PMULL_00 x h
  let c1 := veorq_u64 (PMULL_10 x h) (PMULL_01 x h)
  let c2 := PMULL_11 x h
  GCM_Reduce_PMULL c0 c1 c2 r

/-- One round of stores of `GCM_SetKeyWithoutResync_PMULL` at table offset `i`. -/
def GCM_SetKeyWithoutResync_PMULL_stores (mulTable : List Nat) (i h h1 : Nat) :
    Option (List Nat) := do
  let t ← vst1_u64 mulTable i (vget_low_u64 h)
  let t ← vst1q_u64 t (i + 16) h1
  let t ← vst1q_u64 t (i + 8) h
  vst1_u64 t (i + 8) (vget_low_u64 h1)

/-- The loop of `GCM_SetKeyWithoutResync_PMULL`. -/
def GCM_SetKeyWithoutResync_PMULL_loop (h0 r tableSize : Nat) :
    Nat → Nat → Nat → List Nat → Option (List Nat × Nat × Nat)
  | 0, _, _, _ => none
  | fuel + 1, i, h, mulTable =>
    if i < (tableSize % 2 ^ 32 + 2 ^ 32 - 32) % 2 ^ 32 then do
      let h1 := GCM_Multiply_PMULL h h0 r
      let t ← GCM_SetKeyWithoutResync_PMULL_stores mulTable i h h1
      let h := GCM_Multiply_PMULL h1 h0 r
      GCM_SetKeyWithoutResync_PMULL_loop h0 r tableSize fuel ((i + 32) % 2 ^ 32) h t
    else some (mulTable, i, h)

def GCM_SetKeyWithoutResync_PMULL (hashKey mulTable : List Nat) (tableSize : Nat) :
    Option (List Nat) := do
  let r := gcm_r_neon
  let t := vrev64q_u8 (← vld1q_u8 hashKey 0)
  let h0 := vextq_u64 t t 1
  let (tbl, i, h) ← GCM_SetKeyWithoutResync_PMULL_loop h0 r tableSize (2 ^ 27 + 1) 0 h0 mulTable
  let h1 := GCM_Multiply_PMULL h h0 r
  GCM_SetKeyWithoutResync_PMULL_stores tbl i h h1

/-- The inner `while (true)` loop of `GCM_AuthenticateBlocks_PMULL`. -/
def GCM_AuthenticateBlocks_PMULL_inner (data table : List Nat) (x s : Nat) :
    Nat → Nat → Nat → Nat → Nat → Nat → Nat → Option (Nat × Nat × Nat)
  | 0, _, _, _, _, _, _ => none
  | fuel + 1, i, d1, d2, c0, c1, c2 => do
    let h0 ← vld1q_u64 table (16 * i)
    let h1 ← vld1q_u64 table (16 * (i + 1))
    let h2 := veorq_u64 h0 h1
    let i := i + 1
    if i = s then
      let t1 := vrev64q_u8 (← vld1q_u8 data 0)
      let d1 := veorq_u64 (vextq_u64 t1 t1 1) x
      let c0 := veorq_u64 c0 (PMULL_00 d1 h0)
      let c2 := veorq_u64 c2 (PMULL_10 d1 h1)
      let d1 := veorq_u64 d1 (vcombine_u32 (vget_high_u32 d1) (vget_low_u32 d1))
      let c1 := veorq_u64 c1 (PMULL_00 d1 h2)
      some (c0, c1, c2)
    else
      let d1 := vrev64q_u8 (← vld1q_u8 data ((s - i) * 16 - 8))
      let c0 := veorq_u64 c0 (PMULL_10 d2 h0)
      let c2 := veorq_u64 c2 (PMULL_10 d1 h1)
      let d2 := veorq_u64 d2 d1
      let c1 := veorq_u64 c1 (PMULL_10 d2 h2)
      let i := i + 1
      if i = s then
        let t2 := vrev64q_u8 (← vld1q_u8 data 0)
        let d1 := veorq_u64 (vextq_u64 t2 t2 1) x
        let c0 := veorq_u64 c0 (PMULL_01 d1 h0)
        let c2 := veorq_u64 c2 (PMULL_11 d1 h1)
        let d1 := veorq_u64 d1 (vcombine_u32 (vget_high_u32 d1) (vget_low_u32 d1))
        let c1 := veorq_u64 c1 (PMULL_01 d1 h2)
        some (c0, c1, c2)
      else
        let t3 := vrev64q_u8 (← vld1q_u8 data ((s - i) * 16 - 8))
        let d2 := vextq_u64 t3 t3 1
        let c0 := veorq_u64 c0 (PMULL_01 d1 h0)
        let c2 := veorq_u64 c2 (PMULL_01 d2 h1)
        let d1 := veorq_u64 d1 d2
        let c1 := veorq_u64 c1 (PMULL_01 d1 h2)
        GCM_AuthenticateBlocks_PMULL_inner data table x s fuel i d1 d2 c0 c1 c2

/-- The outer loop of `GCM_AuthenticateBlocks_PMULL`.  The source leaves `d1`
uninitialised at the head of a group and assigns it before its first use; the
model starts it at zero. -/
def GCM_AuthenticateBlocks_PMULL_loop (table : List Nat) :
    Nat → List Nat → Nat → Option (Nat × List Nat)
  | 0, _, _ => none
  | fuel + 1, data, x =>
    if 16 ≤ data.length then do
      let r := gcm_r_neon
      let s := groupSize data.length
      let d2 := vrev64q_u8 (← vld1q_u8 data ((s - 1) * 16))
      let c0 := vdupq_n_u64 0
      let c1 := vdupq_n_u64 0
      let c2 := vdupq_n_u64 0
      let (c0, c1, c2) ← GCM_AuthenticateBlocks_PMULL_inner data table x s s 0 0 d2 c0 c1 c2
      let c1 := veorq_u64 (veorq_u64 c1 c0) c2
      let x := GCM_Reduce_PMULL c0 c1 c2 r
      GCM_AuthenticateBlocks_PMULL_loop table fuel (data.drop (s * 16)) x
    else some (x, data)

def GCM_AuthenticateBlocks_PMULL (data mtable hbuffer : List Nat) :
    Option (List Nat × Nat) := do
  let x ← vld1q_u8 hbuffer 0
  let (x, rest) ← GCM_AuthenticateBlocks_PMULL_loop mtable (data.length / 16 + 1) data x
  let hb ← vst1q_u64 hbuffer 0 x
  some (hb, rest.length)

/-- `GCM_ReverseHashBufferIfNeeded_PMULL`; `bigEndian` says whether
`GetNativeByteOrder()` is `BIG_ENDIAN_ORDER`. -/
def GCM_ReverseHashBufferIfNeeded_PMULL (bigEndian : Bool) (hashBuffer : List Nat) :
    Option (List Nat) :=
  if ¬ bigEndian then do
    let x := vrev64q_u8 (← vld1q_u8 hashBuffer 0)
    vst1q_u8 hashBuffer 0 (vextq_u8 x x 8)
  else some hashBuffer

/-! ## The capability probe `CPU_ProbePMULL`

The probe runs two trial multiplications under a `SIGILL` handler.  The process
state it touches, the disposition of `SIGILL` and the signal mask, is passed
explicitly; whether a library call fails and what the multiply instruction does
are inputs. -/

/-- A signal disposition, the value `signal` installs and returns. -/
inductive SigHandler where
  | SIG_DFL
  | SIG_IGN
  | SigIllHandler
  | other (f : Nat)
  deriving DecidableEq

/-- The disposition of `SIGILL` and the signal mask of the process (bit `k` of
`mask` set: signal `k` is blocked). -/
structure SigState where
  handler : SigHandler
  mask : Nat
  deriving DecidableEq

def SIGILL : Nat := 4

/-- The libc call `signal(SIGILL, h)`: on success it installs `h` and returns the
previous disposition; on failure it returns `SIG_ERR`, here `none`, and changes
nothing. -/
def signal (fails : Bool) (h : SigHandler) (st : SigState) : Option SigHandler × SigState :=
  if fails then (none, st) else (some st.handler, SigState.mk h st.mask)

/-- The query `sigprocmask(0, NULLPTR, &oldMask)`: the current mask, or `none`
when the call returns nonzero. -/
def sigprocmask_query (fails : Bool) (st : SigState) : Option Nat :=
  if fails then none else some st.mask

/-- The call `sigprocmask(SIG_SETMASK, &mask, NULLPTR)`. -/
def sigprocmask_setmask (mask : Nat) (st : SigState) : SigState :=
  SigState.mk st.handler mask

/-- Delivery of `SIGILL` to `SigIllHandler`, which leaves by `longjmp`: the signal
stays blocked, since `setjmp` and `longjmp` do not save and restore the mask. -/
def raiseSIGILL (st : SigState) : SigState :=
  SigState.mk st.handler (st.mask ||| 2 ^ SIGILL)

/-- `VMULL_P64(a, b)` is `vmull_p64(a, b)`: the multiply instruction `pmull` applied
to two 64-bit values; `none` when the instruction raises `SIGILL`. -/
def VMULL_P64 (pmull : Nat → Nat → Option Nat) (a b : Nat) : Option Nat := pmull a b

/-- `VMULL_HIGH_P64(a, b)` is `vmull_high_p64(a, b)`: `pmull2`, the product of the
high lanes. -/
def VMULL_HIGH_P64 (pmull : Nat → Nat → Option Nat) (a b : Nat) : Option Nat :=
  pmull (lane a 1) (lane b 1)

def vgetq_lane_u64 (v k : Nat) : Nat := lane v k

/-- The trial block of the ARM probe (the `else` branch of `setjmp`, and the body
of `__try`): `none` when an instruction faults, else the value assigned to
`result`. -/
def CPU_ProbePMULL_trial (pmull : Nat → Nat → Option Nat) : Option Bool := do
  let a1 := 0x9090909090909090
  let b1 := 0xb0b0b0b0b0b0b0b0
  let a2 := ofBytesLE [0x80, 0x80, 0x80, 0x80, 0x80, 0x80, 0x80, 0x80,
                       0xa0, 0xa0, 0xa0, 0xa0, 0xa0, 0xa0, 0xa0, 0xa0]
  let b2 := ofBytesLE [0xc0, 0xc0, 0xc0, 0xc0, 0xc0, 0xc0, 0xc0, 0xc0,
                       0xe0, 0xe0, 0xe0, 0xe0, 0xe0, 0xe0, 0xe0, 0xe0]
  let r1 ← VMULL_P64 pmull a1 b1
  let r2 ← VMULL_HIGH_P64 pmull a2 b2
  let t1 := r1
  let t2 := r2
  some (vgetq_lane_u64 t1 0 == 0x5300530053005300 &&
        vgetq_lane_u64 t1 1 == 0x5300530053005300 &&
        vgetq_lane_u64 t2 0 == 0x6c006c006c006c00 &&
        vgetq_lane_u64 t2 1 == 0x6c006c006c006c00)

/-- The signal-and-`setjmp` part shared by the ARM and the POWER8 probe, for a
trial block with outcome `trial` (`none`: it faulted).  `signalFails` and
`queryFails` say whether the first `signal` and the `sigprocmask` query fail;
the two restoring calls at the end, whose results the code does not test,
succeed.  The initial value `true` of `result` is overwritten on both branches
of `setjmp`.  Returns the result and the state on return. -/
def CPU_ProbePMULL_guarded (signalFails queryFails : Bool) (trial : Option Bool)
    (st : SigState) : Bool × SigState :=
  match signal signalFails SigHandler.SigIllHandler st with
  | (none, st) => (false, st)
  | (some oldHandler, st) =>
    match sigprocmask_query queryFails st with
    | none => (false, st)
    | some oldMask =>
      let (result, st) :=
        match trial with
        | none => (false, raiseSIGILL st)
        | some r => (r, st)
      let st := sigprocmask_setmask oldMask st
      let st := (signal false oldHandler st).2
      (result, st)

/-- `CPU_ProbePMULL` for ARM with GNU-style inline assembly. -/
def CPU_ProbePMULL (signalFails queryFails : Bool) (pmull : Nat → Nat → Option Nat)
    (st : SigState) : Bool × SigState :=
  CPU_ProbePMULL_guarded signalFails queryFails (CPU_ProbePMULL_trial pmull) st

/-- The helpers of `ppc-simd.h` that the POWER8 probe calls.  The header is not part
of the source file, so they are parameters: `VectorXor`, `VectorShiftRight<8>`, and
`VectorStore` to a `word64[2]` array followed by the reads of its two elements. -/
structure PpcSimd where
  VectorXor : Nat → Nat → Nat
  VectorShiftRight8 : Nat → Nat → Nat
  VectorStore : Nat → Nat × Nat

/-- The POWER8 `VMULL_P64(a, b)`: the instruction `vpmsumd`. -/
def VMULL_P64_PPC (vpmsumd : Nat → Nat → Option Nat) (a b : Nat) : Option Nat := vpmsumd a b

/-- The POWER8 `VMULL_HIGH_P64(a, b)`. -/
def VMULL_HIGH_P64_PPC (P : PpcSimd) (vpmsumd : Nat → Nat → Option Nat) (a b : Nat) :
    Option Nat :=
  let z := P.VectorXor a a
  let s := P.VectorShiftRight8 a z
  let t := P.VectorShiftRight8 b z
  vpmsumd s t

/-- The trial block of the POWER8 probe. -/
def CPU_ProbePMULL_PPC_trial (P : PpcSimd) (vpmsumd : Nat → Nat → Option Nat) :
    Option Bool := do
  let a1 := ofLanes 0x9090909090909090 0
  let b1 := ofLanes 0xb0b0b0b0b0b0b0b0 0
  let a2 := ofBytesLE [0x80, 0x80, 0x80, 0x80, 0x80, 0x80, 0x80, 0x80,
                       0xa0, 0xa0, 0xa0, 0xa0, 0xa0, 0xa0, 0xa0, 0xa0]
  let b2 := ofBytesLE [0xc0, 0xc0, 0xc0, 0xc0, 0xc0, 0xc0, 0xc0, 0xc0,
                       0xe0, 0xe0, 0xe0, 0xe0, 0xe0, 0xe0, 0xe0, 0xe0]
  let r1 ← VMULL_P64_PPC vpmsumd a1 b1
  let r2 ← VMULL_HIGH_P64_PPC P vpmsumd a2 b2
  let w1 := P.VectorStore r1
  let w2 := P.VectorStore r2
  some (w1.1 == 0x5300530053005300 && w1.2 == 0x5300530053005300 &&
        w2.1 == 0x6c006c006c006c00 && w2.2 == 0x6c006c006c006c00)

/-- `CPU_ProbePMULL` for POWER8. -/
def CPU_ProbePMULL_PPC (signalFails queryFails : Bool) (P : PpcSimd)
    (vpmsumd : Nat → Nat → Option Nat) (st : SigState) : Bool × SigState :=
  CPU_ProbePMULL_guarded signalFails queryFails (CPU_ProbePMULL_PPC_trial P vpmsumd) st

/-! ## Specification-level objects used in the proofs -/

open Polynomial

/-- Abstraction function: the polynomial over GF(2) whose coefficient of `X^i`
is bit `i` of `n`.  Exclusive-or of numbers is addition of their polynomials
and carry-less multiplication is multiplication. -/
noncomputable def polyOf (n : Nat) : (ZMod 2)[X] :=
  ∑ i in Finset.range (n + 1), if n.testBit i then X ^ i else 0

/-- The GCM polynomial `x^128 + x^7 + x^2 + x + 1` with its bits reversed
(bit `k` is the coefficient of `x^(128-k)`). -/
def gcmPolyBits : Nat := 2 ^ 128 + 2 ^ 127 + 2 ^ 126 + 2 ^ 121 + 1

/-- The polynomial of `gcmPolyBits`, `X^128 + X^127 + X^126 + X^121 + 1`. -/
noncomputable def gcmPoly : (ZMod 2)[X] := polyOf gcmPolyBits

/-- The field `GF(2)[X] / (gcmPoly)`. -/
abbrev GcmField : Type := AdjoinRoot gcmPoly

/-- The class of the polynomial of `a` in `GcmField`. -/
noncomputable def fieldOf (a : Nat) : GcmField := AdjoinRoot.mk gcmPoly (polyOf a)

/-- The class of `X`. -/
noncomputable def fX : GcmField := AdjoinRoot.mk gcmPoly X

/-- The inverse of the class of `X`. -/
noncomputable def fY : GcmField := fieldOf (2 ^ 127 + 2 ^ 126 + 2 ^ 125 + 2 ^ 120)

/-- Value of a list of bits as a polynomial in the inverse of `X`. -/
noncomputable def bitsEval : List Bool → GcmField
  | [] => 0
  | b :: bs => (if b then 1 else 0) + fY * bitsEval bs

/-- The accumulator `Z` of a `gcm_gf_mult` state as a 128-bit value. -/
def refZ (st : Nat × Nat × Nat × Nat) : Nat := ofLanes st.2.1 st.1

/-- The running multiple `V` of a `gcm_gf_mult` state as a 128-bit value. -/
def refV (st : Nat × Nat × Nat × Nat) : Nat := ofLanes st.2.2.2 st.2.2.1

/-- All four words of a `gcm_gf_mult` state are 64-bit. -/
def refWf (st : Nat × Nat × Nat × Nat) : Prop :=
  st.1 < 2 ^ 64 ∧ st.2.1 < 2 ^ 64 ∧ st.2.2.1 < 2 ^ 64 ∧ st.2.2.2 < 2 ^ 64

/-- The bits of `bi` selected by the masks, in loop order. -/
def byteBits (bi : Nat) : List Bool := gcm_gf_mult_masks.map (fun j => decide (bi &&& j ≠ 0))

/-- The `n` low bits of `h`, most significant first. -/
def bitsMSB : Nat → Nat → List Bool
  | 0, _ => []
  | n + 1, h => h.testBit n :: bitsMSB n h

/-- Entry `k` of the table of powers: `tablePower H 0 = H` and
`tablePower H (k + 1) = GCM_Multiply_CLMUL (tablePower H k) H r`, so that
`tablePower H k` is the power `H^(k+1)` of the hash key. -/
def tablePower (H : Nat) : Nat → Nat
  | 0 => H
  | k + 1 => GCM_Multiply_CLMUL (tablePower H k) H gcm_r

/-- The 32 bytes the table holds for two consecutive powers `h`, `h1`: the low
halves of both, then the high halves of both, each little-endian. -/
def roundBytes (h h1 : Nat) : List Nat :=
  toBytesLE 8 (lane h 0) ++ (toBytesLE 8 (lane h1 0)
    ++ (toBytesLE 8 (lane h 1) ++ toBytesLE 8 (lane h1 1)))

/-- The first `32 * m` bytes of the table of powers of `H`. -/
def tableBytes (H : Nat) : Nat → List Nat
  | 0 => []
  | m + 1 => tableBytes H m ++ roundBytes (tablePower H (2 * m)) (tablePower H (2 * m + 1))

/-- The 128-bit little-endian value of the 16 bytes at offset `off`. -/
def rawAt (mem : List Nat) (off : Nat) : Nat := ofBytesLE ((mem.drop off).take 16)

/-- Block `j` of the group starting at `data`, byte-reversed as the code loads it, with
the incoming accumulator `x` xored into block 0. -/
def blockIn (data : List Nat) (x j : Nat) : Nat :=
  if j = 0 then _mm_shuffle_epi8 (rawAt data 0) gcm_m1 ^^^ x
  else _mm_shuffle_epi8 (rawAt data (16 * j)) gcm_m1

/-- The three partial products (low, Karatsuba middle, high) of the block `e` with
table entry `m`: the halves of entry `m` are lane `m % 2` of the slots `2 (m / 2)`
and `2 (m / 2) + 1`. -/
def groupTerm (table : List Nat) (e m : Nat) : Nat × Nat × Nat :=
  (clmul64 (lane e 0) (lane (rawAt table (16 * (2 * (m / 2)))) (m % 2)),
   clmul64 (lane e 0 ^^^ lane e 1)
     (lane (rawAt table (16 * (2 * (m / 2)))) (m % 2)
       ^^^ lane (rawAt table (16 * (2 * (m / 2) + 1))) (m % 2)),
   clmul64 (lane e 1) (lane (rawAt table (16 * (2 * (m / 2) + 1))) (m % 2)))

/-- Componentwise exclusive-or of `(c0, c1, c2)` triples. -/
def xor3 (a b : Nat × Nat × Nat) : Nat × Nat × Nat :=
  (a.1 ^^^ b.1, a.2.1 ^^^ b.2.1, a.2.2 ^^^ b.2.2)

/-- The sum of the partial products of a group of `s` blocks for the table entries
`i, i + 1, .., i + n - 1`; entry `m` is matched with block `s - 1 - m`. -/
def groupAcc (data table : List Nat) (x s : Nat) : Nat → Nat → Nat × Nat × Nat
  | 0, _ => (0, 0, 0)
  | n + 1, i =>
    xor3 (groupTerm table (blockIn data x (s - 1 - i)) i) (groupAcc data table x s n (i + 1))

/-- The accumulator after one group of `s` blocks. -/
def groupStep (data table : List Nat) (x s : Nat) : Nat :=
  GCM_Reduce_CLMUL (groupAcc data table x s s 0).1
    ((groupAcc data table x s s 0).2.1 ^^^ (groupAcc data table x s s 0).1
      ^^^ (groupAcc data table x s s 0).2.2)
    (groupAcc data table x s s 0).2.2 gcm_r

/-- The 64-bit little-endian value of the 8 bytes at offset `off`. -/
def le64At (mem : List Nat) (off : Nat) : Nat := ofBytesLE ((mem.drop off).take 8)

/-- The accumulator after the outer loop of `GCM_AuthenticateBlocks_CLMUL`: one
`groupStep` per group of `groupSize` blocks. -/
def authAcc (table : List Nat) : Nat → List Nat → Nat → Nat
  | 0, _, x => x
  | fuel + 1, data, x =>
    if 16 ≤ data.length then
      authAcc table fuel (data.drop (groupSize data.length * 16))
        (groupStep data table x (groupSize data.length))
    else x

/-- The block-by-block recurrence `X_0 = X`,
`X_(j+1) = GCM_Multiply_CLMUL(X_j XOR rev16(B_j), H, r)` over the first `n` 16-byte
blocks `B_j` of `data`, where `rev16` is the byte reversal `_mm_shuffle_epi8(., m1)` of
the loaded block. -/
def ghashBlocks (H : Nat) (data : List Nat) : Nat → Nat → Nat
  | 0, X => X
  | n + 1, X =>
    GCM_Multiply_CLMUL
      (ghashBlocks H data n X ^^^ _mm_shuffle_epi8 (rawAt data (16 * n)) gcm_m1) H gcm_r


/-- The field element a register value stands for: `GCM_Multiply_CLMUL` is the
multiplication of these elements (`mont_GCM_Multiply_CLMUL`). -/
noncomputable def mont (z : Nat) : GcmField := fieldOf z * fY ^ 127

/-- The value `c0 + c1' X^64 + c2 X^128` of a triple of partial products, with
`c1' = c1 + c0 + c2` the middle word after the Karatsuba correction. -/
noncomputable def psi (c : Nat × Nat × Nat) : GcmField :=
  fieldOf c.1 + fX ^ 64 * (fieldOf c.2.1 + fieldOf c.1 + fieldOf c.2.2) + fX ^ 128 * fieldOf c.2.2

/-- The first eight table slots hold the powers of `H` in the layout written by
`GCM_SetKeyWithoutResync_CLMUL`. -/
def IsPowerTable (table : List Nat) (H : Nat) : Prop :=
  ∀ k, k < 4 →
    rawAt table (16 * (2 * k))
      = ofLanes (lane (tablePower H (2 * k)) 0) (lane (tablePower H (2 * k + 1)) 0) ∧
    rawAt table (16 * (2 * k + 1))
      = ofLanes (lane (tablePower H (2 * k)) 1) (lane (tablePower H (2 * k + 1)) 1)

/-- The GCM polynomial `x^128 + x^7 + x^2 + x + 1`. -/
noncomputable def gcmStdPoly : (ZMod 2)[X] := X ^ 128 + X ^ 7 + X ^ 2 + X + 1

/-- The polynomial that the bit-reflected value `v` stands for when bit `k` is the
coefficient of `x^(n-k)`, for `k = 0 .. n`. -/
noncomputable def reflPoly (n v : Nat) : (ZMod 2)[X] :=
  ∑ k in Finset.range (n + 1), if v.testBit k then X ^ (n - k) else 0

/-- The exclusive-or over `j = 0 .. n-1` of `GCM_Multiply_CLMUL(E_j, H^(s-j), r)`, where
`E_0 = rev16(B_0) XOR X`, `E_j = rev16(B_j)` for `j >= 1` (`blockIn data x j`) and
`H^(s-j)` is the table power `tablePower H (s - j - 1)`. -/
def groupProducts (H : Nat) (data : List Nat) (x s : Nat) : Nat → Nat
  | 0 => 0
  | n + 1 => groupProducts H data x s n
      ^^^ GCM_Multiply_CLMUL (blockIn data x n) (tablePower H (s - n - 1)) gcm_r


/-! ## Theorems -/

theorem coeff_polyOf (n i : Nat) : (polyOf n).coeff i = if n.testBit i then 1 else 0 := by
  unfold polyOf
  rw [Polynomial.finset_sum_coeff]
  have h : ∀ b ∈ Finset.range (n + 1),
      (if n.testBit b then (X : (ZMod 2)[X]) ^ b else 0).coeff i
        = if i = b then (if n.testBit i then 1 else 0) else 0 := by
    intro b _
    by_cases hb : n.testBit b
    · simp only [hb, if_true, coeff_X_pow]
      by_cases hib : i = b
      · subst hib; simp [hb]
      · simp [hib]
    · simp only [hb]
      by_cases hib : i = b
      · subst hib; simp [hb]
      · simp [hib]
  rw [Finset.sum_congr rfl h, Finset.sum_ite_eq]
  by_cases hi : i ∈ Finset.range (n + 1)
  · simp [hi]
  · have : n.testBit i = false := by
      apply Nat.testBit_lt_two_pow
      have h1 : n < i := by simpa using hi
      exact lt_trans h1 (Nat.lt_two_pow i)
    simp [hi, this]

theorem polyOf_injective {a b : Nat} (h : polyOf a = polyOf b) : a = b := by
  apply Nat.eq_of_testBit_eq
  intro i
  have h1 := congrArg (fun p => p.coeff i) h
  simp only [coeff_polyOf] at h1
  by_cases ha : a.testBit i <;> by_cases hb : b.testBit i <;> simp_all

theorem polyOf_xor (a b : Nat) : polyOf (a ^^^ b) = polyOf a + polyOf b := by
  ext i
  simp only [coeff_polyOf, coeff_add, Nat.testBit_xor]
  by_cases ha : a.testBit i <;> by_cases hb : b.testBit i <;> simp [ha, hb]
  decide

theorem polyOf_zero : polyOf 0 = 0 := by
  ext i; simp [coeff_polyOf]

theorem polyOf_two_pow (k : Nat) : polyOf (2 ^ k) = X ^ k := by
  ext i
  simp only [coeff_polyOf, Nat.testBit_two_pow, coeff_X_pow]
  by_cases h : k = i <;> simp [h, eq_comm]

theorem polyOf_one : polyOf 1 = 1 := by
  simpa using polyOf_two_pow 0

theorem polyOf_shiftLeft (a k : Nat) : polyOf (a <<< k) = X ^ k * polyOf a := by
  ext i
  simp only [coeff_polyOf, Nat.testBit_shiftLeft, coeff_X_pow_mul']
  by_cases h : k ≤ i <;> simp [h]

theorem polyOf_two_pow_mul (a k : Nat) : polyOf (2 ^ k * a) = X ^ k * polyOf a := by
  rw [← polyOf_shiftLeft, Nat.shiftLeft_eq, Nat.mul_comm]

theorem polyOf_split (a k : Nat) :
    polyOf a = polyOf (a % 2 ^ k) + X ^ k * polyOf (a / 2 ^ k) := by
  ext i
  simp only [coeff_polyOf, coeff_add, coeff_X_pow_mul', Nat.testBit_mod_two_pow,
    ← Nat.shiftRight_eq_div_pow, Nat.testBit_shiftRight]
  by_cases h : k ≤ i
  · have h2 : ¬ i < k := by omega
    have h3 : k + (i - k) = i := by omega
    simp [h, h2, h3]
  · have h2 : i < k := by omega
    simp [h, h2]

theorem polyOf_add_two_pow_mul {lo k : Nat} (h : lo < 2 ^ k) (hi : Nat) :
    polyOf (lo + 2 ^ k * hi) = polyOf lo + X ^ k * polyOf hi := by
  rw [polyOf_split (lo + 2 ^ k * hi) k]
  have h1 : (lo + 2 ^ k * hi) % 2 ^ k = lo := by
    rw [Nat.add_mul_mod_self_left, Nat.mod_eq_of_lt h]
  have h2 : (lo + 2 ^ k * hi) / 2 ^ k = hi := by
    rw [Nat.add_mul_div_left _ _ (Nat.two_pow_pos k), Nat.div_eq_of_lt h, Nat.zero_add]
  rw [h1, h2]

theorem coeff_polyOf_of_lt {a n : Nat} (h : a < 2 ^ n) {i : Nat} (hi : n ≤ i) :
    (polyOf a).coeff i = 0 := by
  rw [coeff_polyOf]
  have : a.testBit i = false :=
    Nat.testBit_lt_two_pow (lt_of_lt_of_le h (Nat.pow_le_pow_right (by norm_num) hi))
  simp [this]

theorem degree_polyOf_lt {a n : Nat} (h : a < 2 ^ n) : (polyOf a).degree < n := by
  rw [Polynomial.degree_lt_iff_coeff_zero]
  intro m hm
  exact coeff_polyOf_of_lt h hm

theorem polyOf_clmulBits (n a b : Nat) :
    polyOf (clmulBits n a b) = polyOf (a % 2 ^ n) * polyOf b := by
  induction n generalizing a b with
  | zero => simp [clmulBits, Nat.mod_one, polyOf_zero]
  | succ n ih =>
    rw [clmulBits, polyOf_xor, ih, polyOf_split (a % 2 ^ (n + 1)) 1]
    have h1 : a % 2 ^ (n + 1) % 2 ^ 1 = a % 2 := by
      rw [pow_one, Nat.pow_succ, Nat.mod_mul_left_mod]
    have h2 : a % 2 ^ (n + 1) / 2 ^ 1 = a / 2 % 2 ^ n := by
      rw [pow_one, Nat.pow_succ, Nat.mul_comm, Nat.mod_mul_right_div_self]
    have h3 : polyOf (2 * b) = X * polyOf b := by
      simpa using polyOf_two_pow_mul b 1
    rw [h1, h2, h3]
    rcases Nat.mod_two_eq_zero_or_one a with h | h
    · simp [h, polyOf_zero]; ring
    · simp [h, polyOf_one]; ring

theorem polyOf_clmul64 (a b : Nat) :
    polyOf (clmul64 a b) = polyOf (a % 2 ^ 64) * polyOf (b % 2 ^ 64) := by
  rw [clmul64, polyOf_clmulBits, Nat.mod_mod]

theorem lt_two_pow_of_degree_lt {a n : Nat} (h : (polyOf a).degree < n) : a < 2 ^ n := by
  apply Nat.lt_pow_two_of_testBit
  intro i hi
  have := Polynomial.coeff_eq_zero_of_degree_lt (lt_of_lt_of_le h (by exact_mod_cast hi))
  rw [coeff_polyOf] at this
  by_cases hb : a.testBit i <;> simp_all

theorem degree_polyOf_le {a n : Nat} (h : a < 2 ^ (n + 1)) : (polyOf a).degree ≤ n := by
  rw [Polynomial.degree_le_iff_coeff_zero]
  intro m hm
  exact coeff_polyOf_of_lt h (by exact_mod_cast hm)

theorem lt_two_pow_of_degree_le {a n : Nat} (h : (polyOf a).degree ≤ n) : a < 2 ^ (n + 1) := by
  apply lt_two_pow_of_degree_lt
  exact lt_of_le_of_lt h (by exact_mod_cast Nat.lt_succ_self n)

theorem clmul64_lt (a b : Nat) : clmul64 a b < 2 ^ 127 := by
  apply @lt_two_pow_of_degree_le _ 126
  rw [polyOf_clmul64]
  have ha : (polyOf (a % 2 ^ 64)).degree ≤ (63 : ℕ) :=
    degree_polyOf_le (Nat.mod_lt _ (by norm_num))
  have hb : (polyOf (b % 2 ^ 64)).degree ≤ (63 : ℕ) :=
    degree_polyOf_le (Nat.mod_lt _ (by norm_num))
  refine (Polynomial.degree_mul_le _ _).trans ((add_le_add ha hb).trans ?_)
  exact_mod_cast le_refl (126 : ℕ)

theorem lane_lt (a k : Nat) : lane a k < 2 ^ 64 := Nat.mod_lt _ (by norm_num)

theorem lane_xor (a b k : Nat) : lane (a ^^^ b) k = lane a k ^^^ lane b k := by
  unfold lane
  apply Nat.eq_of_testBit_eq
  intro i
  simp only [Nat.testBit_mod_two_pow, Nat.testBit_shiftRight, Nat.testBit_xor]
  by_cases h : i < 64 <;> simp [h]

theorem lane_ofLanes_zero (lo hi : Nat) : lane (ofLanes lo hi) 0 = lo % 2 ^ 64 := by
  unfold lane ofLanes
  simp only [Nat.mul_zero, Nat.shiftRight_zero]
  omega

theorem lane_ofLanes_one (lo hi : Nat) : lane (ofLanes lo hi) 1 = hi % 2 ^ 64 := by
  unfold lane ofLanes
  simp only [Nat.mul_one, Nat.shiftRight_eq_div_pow]
  omega

theorem ofLanes_lane {a : Nat} (h : a < 2 ^ 128) : ofLanes (lane a 0) (lane a 1) = a := by
  unfold lane ofLanes
  simp only [Nat.mul_zero, Nat.shiftRight_zero, Nat.mul_one, Nat.shiftRight_eq_div_pow]
  omega

theorem lane_zero_of_lt {a : Nat} (h : a < 2 ^ 64) : lane a 0 = a := by
  unfold lane
  simp only [Nat.mul_zero, Nat.shiftRight_zero]
  omega

theorem lane_one_of_lt {a : Nat} (h : a < 2 ^ 64) : lane a 1 = 0 := by
  unfold lane
  simp only [Nat.mul_one, Nat.shiftRight_eq_div_pow]
  omega

theorem lane_slli_si128_zero (a : Nat) : lane (_mm_slli_si128 a 8) 0 = 0 := by
  unfold lane _mm_slli_si128
  simp only [Nat.mul_zero, Nat.shiftRight_zero, Nat.shiftLeft_eq]
  omega

theorem lane_slli_si128_one (a : Nat) : lane (_mm_slli_si128 a 8) 1 = lane a 0 := by
  unfold lane _mm_slli_si128
  simp only [Nat.mul_zero, Nat.shiftRight_zero, Nat.shiftLeft_eq, Nat.mul_one,
    Nat.shiftRight_eq_div_pow]
  omega

theorem lane_srli_si128_zero (a : Nat) : lane (_mm_srli_si128 a 8) 0 = lane a 1 := by
  unfold lane _mm_srli_si128
  simp only [Nat.mul_zero, Nat.shiftRight_zero, Nat.mul_one, Nat.shiftRight_eq_div_pow]
  omega

theorem lane_srli_si128_one (a : Nat) : lane (_mm_srli_si128 a 8) 1 = 0 := by
  unfold lane _mm_srli_si128
  simp only [Nat.mul_one, Nat.shiftRight_eq_div_pow]
  omega

theorem gcm_r_lanes : lane gcm_r 0 = 0xe100000000000000 ∧ lane gcm_r 1 = 0xc200000000000000 := by
  decide

theorem shl1_mod (a : Nat) : (a <<< 1) % 2 ^ 64 = 2 * (a % 2 ^ 63) := by
  rw [Nat.shiftLeft_eq]; omega

theorem shr63 (a : Nat) : a >>> 63 = a / 2 ^ 63 := Nat.shiftRight_eq_div_pow a 63

theorem testBit_ofLanes (lo hi j : Nat) :
    (ofLanes lo hi).testBit j =
      if j < 64 then lo.testBit j else (decide (j < 128) && hi.testBit (j - 64)) := by
  unfold ofLanes
  rw [Nat.add_comm, Nat.testBit_mul_pow_two_add _ (Nat.mod_lt _ (by norm_num))]
  by_cases h : j < 64
  · rw [if_pos h, if_pos h, Nat.testBit_mod_two_pow]; simp [h]
  · simp only [h, if_false, Nat.testBit_mod_two_pow]
    by_cases h2 : j < 128
    · have : j - 64 < 64 := by omega
      simp [h2, this]
    · have : ¬ j - 64 < 64 := by omega
      simp [h2, this]

theorem ofLanes_xor (a b c d : Nat) :
    ofLanes a b ^^^ ofLanes c d = ofLanes (a ^^^ c) (b ^^^ d) := by
  apply Nat.eq_of_testBit_eq
  intro j
  simp only [Nat.testBit_xor, testBit_ofLanes]
  by_cases h : j < 64
  · simp [h]
  · by_cases h2 : j < 128 <;> simp [h, h2]

theorem ofLanes_mod (a b : Nat) : ofLanes (a % 2 ^ 64) (b % 2 ^ 64) = ofLanes a b := by
  unfold ofLanes; simp only [Nat.mod_mod]

theorem ofLanes_lt (a b : Nat) : ofLanes a b < 2 ^ 128 := by
  unfold ofLanes; omega

theorem xor_mod_two_pow (a b n : Nat) : (a ^^^ b) % 2 ^ n = a % 2 ^ n ^^^ b % 2 ^ n := by
  apply Nat.eq_of_testBit_eq
  intro i
  simp only [Nat.testBit_mod_two_pow, Nat.testBit_xor]
  by_cases h : i < n <;> simp [h]

theorem lane_mod (a k : Nat) : lane a k % 2 ^ 64 = lane a k := Nat.mod_eq_of_lt (lane_lt a k)

theorem clmul64_mod_left (a b : Nat) : clmul64 (a % 2 ^ 64) b = clmul64 a b := by
  unfold clmul64; rw [Nat.mod_mod]

/-- Lane form of the reduction. -/
theorem GCM_Reduce_CLMUL_lanes (c0 c1 c2 r : Nat) :
    GCM_Reduce_CLMUL c0 c1 c2 r =
      (let e := clmul64 (lane c0 0) (lane r 1)
       let c1l := lane c1 0 ^^^ lane e 0
       let c1h := lane c1 1 ^^^ lane c0 0 ^^^ lane e 1
       let t := clmul64 ((lane c0 1 ^^^ c1l) <<< 1) (lane r 0)
       let c2l := lane c2 0 ^^^ lane t 0 ^^^ c1h
       let c2h := lane c2 1 ^^^ lane t 1
       ofLanes (c2l <<< 1 ^^^ c1l / 2 ^ 63) (c2h <<< 1 ^^^ c2l / 2 ^ 63)) := by
  simp only [GCM_Reduce_CLMUL, _mm_xor_si128, _mm_clmulepi64_si128, _mm_slli_epi64,
    _mm_srli_epi64, _mm_unpacklo_epi64, ofLanes_xor, lane_xor, lane_ofLanes_zero,
    lane_ofLanes_one, lane_slli_si128_zero, lane_slli_si128_one, lane_srli_si128_zero,
    lane_srli_si128_one, shr63, Nat.zero_xor, Nat.xor_zero, xor_mod_two_pow, lane_mod,
    clmul64_mod_left, Nat.reduceMod, Nat.reduceDiv]

theorem polyOf_lanes {a : Nat} (h : a < 2 ^ 128) :
    polyOf a = polyOf (lane a 0) + X ^ 64 * polyOf (lane a 1) := by
  have h1 : lane a 0 = a % 2 ^ 64 := by
    unfold lane; simp only [Nat.mul_zero, Nat.shiftRight_zero]
  have h2 : lane a 1 = a / 2 ^ 64 := by
    unfold lane; simp only [Nat.mul_one, Nat.shiftRight_eq_div_pow]; omega
  rw [h1, h2]
  exact polyOf_split a 64

theorem polyOf_ofLanes (lo hi : Nat) :
    polyOf (ofLanes lo hi) = polyOf (lo % 2 ^ 64) + X ^ 64 * polyOf (hi % 2 ^ 64) :=
  polyOf_add_two_pow_mul (Nat.mod_lt _ (by norm_num)) _

theorem polyOf_two_mul (a : Nat) : polyOf (2 * a) = X * polyOf a := by
  simpa using polyOf_two_pow_mul a 1

theorem lane_one_lt_of_lt {a : Nat} (h : a < 2 ^ 127) : lane a 1 < 2 ^ 63 := by
  unfold lane; simp only [Nat.mul_one, Nat.shiftRight_eq_div_pow]; omega

theorem gcmPoly_eq_low : X ^ 65 * polyOf 0xe100000000000000 = gcmPoly + 1 := by
  rw [← polyOf_shiftLeft, gcmPoly, ← polyOf_one, ← polyOf_xor]
  congr 1

theorem gcmPoly_eq_high : X ^ 128 + X ^ 64 * polyOf 0xc200000000000000 = gcmPoly + 1 := by
  rw [← polyOf_shiftLeft, ← polyOf_two_pow, ← polyOf_xor, gcmPoly, ← polyOf_one, ← polyOf_xor]
  congr 1

theorem polyOf_GCM_Reduce_CLMUL {c0 c1 c2 : Nat}
    (h0 : c0 < 2 ^ 127) (h1 : c1 < 2 ^ 128) (h2 : c2 < 2 ^ 127) :
    ∃ k, polyOf (GCM_Reduce_CLMUL c0 c1 c2 gcm_r) * X ^ 127
      = polyOf c0 + X ^ 64 * polyOf c1 + X ^ 128 * polyOf c2 + k * gcmPoly := by
  rw [GCM_Reduce_CLMUL_lanes]
  simp only [gcm_r_lanes.1, gcm_r_lanes.2]
  generalize he : clmul64 (lane c0 0) 0xc200000000000000 = e
  generalize hc1l : lane c1 0 ^^^ lane e 0 = c1l
  generalize hc1h : lane c1 1 ^^^ lane c0 0 ^^^ lane e 1 = c1h
  generalize ht : clmul64 ((lane c0 1 ^^^ c1l) <<< 1) 0xe100000000000000 = t
  generalize hc2l : lane c2 0 ^^^ lane t 0 ^^^ c1h = c2l
  generalize hc2h : lane c2 1 ^^^ lane t 1 = c2h
  -- bounds
  have ba1 : lane c0 1 < 2 ^ 63 := lane_one_lt_of_lt h0
  have bd1 : lane c2 1 < 2 ^ 63 := lane_one_lt_of_lt h2
  have be : e < 2 ^ 127 := he ▸ clmul64_lt _ _
  have bt : t < 2 ^ 127 := ht ▸ clmul64_lt _ _
  have bt1 : lane t 1 < 2 ^ 63 := lane_one_lt_of_lt bt
  have bc1l : c1l < 2 ^ 64 := hc1l ▸ Nat.xor_lt_two_pow (lane_lt _ _) (lane_lt _ _)
  have bc2h : c2h < 2 ^ 63 := hc2h ▸ Nat.xor_lt_two_pow bd1 bt1
  -- polynomial facts
  have pc0 := polyOf_lanes (lt_trans h0 (by norm_num : 2 ^ 127 < 2 ^ 128))
  have pc1 := polyOf_lanes h1
  have pc2 := polyOf_lanes (lt_trans h2 (by norm_num : 2 ^ 127 < 2 ^ 128))
  have pe := polyOf_lanes (lt_trans be (by norm_num : 2 ^ 127 < 2 ^ 128))
  have pt := polyOf_lanes (lt_trans bt (by norm_num : 2 ^ 127 < 2 ^ 128))
  have pe' : polyOf e = polyOf (lane c0 0) * polyOf 0xc200000000000000 := by
    rw [← he, polyOf_clmul64, lane_mod]; norm_num
  have pc1l : polyOf c1l = polyOf (lane c1 0) + polyOf (lane e 0) := by
    rw [← hc1l, polyOf_xor]
  have pc1h : polyOf c1h = polyOf (lane c1 1) + polyOf (lane c0 0) + polyOf (lane e 1) := by
    rw [← hc1h, polyOf_xor, polyOf_xor]
  have sc1l := polyOf_split c1l 63
  have pt' : polyOf t
      = X * (polyOf (lane c0 1) + polyOf (c1l % 2 ^ 63)) * polyOf 0xe100000000000000 := by
    rw [← ht, polyOf_clmul64, shl1_mod, xor_mod_two_pow, Nat.mod_eq_of_lt ba1, polyOf_two_mul,
      polyOf_xor]
    norm_num
  have pc2l : polyOf c2l = polyOf (lane c2 0) + polyOf (lane t 0) + polyOf c1h := by
    rw [← hc2l, polyOf_xor, polyOf_xor]
  have pc2h : polyOf c2h = polyOf (lane c2 1) + polyOf (lane t 1) := by
    rw [← hc2h, polyOf_xor]
  have sc2l := polyOf_split c2l 63
  have w1 : c1l / 2 ^ 63 % 2 ^ 64 = c1l / 2 ^ 63 := by omega
  have w2 : c2l / 2 ^ 63 % 2 ^ 64 = c2l / 2 ^ 63 := by
    have : c2l < 2 ^ 64 := by
      rw [← hc2l, ← hc1h]
      exact Nat.xor_lt_two_pow (Nat.xor_lt_two_pow (lane_lt _ _) (lane_lt _ _))
        (Nat.xor_lt_two_pow (Nat.xor_lt_two_pow (lane_lt _ _) (lane_lt _ _)) (lane_lt _ _))
    omega
  have pr : polyOf (ofLanes (c2l <<< 1 ^^^ c1l / 2 ^ 63) (c2h <<< 1 ^^^ c2l / 2 ^ 63))
      = X * polyOf (c2l % 2 ^ 63) + polyOf (c1l / 2 ^ 63)
        + X ^ 64 * (X * polyOf c2h + polyOf (c2l / 2 ^ 63)) := by
    rw [polyOf_ofLanes, xor_mod_two_pow, xor_mod_two_pow, shl1_mod, shl1_mod, w1, w2,
      Nat.mod_eq_of_lt bc2h, polyOf_xor, polyOf_xor, polyOf_two_mul, polyOf_two_mul]
  refine ⟨X ^ 64 * (polyOf (lane c0 1) + polyOf (c1l % 2 ^ 63)) + polyOf (lane c0 0), ?_⟩
  rw [pr, pc0, pc1, pc2]
  linear_combination X ^ 128 * sc2l.symm + X ^ 128 * pc2l + X^128 * pc1h + X ^ 192 * pc2h
    + X ^ 128 * pt.symm + X ^128 * pt' + X ^ 64 * sc1l.symm + X ^ 64 * pc1l
    + X ^ 64 * pe.symm + X ^ 64 * pe'
    + X ^ 64 * (polyOf (lane c0 1) + polyOf (c1l % 2 ^ 63)) * gcmPoly_eq_low
    + polyOf (lane c0 0) * gcmPoly_eq_high

theorem fieldOf_xor (a b : Nat) : fieldOf (a ^^^ b) = fieldOf a + fieldOf b := by
  simp only [fieldOf, polyOf_xor, map_add]

theorem fieldOf_zero : fieldOf 0 = 0 := by
  simp only [fieldOf, polyOf_zero, map_zero]

theorem fieldOf_one : fieldOf 1 = 1 := by
  simp only [fieldOf, polyOf_one, map_one]

theorem fX_mul_fY : fX * fY = 1 := by
  have h : X * polyOf (2 ^ 127 + 2 ^ 126 + 2 ^ 125 + 2 ^ 120) = gcmPoly + 1 := by
    rw [← polyOf_two_mul, gcmPoly, ← polyOf_one, ← polyOf_xor]
    congr 1
  have h2 := congrArg (AdjoinRoot.mk gcmPoly) h
  simpa [fX, fY, fieldOf, map_mul, map_add, AdjoinRoot.mk_self] using h2

theorem fX_pow_mul_fY_pow (n : Nat) : fX ^ n * fY ^ n = 1 := by
  rw [← mul_pow, fX_mul_fY, one_pow]

theorem degree_gcmPoly : gcmPoly.degree = (128 : ℕ) := by
  have h : gcmPoly = X ^ 128 + polyOf (2 ^ 127 + 2 ^ 126 + 2 ^ 121 + 1) := by
    rw [gcmPoly, ← polyOf_two_pow, ← polyOf_xor]
    congr 1
  have hlt : (polyOf (2 ^ 127 + 2 ^ 126 + 2 ^ 121 + 1)).degree < ((X : (ZMod 2)[X]) ^ 128).degree := by
    rw [Polynomial.degree_X_pow]
    exact degree_polyOf_lt (by norm_num)
  rw [h, Polynomial.degree_add_eq_left_of_degree_lt hlt, Polynomial.degree_X_pow]

theorem fieldOf_injective {a b : Nat} (ha : a < 2 ^ 128) (hb : b < 2 ^ 128)
    (h : fieldOf a = fieldOf b) : a = b := by
  apply polyOf_injective
  have h1 : AdjoinRoot.mk gcmPoly (polyOf a - polyOf b) = 0 := by
    rw [map_sub]; exact sub_eq_zero.mpr h
  rw [AdjoinRoot.mk_eq_zero] at h1
  have h2 : (polyOf a - polyOf b).degree < gcmPoly.degree := by
    rw [degree_gcmPoly]
    exact lt_of_le_of_lt (Polynomial.degree_sub_le _ _)
      (max_lt (degree_polyOf_lt ha) (degree_polyOf_lt hb))
  exact sub_eq_zero.mp (Polynomial.eq_zero_of_dvd_of_degree_lt h1 h2)

theorem fieldOf_eq_of_mul_pow {a b : Nat} (ha : a < 2 ^ 128) (hb : b < 2 ^ 128) (n : Nat)
    (h : fieldOf a * fX ^ n = fieldOf b * fX ^ n) : a = b := by
  apply fieldOf_injective ha hb
  have := congrArg (fun z => z * fY ^ n) h
  simpa [mul_assoc, fX_pow_mul_fY_pow] using this

theorem GCM_Reduce_CLMUL_lt (c0 c1 c2 r : Nat) : GCM_Reduce_CLMUL c0 c1 c2 r < 2 ^ 128 := by
  rw [GCM_Reduce_CLMUL_lanes]
  exact ofLanes_lt _ _

theorem fieldOf_GCM_Reduce_CLMUL {c0 c1 c2 : Nat}
    (h0 : c0 < 2 ^ 127) (h1 : c1 < 2 ^ 128) (h2 : c2 < 2 ^ 127) :
    fieldOf (GCM_Reduce_CLMUL c0 c1 c2 gcm_r) * fX ^ 127
      = fieldOf c0 + fX ^ 64 * fieldOf c1 + fX ^ 128 * fieldOf c2 := by
  obtain ⟨k, hk⟩ := polyOf_GCM_Reduce_CLMUL h0 h1 h2
  have := congrArg (AdjoinRoot.mk gcmPoly) hk
  simpa [fX, fieldOf, map_mul, map_add, map_pow, AdjoinRoot.mk_self] using this

theorem GCM_Multiply_CLMUL_lt (x h r : Nat) : GCM_Multiply_CLMUL x h r < 2 ^ 128 :=
  GCM_Reduce_CLMUL_lt _ _ _ _

theorem fieldOf_clmul64 (a b : Nat) :
    fieldOf (clmul64 a b) = fieldOf (a % 2 ^ 64) * fieldOf (b % 2 ^ 64) := by
  simp only [fieldOf, polyOf_clmul64, map_mul]

theorem fieldOf_lanes {a : Nat} (h : a < 2 ^ 128) :
    fieldOf a = fieldOf (lane a 0) + fX ^ 64 * fieldOf (lane a 1) := by
  simp only [fieldOf, fX, ← map_pow, ← map_mul, ← map_add, ← polyOf_lanes h]

theorem fieldOf_GCM_Multiply_CLMUL {x h : Nat} (hx : x < 2 ^ 128) (hh : h < 2 ^ 128) :
    fieldOf (GCM_Multiply_CLMUL x h gcm_r) * fX ^ 127 = fieldOf x * fieldOf h := by
  unfold GCM_Multiply_CLMUL
  simp only [_mm_clmulepi64_si128, _mm_xor_si128, Nat.reduceMod, Nat.reduceDiv]
  rw [fieldOf_GCM_Reduce_CLMUL (clmul64_lt _ _)
      (lt_trans (Nat.xor_lt_two_pow (clmul64_lt _ _) (clmul64_lt _ _)) (by norm_num))
      (clmul64_lt _ _)]
  rw [fieldOf_xor, fieldOf_clmul64, fieldOf_clmul64, fieldOf_clmul64, fieldOf_clmul64,
    fieldOf_lanes hx, fieldOf_lanes hh]
  simp only [lane_mod]
  ring

/-! ### The reference multiplication -/

theorem bitsEval_append (l1 l2 : List Bool) :
    bitsEval (l1 ++ l2) = bitsEval l1 + fY ^ l1.length * bitsEval l2 := by
  induction l1 with
  | nil => simp [bitsEval]
  | cons b l ih =>
    rw [List.cons_append]
    simp only [bitsEval, List.length_cons, pow_succ]
    rw [ih]
    ring

theorem fY_mul_fX : fY * fX = 1 := by rw [mul_comm]; exact fX_mul_fY

theorem gcm_gf_mult_step_spec (bi j : Nat) (st : Nat × Nat × Nat × Nat) (hwf : refWf st) :
    refWf (gcm_gf_mult_step bi st j) ∧
    fieldOf (refZ (gcm_gf_mult_step bi st j))
      = fieldOf (refZ st) + fieldOf (refV st) * (if bi &&& j ≠ 0 then 1 else 0) ∧
    fieldOf (refV (gcm_gf_mult_step bi st j)) = fY * fieldOf (refV st) := by
  obtain ⟨Z0, Z1, V0, V1⟩ := st
  obtain ⟨hZ0, hZ1, hV0, hV1⟩ := hwf
  simp only at hZ0 hZ1 hV0 hV1
  have hc : (0xe1 <<< 56) % 2 ^ 64 = 0xe100000000000000 := by decide
  have hV1' : (V1 >>> 1) ||| ((V0 <<< 63) % 2 ^ 64) = V1 / 2 + 2 ^ 63 * (V0 % 2) := by
    have e1 : (V0 <<< 63) % 2 ^ 64 = 2 ^ 63 * (V0 % 2) := by rw [Nat.shiftLeft_eq]; omega
    have e2 : V1 >>> 1 = V1 / 2 := by rw [Nat.shiftRight_eq_div_pow]
    rw [e1, e2, Nat.or_comm, ← Nat.mul_add_lt_is_or (by omega), Nat.add_comm]
  have hV0s : V0 >>> 1 = V0 / 2 := by rw [Nat.shiftRight_eq_div_pow]
  simp only [gcm_gf_mult_step, refWf, refZ, refV, hc, hV1', hV0s, Nat.and_one_is_mod]
  refine ⟨⟨?_, ?_, ?_, ?_⟩, ?_, ?_⟩
  · by_cases hb : bi &&& j ≠ 0
    · rw [if_pos hb]; exact Nat.xor_lt_two_pow hZ0 hV0
    · rw [if_neg hb, Nat.xor_zero]; exact hZ0
  · by_cases hb : bi &&& j ≠ 0
    · rw [if_pos hb]; exact Nat.xor_lt_two_pow hZ1 hV1
    · rw [if_neg hb, Nat.xor_zero]; exact hZ1
  · split
    · exact Nat.xor_lt_two_pow (by omega) (by norm_num)
    · simp only [Nat.xor_zero]; omega
  · omega
  · by_cases hb : bi &&& j ≠ 0
    · rw [if_pos hb, if_pos hb, if_pos hb, ← ofLanes_xor, fieldOf_xor, mul_one]
    · rw [if_neg hb, if_neg hb, if_neg hb, Nat.xor_zero, Nat.xor_zero, mul_zero, add_zero]
  · have key : fX * fieldOf (ofLanes (V1 / 2 + 2 ^ 63 * (V0 % 2))
        (V0 / 2 ^^^ if V1 % 2 ≠ 0 then 0xe100000000000000 else 0)) = fieldOf (ofLanes V1 V0) := by
      have b1 : (V1 / 2 + 2 ^ 63 * (V0 % 2)) % 2 ^ 64 = V1 / 2 + 2 ^ 63 * (V0 % 2) := by omega
      have p1 : polyOf (V1 / 2 + 2 ^ 63 * (V0 % 2)) = polyOf (V1 / 2) + X ^ 63 * polyOf (V0 % 2) :=
        polyOf_add_two_pow_mul (by omega) _
      have s1 := polyOf_split V1 1
      have s0 := polyOf_split V0 1
      simp only [pow_one] at s1 s0
      have e1 : polyOf (ofLanes V1 V0) = polyOf V1 + X ^ 64 * polyOf V0 := by
        rw [polyOf_ofLanes, Nat.mod_eq_of_lt hV1, Nat.mod_eq_of_lt hV0]
      rcases Nat.mod_two_eq_zero_or_one V1 with h | h
      · have e2 : polyOf (ofLanes (V1 / 2 + 2 ^ 63 * (V0 % 2)) (V0 / 2 ^^^ 0))
            = polyOf (V1 / 2) + X ^ 63 * polyOf (V0 % 2) + X ^ 64 * polyOf (V0 / 2) := by
          rw [polyOf_ofLanes, b1, p1, Nat.xor_zero, Nat.mod_eq_of_lt (by omega : V0 / 2 < 2 ^ 64)]
        simp only [h, ne_eq, not_true_eq_false, if_false, fieldOf, fX, ← map_mul]
        congr 1
        rw [e1, e2]
        rw [h, polyOf_zero] at s1
        linear_combination (-1 : (ZMod 2)[X]) * s1 - X ^ 64 * s0
      · have b2 : (V0 / 2 ^^^ 0xe100000000000000) % 2 ^ 64 = V0 / 2 ^^^ 0xe100000000000000 :=
          Nat.mod_eq_of_lt (Nat.xor_lt_two_pow (by omega) (by norm_num))
        have e2 : polyOf (ofLanes (V1 / 2 + 2 ^ 63 * (V0 % 2)) (V0 / 2 ^^^ 0xe100000000000000))
            = polyOf (V1 / 2) + X ^ 63 * polyOf (V0 % 2)
              + X ^ 64 * (polyOf (V0 / 2) + polyOf 0xe100000000000000) := by
          rw [polyOf_ofLanes, b1, p1, b2, polyOf_xor]
        have h' : V1 % 2 ≠ 0 := by omega
        simp only [h', ne_eq, not_false_eq_true, if_true, fieldOf, fX, ← map_mul]
        rw [e1, e2]
        rw [h, polyOf_one] at s1
        have e3 : X * (polyOf (V1 / 2) + X ^ 63 * polyOf (V0 % 2)
              + X ^ 64 * (polyOf (V0 / 2) + polyOf 0xe100000000000000))
            = polyOf V1 + X ^ 64 * polyOf V0 + gcmPoly := by
          linear_combination (-1 : (ZMod 2)[X]) * s1 - X ^ 64 * s0 + gcmPoly_eq_low
        rw [e3, map_add, AdjoinRoot.mk_self, add_zero]
    have := congrArg (fun z => fY * z) key
    simpa [← mul_assoc, fY_mul_fX] using this

theorem gcm_gf_mult_inner_spec (bi : Nat) (js : List Nat) (st : Nat × Nat × Nat × Nat)
    (hwf : refWf st) :
    refWf (js.foldl (gcm_gf_mult_step bi) st) ∧
    fieldOf (refZ (js.foldl (gcm_gf_mult_step bi) st))
      = fieldOf (refZ st)
        + fieldOf (refV st) * bitsEval (js.map (fun j => decide (bi &&& j ≠ 0))) ∧
    fieldOf (refV (js.foldl (gcm_gf_mult_step bi) st)) = fY ^ js.length * fieldOf (refV st) := by
  induction js generalizing st with
  | nil => simp [bitsEval, hwf]
  | cons j js ih =>
    obtain ⟨w1, z1, v1⟩ := gcm_gf_mult_step_spec bi j st hwf
    obtain ⟨w2, z2, v2⟩ := ih (gcm_gf_mult_step bi st j) w1
    refine ⟨w2, ?_, ?_⟩
    · rw [List.foldl_cons, z2, z1, v1, List.map_cons, bitsEval]
      by_cases hb : bi &&& j ≠ 0
      · rw [if_pos hb, decide_eq_true hb, if_pos rfl]; ring
      · rw [if_neg hb, decide_eq_false hb, if_neg (by simp)]; ring
    · rw [List.foldl_cons, v2, v1, List.length_cons, pow_succ]; ring

theorem gcm_gf_mult_outer_spec (bs : List Nat) (st : Nat × Nat × Nat × Nat) (hwf : refWf st) :
    refWf (bs.foldl (fun st bi => gcm_gf_mult_masks.foldl (gcm_gf_mult_step (bi % 256)) st) st) ∧
    fieldOf (refZ (bs.foldl
        (fun st bi => gcm_gf_mult_masks.foldl (gcm_gf_mult_step (bi % 256)) st) st))
      = fieldOf (refZ st)
        + fieldOf (refV st) * bitsEval (bs.flatMap (fun bi => byteBits (bi % 256))) ∧
    fieldOf (refV (bs.foldl
        (fun st bi => gcm_gf_mult_masks.foldl (gcm_gf_mult_step (bi % 256)) st) st))
      = fY ^ (8 * bs.length) * fieldOf (refV st) := by
  induction bs generalizing st with
  | nil => simp [bitsEval, hwf]
  | cons b bs ih =>
    obtain ⟨w1, z1, v1⟩ := gcm_gf_mult_inner_spec (b % 256) gcm_gf_mult_masks st hwf
    obtain ⟨w2, z2, v2⟩ := ih _ w1
    refine ⟨w2, ?_, ?_⟩
    · rw [List.foldl_cons, z2, z1, v1, List.flatMap_cons, bitsEval_append]
      have hl : (byteBits (b % 256)).length = gcm_gf_mult_masks.length := by
        simp [byteBits]
      rw [hl, byteBits]; ring
    · rw [List.foldl_cons, v2, v1, List.length_cons]
      have : gcm_gf_mult_masks.length = 8 := rfl
      rw [this, Nat.mul_succ, pow_add]; ring

theorem and_two_pow_ne_zero (c s : Nat) : (c &&& 2 ^ s ≠ 0) ↔ c.testBit s = true := by
  constructor
  · intro h
    obtain ⟨i, hi⟩ := Nat.ne_zero_implies_bit_true h
    simp only [Nat.testBit_and, Nat.testBit_two_pow, Bool.and_eq_true, decide_eq_true_eq] at hi
    obtain ⟨h1, h2⟩ := hi
    subst h2; exact h1
  · intro h h0
    have := congrArg (fun z => z.testBit s) h0
    simp [h, Nat.testBit_two_pow] at this

theorem fieldOf_mod_two_pow_succ (h n : Nat) :
    fieldOf (h % 2 ^ (n + 1)) = fieldOf (h % 2 ^ n) + fX ^ n * (if h.testBit n then 1 else 0) := by
  have e : h % 2 ^ (n + 1) = h % 2 ^ n + 2 ^ n * (h / 2 ^ n % 2) := by
    rw [Nat.pow_succ, Nat.mod_mul]
  have p := polyOf_add_two_pow_mul (Nat.mod_lt h (Nat.two_pow_pos n)) (h / 2 ^ n % 2)
  rw [e]
  simp only [fieldOf, p, map_add, map_mul, map_pow, fX]
  congr 2
  rw [Nat.testBit_to_div_mod]
  rcases Nat.mod_two_eq_zero_or_one (h / 2 ^ n) with h0 | h0
  · simp [h0, polyOf_zero]
  · simp [h0, polyOf_one]

theorem bitsEval_bitsMSB (n h : Nat) :
    fX ^ n * bitsEval (bitsMSB n h) = fX * fieldOf (h % 2 ^ n) := by
  induction n with
  | zero => simp [bitsMSB, bitsEval, Nat.mod_one, fieldOf_zero]
  | succ n ih =>
    rw [bitsMSB, bitsEval, fieldOf_mod_two_pow_succ]
    have : fX ^ (n + 1) * ((if h.testBit n then 1 else 0) + fY * bitsEval (bitsMSB n h))
        = fX ^ (n + 1) * (if h.testBit n then 1 else 0)
          + (fX * fY) * (fX ^ n * bitsEval (bitsMSB n h)) := by ring
    rw [this, ih, fX_mul_fY]; ring

theorem byteBits_eq (c : Nat) : byteBits c = bitsMSB 8 c := by
  have h : ∀ s, decide (c &&& 2 ^ s ≠ 0) = c.testBit s := by
    intro s
    by_cases hb : c.testBit s
    · rw [hb]; exact decide_eq_true ((and_two_pow_ne_zero c s).mpr hb)
    · have hb' : c.testBit s = false := by simpa using hb
      rw [hb']; exact decide_eq_false (fun hne => hb ((and_two_pow_ne_zero c s).mp hne))
  simp only [byteBits, gcm_gf_mult_masks, List.map, bitsMSB]
  rw [← h 7, ← h 6, ← h 5, ← h 4, ← h 3, ← h 2, ← h 1, ← h 0]
  rfl

/-! ### Byte strings -/

theorem toBytesLE_length (n v : Nat) : (toBytesLE n v).length = n := by
  induction n generalizing v with
  | zero => rfl
  | succ n ih => simp [toBytesLE, ih]

theorem toBytesBE_length (n v : Nat) : (toBytesBE n v).length = n := by
  simp [toBytesBE, toBytesLE_length]

theorem ofBytesLE_toBytesLE (n v : Nat) : ofBytesLE (toBytesLE n v) = v % 256 ^ n := by
  induction n generalizing v with
  | zero => simp [toBytesLE, ofBytesLE, Nat.mod_one]
  | succ n ih =>
    rw [toBytesLE, ofBytesLE, ih, Nat.mod_mod, Nat.pow_succ, Nat.mul_comm (256 ^ n) 256,
      Nat.mod_mul]

theorem ofBytesBE_toBytesBE (n v : Nat) : ofBytesBE (toBytesBE n v) = v % 256 ^ n := by
  rw [ofBytesBE, toBytesBE, List.reverse_reverse, ofBytesLE_toBytesLE]

theorem toBytesLE_add (m n v : Nat) :
    toBytesLE (m + n) v = toBytesLE m v ++ toBytesLE n (v / 256 ^ m) := by
  induction m generalizing v with
  | zero => simp [toBytesLE]
  | succ m ih =>
    rw [Nat.add_right_comm, toBytesLE, toBytesLE, ih, List.cons_append, Nat.div_div_eq_div_mul,
      Nat.pow_succ, Nat.mul_comm 256]

theorem toBytesBE_add (m n v : Nat) :
    toBytesBE (m + n) v = toBytesBE n (v / 256 ^ m) ++ toBytesBE m v := by
  rw [toBytesBE, toBytesLE_add, List.reverse_append]; rfl

theorem toBytesLE_mod (n v : Nat) : toBytesLE n (v % 256 ^ n) = toBytesLE n v := by
  induction n generalizing v with
  | zero => rfl
  | succ n ih =>
    have h1 : v % 256 ^ (n + 1) % 256 = v % 256 := by
      rw [Nat.pow_succ, Nat.mul_comm, Nat.mod_mul_right_mod]
    have h2 : v % 256 ^ (n + 1) / 256 = v / 256 % 256 ^ n := by
      rw [Nat.pow_succ, Nat.mul_comm, Nat.mod_mul_right_div_self]
    rw [toBytesLE, toBytesLE, h1, h2, ih]

theorem toBytesBE_mod (n v : Nat) : toBytesBE n (v % 256 ^ n) = toBytesBE n v := by
  rw [toBytesBE, toBytesLE_mod]; rfl

theorem toBytesBE_succ (n v : Nat) : toBytesBE (n + 1) v = toBytesBE n (v / 256) ++ [v % 256] := by
  simp [toBytesBE, toBytesLE]

/-! ### Bits of a byte string -/

theorem bitsMSB_add (m k h : Nat) :
    bitsMSB (m + k) h = bitsMSB m (h / 2 ^ k) ++ bitsMSB k h := by
  induction m with
  | zero => simp [bitsMSB]
  | succ m ih =>
    rw [Nat.add_right_comm, bitsMSB, bitsMSB, ih, List.cons_append,
      ← Nat.shiftRight_eq_div_pow, Nat.testBit_shiftRight, Nat.add_comm k m]

theorem bitsMSB_mod (k m h : Nat) (hk : k ≤ m) : bitsMSB k (h % 2 ^ m) = bitsMSB k h := by
  induction k with
  | zero => rfl
  | succ k ih =>
    rw [bitsMSB, bitsMSB, ih (by omega), Nat.testBit_mod_two_pow]
    have : k < m := by omega
    simp [this]

theorem flatMap_byteBits_toBytesBE (n h : Nat) :
    (toBytesBE n h).flatMap (fun bi => byteBits (bi % 256)) = bitsMSB (8 * n) h := by
  induction n generalizing h with
  | zero => rfl
  | succ n ih =>
    rw [toBytesBE_succ, List.flatMap_append, ih, Nat.mul_succ, bitsMSB_add]
    simp only [List.flatMap_cons, List.flatMap_nil, List.append_nil, byteBits_eq, Nat.mod_mod]
    have : (256 : Nat) = 2 ^ 8 := by norm_num
    rw [this, bitsMSB_mod 8 8 h (le_refl _)]

theorem foldl_range_getD {α : Type} (f : α → Nat → α) (b : List Nat) (st : α) :
    (List.range b.length).foldl (fun st i => f st (b.getD i 0)) st = b.foldl f st := by
  induction b generalizing st with
  | nil => rfl
  | cons a l ih =>
    rw [List.length_cons, List.range_succ_eq_map, List.foldl_cons, List.foldl_map]
    simp only [List.getD_cons_zero, List.getD_cons_succ, List.foldl_cons]
    exact ih _

theorem refZ_bytes (st : Nat × Nat × Nat × Nat) (hwf : refWf st) :
    toBytesBE 8 st.1 ++ toBytesBE 8 st.2.1 = toBytesBE 16 (refZ st) := by
  obtain ⟨Z0, Z1, V0, V1⟩ := st
  obtain ⟨hZ0, hZ1, -, -⟩ := hwf
  simp only at hZ0 hZ1
  have e := toBytesBE_add 8 8 (refZ (Z0, Z1, V0, V1))
  have h8 : (256 : Nat) ^ 8 = 2 ^ 64 := by norm_num
  have h1 : refZ (Z0, Z1, V0, V1) / 256 ^ 8 = Z0 := by
    simp only [refZ, ofLanes, h8]; omega
  have h2 : refZ (Z0, Z1, V0, V1) % 256 ^ 8 = Z1 := by
    simp only [refZ, ofLanes, h8]; omega
  rw [h1, ← toBytesBE_mod 8 (refZ (Z0, Z1, V0, V1)), h2] at e
  exact e.symm

theorem gcm_gf_mult_spec {x h : Nat} (hx : x < 2 ^ 128) :
    ∃ z, z < 2 ^ 128 ∧ gcm_gf_mult (toBytesBE 16 x) (toBytesBE 16 h) = toBytesBE 16 z ∧
      fieldOf z * fX ^ 127 = fieldOf x * fieldOf (h % 2 ^ 128) := by
  have h8 : (256 : Nat) ^ 8 = 2 ^ 64 := by norm_num
  have ex := toBytesBE_add 8 8 x
  have hV0 : ofBytesBE ((toBytesBE 16 x).take 8) = x / 2 ^ 64 := by
    rw [ex, List.take_left' (toBytesBE_length _ _), ofBytesBE_toBytesBE, h8]; omega
  have hV1 : ofBytesBE (((toBytesBE 16 x).drop 8).take 8) = x % 2 ^ 64 := by
    rw [ex, List.drop_left' (toBytesBE_length _ _), List.take_of_length_le
      (le_of_eq (toBytesBE_length _ _)), ofBytesBE_toBytesBE, h8]
  have hwf : refWf (0, 0, x / 2 ^ 64, x % 2 ^ 64) := by
    refine ⟨by norm_num, by norm_num, ?_, ?_⟩ <;> simp only <;> omega
  have hfold := foldl_range_getD
    (fun st bi => gcm_gf_mult_masks.foldl (gcm_gf_mult_step (bi % 256)) st)
    (toBytesBE 16 h) (0, 0, x / 2 ^ 64, x % 2 ^ 64)
  rw [toBytesBE_length] at hfold
  obtain ⟨w, z, -⟩ := gcm_gf_mult_outer_spec (toBytesBE 16 h) _ hwf
  refine ⟨refZ ((toBytesBE 16 h).foldl
      (fun st bi => gcm_gf_mult_masks.foldl (gcm_gf_mult_step (bi % 256)) st)
      (0, 0, x / 2 ^ 64, x % 2 ^ 64)), ofLanes_lt _ _, ?_, ?_⟩
  · rw [← refZ_bytes _ w, ← hfold]
    simp only [gcm_gf_mult, hV0, hV1]
  · rw [z, flatMap_byteBits_toBytesBE]
    have hZ0 : refZ (0, 0, x / 2 ^ 64, x % 2 ^ 64) = 0 := by simp [refZ, ofLanes]
    have hVx : refV (0, 0, x / 2 ^ 64, x % 2 ^ 64) = x := by
      simp only [refV, ofLanes]; omega
    rw [hZ0, hVx, fieldOf_zero, zero_add]
    have hb := bitsEval_bitsMSB 128 h
    have : bitsEval (bitsMSB (8 * 16) h) * fX ^ 127 = fieldOf (h % 2 ^ 128) := by
      have := congrArg (fun t => fY * t) hb
      simp only [← mul_assoc, fY_mul_fX, one_mul] at this
      rw [← this]
      have e : fX ^ 128 = fX * fX ^ 127 := by ring
      rw [e, ← mul_assoc, fY_mul_fX]; ring
    rw [mul_assoc, this]

/-- C1: for all 128-bit values `x` and `h`, `GCM_Multiply_CLMUL(x, h, r)` with the
reduction constant `r` of the source equals the bit-serial reference product
`gcm_gf_mult` of `x` and `h`, a register value being identified with its 16-byte
big-endian string. -/
theorem GCM_Multiply_CLMUL_eq_gcm_gf_mult (x h : Nat) (hx : x < 2 ^ 128) (hh : h < 2 ^ 128) :
    toBytesBE 16 (GCM_Multiply_CLMUL x h gcm_r)
      = gcm_gf_mult (toBytesBE 16 x) (toBytesBE 16 h) := by
  obtain ⟨z, hz, hb, hf⟩ := @gcm_gf_mult_spec x h hx
  rw [Nat.mod_eq_of_lt hh, ← fieldOf_GCM_Multiply_CLMUL hx hh] at hf
  rw [hb, fieldOf_eq_of_mul_pow hz (GCM_Multiply_CLMUL_lt _ _ _) 127 hf]

theorem GCM_Multiply_CLMUL_eq_gcm_gf_mult_witness :
    toBytesBE 16 (GCM_Multiply_CLMUL 0x0388dace60b6a392f328c2b971b2fe78
        0x66e94bd4ef8a2c3b884cfa59ca342b2e gcm_r)
      = gcm_gf_mult (toBytesBE 16 0x0388dace60b6a392f328c2b971b2fe78)
          (toBytesBE 16 0x66e94bd4ef8a2c3b884cfa59ca342b2e) :=
  GCM_Multiply_CLMUL_eq_gcm_gf_mult _ _ (by decide) (by decide)

/-! ### Byte shuffles -/

theorem byteOf_lt (v k : Nat) : byteOf v k < 256 := Nat.mod_lt _ (by norm_num)

theorem ofBytesLE_append (l1 l2 : List Nat) :
    ofBytesLE (l1 ++ l2) = ofBytesLE l1 + 256 ^ l1.length * ofBytesLE l2 := by
  induction l1 with
  | nil => simp [ofBytesLE]
  | cons b l ih =>
    rw [List.cons_append, ofBytesLE, ofBytesLE, ih, List.length_cons, Nat.pow_succ]
    ring

theorem ofBytesLE_lt (l : List Nat) : ofBytesLE l < 256 ^ l.length := by
  induction l with
  | nil => simp [ofBytesLE]
  | cons b l ih =>
    rw [ofBytesLE, List.length_cons, Nat.pow_succ]
    have := Nat.mod_lt b (by norm_num : 0 < 256)
    omega

theorem gcm_m1_bytes : ∀ k, k < 16 → byteOf gcm_m1 k = 15 - k := by decide

theorem gcm_m2_bytes : ∀ k, k < 16 → byteOf gcm_m2 k = if k < 8 then 7 - k else 23 - k := by decide

theorem shuffle_gcm_m1_bytes (v : Nat) :
    _mm_shuffle_epi8 v gcm_m1 = ofBytesLE ((List.range 16).reverse.map (byteOf v)) := by
  simp only [_mm_shuffle_epi8, List.range, List.range.loop, List.foldl, List.reverse_cons,
    List.reverse_nil, List.nil_append, List.cons_append, List.map, ofBytesLE,
    gcm_m1_bytes 0 (by norm_num), gcm_m1_bytes 1 (by norm_num), gcm_m1_bytes 2 (by norm_num),
    gcm_m1_bytes 3 (by norm_num), gcm_m1_bytes 4 (by norm_num), gcm_m1_bytes 5 (by norm_num),
    gcm_m1_bytes 6 (by norm_num), gcm_m1_bytes 7 (by norm_num), gcm_m1_bytes 8 (by norm_num),
    gcm_m1_bytes 9 (by norm_num), gcm_m1_bytes 10 (by norm_num), gcm_m1_bytes 11 (by norm_num),
    gcm_m1_bytes 12 (by norm_num), gcm_m1_bytes 13 (by norm_num), gcm_m1_bytes 14 (by norm_num),
    gcm_m1_bytes 15 (by norm_num), Nat.shiftLeft_eq]
  norm_num
  have := byteOf_lt v 0; have := byteOf_lt v 1; have := byteOf_lt v 2; have := byteOf_lt v 3
  have := byteOf_lt v 4; have := byteOf_lt v 5; have := byteOf_lt v 6; have := byteOf_lt v 7
  have := byteOf_lt v 8; have := byteOf_lt v 9; have := byteOf_lt v 10; have := byteOf_lt v 11
  have := byteOf_lt v 12; have := byteOf_lt v 13; have := byteOf_lt v 14; have := byteOf_lt v 15
  omega


theorem shuffle_gcm_m2_bytes (v : Nat) :
    _mm_shuffle_epi8 v gcm_m2
      = ofBytesLE ((List.range 8).reverse.map (byteOf v)
          ++ (List.range 8).reverse.map (fun k => byteOf v (k + 8))) := by
  simp only [_mm_shuffle_epi8, List.range, List.range.loop, List.foldl, List.reverse_cons,
    List.reverse_nil, List.nil_append, List.cons_append, List.map, ofBytesLE,
    gcm_m2_bytes 0 (by norm_num), gcm_m2_bytes 1 (by norm_num), gcm_m2_bytes 2 (by norm_num),
    gcm_m2_bytes 3 (by norm_num), gcm_m2_bytes 4 (by norm_num), gcm_m2_bytes 5 (by norm_num),
    gcm_m2_bytes 6 (by norm_num), gcm_m2_bytes 7 (by norm_num), gcm_m2_bytes 8 (by norm_num),
    gcm_m2_bytes 9 (by norm_num), gcm_m2_bytes 10 (by norm_num), gcm_m2_bytes 11 (by norm_num),
    gcm_m2_bytes 12 (by norm_num), gcm_m2_bytes 13 (by norm_num), gcm_m2_bytes 14 (by norm_num),
    gcm_m2_bytes 15 (by norm_num), Nat.shiftLeft_eq]
  norm_num
  have := byteOf_lt v 0; have := byteOf_lt v 1; have := byteOf_lt v 2; have := byteOf_lt v 3
  have := byteOf_lt v 4; have := byteOf_lt v 5; have := byteOf_lt v 6; have := byteOf_lt v 7
  have := byteOf_lt v 8; have := byteOf_lt v 9; have := byteOf_lt v 10; have := byteOf_lt v 11
  have := byteOf_lt v 12; have := byteOf_lt v 13; have := byteOf_lt v 14; have := byteOf_lt v 15
  omega

theorem bswap64_bytes (w : Nat) :
    bswap64 w = ofBytesLE ((List.range 8).reverse.map (byteOf w)) := by
  simp only [bswap64, List.range, List.range.loop, List.foldl, List.reverse_cons,
    List.reverse_nil, List.nil_append, List.cons_append, List.map, ofBytesLE, Nat.shiftLeft_eq]
  norm_num
  have := byteOf_lt w 0; have := byteOf_lt w 1; have := byteOf_lt w 2; have := byteOf_lt w 3
  have := byteOf_lt w 4; have := byteOf_lt w 5; have := byteOf_lt w 6; have := byteOf_lt w 7
  omega

theorem bswap64_lt (w : Nat) : bswap64 w < 2 ^ 64 := by
  rw [bswap64_bytes]
  have := ofBytesLE_lt ((List.range 8).reverse.map (byteOf w))
  simpa using this

theorem byteOf_lane_zero (v : Nat) {k : Nat} (hk : k < 8) : byteOf (lane v 0) k = byteOf v k := by
  unfold byteOf lane
  apply Nat.eq_of_testBit_eq
  intro i
  simp only [Nat.mul_zero, Nat.shiftRight_zero]
  have h256 : (256 : Nat) = 2 ^ 8 := by norm_num
  rw [h256, Nat.testBit_mod_two_pow, Nat.testBit_mod_two_pow, Nat.testBit_shiftRight,
    Nat.testBit_shiftRight, Nat.testBit_mod_two_pow]
  by_cases hi : i < 8
  · have : 8 * k + i < 64 := by omega
    simp [hi, this]
  · simp [hi]

theorem byteOf_lane_one (v : Nat) {k : Nat} (hk : k < 8) :
    byteOf (lane v 1) k = byteOf v (k + 8) := by
  unfold byteOf lane
  apply Nat.eq_of_testBit_eq
  intro i
  have h256 : (256 : Nat) = 2 ^ 8 := by norm_num
  rw [h256, Nat.testBit_mod_two_pow, Nat.testBit_mod_two_pow, Nat.testBit_shiftRight,
    Nat.testBit_shiftRight, Nat.testBit_mod_two_pow, Nat.testBit_shiftRight]
  by_cases hi : i < 8
  · have h1 : 8 * k + i < 64 := by omega
    have h2 : 64 * 1 + (8 * k + i) = 8 * (k + 8) + i := by omega
    simp [hi, h1, h2]
  · simp [hi]

theorem ofLanes_ofBytesLE (l1 l2 : List Nat) (h1 : l1.length = 8) (h2 : l2.length = 8) :
    ofLanes (ofBytesLE l1) (ofBytesLE l2) = ofBytesLE (l1 ++ l2) := by
  have b1 := ofBytesLE_lt l1
  have b2 := ofBytesLE_lt l2
  rw [h1] at b1; rw [h2] at b2
  rw [ofBytesLE_append, h1, ofLanes]
  norm_num at b1 b2 ⊢
  omega

theorem shuffle_gcm_m2 (v : Nat) :
    _mm_shuffle_epi8 v gcm_m2 = ofLanes (bswap64 (lane v 0)) (bswap64 (lane v 1)) := by
  rw [shuffle_gcm_m2_bytes, bswap64_bytes, bswap64_bytes, ofLanes_ofBytesLE _ _ (by simp) (by simp)]
  congr 2
  · apply List.map_congr_left
    intro k hk
    have : k < 8 := by simpa using hk
    exact (byteOf_lane_zero v this).symm
  · apply List.map_congr_left
    intro k hk
    have : k < 8 := by simpa using hk
    exact (byteOf_lane_one v this).symm

theorem shuffle_gcm_m1 (v : Nat) :
    _mm_shuffle_epi8 v gcm_m1 = ofLanes (bswap64 (lane v 1)) (bswap64 (lane v 0)) := by
  rw [shuffle_gcm_m1_bytes, bswap64_bytes, bswap64_bytes, ofLanes_ofBytesLE _ _ (by simp) (by simp)]
  have e : (List.range 16).reverse
      = ((List.range 8).reverse.map (fun k => k + 8)) ++ (List.range 8).reverse := by decide
  rw [e, List.map_append, List.map_map]
  congr 2
  · apply List.map_congr_left
    intro k hk
    have : k < 8 := by simpa using hk
    exact (byteOf_lane_one v this).symm
  · apply List.map_congr_left
    intro k hk
    have : k < 8 := by simpa using hk
    exact (byteOf_lane_zero v this).symm

theorem shuffle_epi32_swap (d : Nat) :
    _mm_shuffle_epi32 d (_MM_SHUFFLE 1 0 3 2) = ofLanes (lane d 1) (lane d 0) := by
  have hs : _MM_SHUFFLE 1 0 3 2 = 78 := by decide
  simp only [hs, _mm_shuffle_epi32, List.range, List.range.loop, List.foldl, dwordOf, lane,
    ofLanes, Nat.shiftLeft_eq, Nat.shiftRight_eq_div_pow]
  norm_num
  omega

theorem vextq_u64_one (t : Nat) : vextq_u64 t t 1 = ofLanes (lane t 1) (lane t 0) := by
  have hl0 : lane t 0 = t % 2 ^ 64 := by
    simp only [lane, Nat.mul_zero, Nat.shiftRight_zero]
  have hl1 : lane t 1 = t / 2 ^ 64 % 2 ^ 64 := by
    simp only [lane, Nat.mul_one, Nat.shiftRight_eq_div_pow]
  rw [hl0, hl1]
  simp only [vextq_u64, ofLanes, Nat.shiftRight_eq_div_pow, Nat.mul_one, Nat.mod_mod]
  generalize h1 : t / 2 ^ 64 % 2 ^ 64 = a1
  generalize h0 : t % 2 ^ 64 = a0
  have b1 : a1 < 2 ^ 64 := h1 ▸ Nat.mod_lt _ (by norm_num)
  have b0 : a0 < 2 ^ 64 := h0 ▸ Nat.mod_lt _ (by norm_num)
  have ha : t % 2 ^ 128 = a0 + 2 ^ 64 * a1 := by omega
  rw [ha]
  have e : (a0 + 2 ^ 64 * a1 + 2 ^ 128 * (a0 + 2 ^ 64 * a1)) / 2 ^ 64
      = a1 + 2 ^ 64 * a0 + 2 ^ 128 * a1 := by omega
  rw [e]
  omega

theorem VEXT_U8_zero_left (c : Nat) : VEXT_U8 (vdupq_n_u64 0) c 8 = _mm_slli_si128 c 8 := by
  simp only [VEXT_U8, vdupq_n_u64, ofLanes, _mm_slli_si128, Nat.shiftLeft_eq,
    Nat.shiftRight_eq_div_pow]
  norm_num
  omega

theorem VEXT_U8_zero_right (c : Nat) : VEXT_U8 c (vdupq_n_u64 0) 8 = _mm_srli_si128 c 8 := by
  simp only [VEXT_U8, vdupq_n_u64, ofLanes, _mm_srli_si128, Nat.shiftRight_eq_div_pow]
  omega


/-! ### The PMULL back end computes the same values -/

theorem bswap64_mod (w : Nat) : bswap64 w % 2 ^ 64 = bswap64 w := Nat.mod_eq_of_lt (bswap64_lt w)

theorem vrev64q_vext_eq_shuffle (v : Nat) :
    vextq_u64 (vrev64q_u8 v) (vrev64q_u8 v) 1 = _mm_shuffle_epi8 v gcm_m1 := by
  rw [vextq_u64_one, shuffle_gcm_m1, vrev64q_u8, lane_ofLanes_one, lane_ofLanes_zero,
    bswap64_mod, bswap64_mod]

theorem vrev64q_eq_shuffle (v : Nat) : vrev64q_u8 v = _mm_shuffle_epi8 v gcm_m2 := by
  rw [shuffle_gcm_m2, vrev64q_u8]

theorem vext_shuffle_m2_eq_shuffle_m1 (v : Nat) :
    vextq_u64 (_mm_shuffle_epi8 v gcm_m2) (_mm_shuffle_epi8 v gcm_m2) 1
      = _mm_shuffle_epi8 v gcm_m1 := by
  rw [← vrev64q_eq_shuffle, vrev64q_vext_eq_shuffle]

theorem vcombine_swap_eq_shuffle (d : Nat) :
    vcombine_u32 (vget_high_u32 d) (vget_low_u32 d) = _mm_shuffle_epi32 d (_MM_SHUFFLE 1 0 3 2) := by
  rw [shuffle_epi32_swap]; rfl

theorem gcm_r_neon_eq : gcm_r_neon = gcm_r := by decide

theorem PMULL_00_eq (a b : Nat) : PMULL_00 a b = _mm_clmulepi64_si128 a b 0 := rfl

theorem PMULL_01_eq (a b : Nat) : PMULL_01 a b = _mm_clmulepi64_si128 a b 0x10 := rfl

theorem PMULL_10_eq (a b : Nat) : PMULL_10 a b = _mm_clmulepi64_si128 a b 1 := rfl

theorem PMULL_11_eq (a b : Nat) : PMULL_11 a b = _mm_clmulepi64_si128 a b 0x11 := rfl

theorem GCM_Reduce_PMULL_eq (c0 c1 c2 r : Nat) :
    GCM_Reduce_PMULL c0 c1 c2 r = GCM_Reduce_CLMUL c0 c1 c2 r := by
  simp only [GCM_Reduce_PMULL, GCM_Reduce_CLMUL, VEXT_U8_zero_left, VEXT_U8_zero_right,
    PMULL_00_eq, PMULL_01_eq]
  rfl

theorem GCM_Multiply_PMULL_eq (x h r : Nat) :
    GCM_Multiply_PMULL x h r = GCM_Multiply_CLMUL x h r := by
  simp only [GCM_Multiply_PMULL, GCM_Multiply_CLMUL, GCM_Reduce_PMULL_eq, PMULL_00_eq,
    PMULL_01_eq, PMULL_10_eq, PMULL_11_eq]
  rfl

theorem GCM_SetKeyWithoutResync_PMULL_stores_eq (t : List Nat) (i h h1 : Nat) :
    GCM_SetKeyWithoutResync_PMULL_stores t i h h1
      = GCM_SetKeyWithoutResync_CLMUL_stores t i h h1 := rfl

theorem GCM_SetKeyWithoutResync_PMULL_loop_eq (h0 r tableSize fuel i h : Nat) (t : List Nat) :
    GCM_SetKeyWithoutResync_PMULL_loop h0 r tableSize fuel i h t
      = GCM_SetKeyWithoutResync_CLMUL_loop h0 r tableSize fuel i h t := by
  induction fuel generalizing i h t with
  | zero => rfl
  | succ n ih =>
    simp only [GCM_SetKeyWithoutResync_PMULL_loop, GCM_SetKeyWithoutResync_CLMUL_loop,
      GCM_Multiply_PMULL_eq, GCM_SetKeyWithoutResync_PMULL_stores_eq, ih]

theorem GCM_SetKeyWithoutResync_PMULL_eq (hashKey mulTable : List Nat) (tableSize : Nat) :
    GCM_SetKeyWithoutResync_PMULL hashKey mulTable tableSize
      = GCM_SetKeyWithoutResync_CLMUL hashKey mulTable tableSize := by
  simp only [GCM_SetKeyWithoutResync_PMULL, GCM_SetKeyWithoutResync_CLMUL,
    GCM_SetKeyWithoutResync_PMULL_loop_eq, GCM_SetKeyWithoutResync_PMULL_stores_eq,
    GCM_Multiply_PMULL_eq, gcm_r_neon_eq, vrev64q_vext_eq_shuffle]
  rfl

theorem GCM_AuthenticateBlocks_PMULL_inner_eq (data table : List Nat) (x s fuel : Nat)
    (i d1 d2 c0 c1 c2 : Nat) :
    GCM_AuthenticateBlocks_PMULL_inner data table x s fuel i d1 d2 c0 c1 c2
      = GCM_AuthenticateBlocks_CLMUL_inner data table x s fuel i d1 d2 c0 c1 c2 := by
  induction fuel generalizing i d1 d2 c0 c1 c2 with
  | zero => rfl
  | succ n ih =>
    simp only [GCM_AuthenticateBlocks_PMULL_inner, GCM_AuthenticateBlocks_CLMUL_inner,
      vrev64q_vext_eq_shuffle, vrev64q_eq_shuffle, vcombine_swap_eq_shuffle, PMULL_00_eq,
      PMULL_01_eq, PMULL_10_eq, PMULL_11_eq, ih, veorq_u64, _mm_xor_si128, vld1q_u64, vld1q_u8,
      _mm_load_si128, _mm_loadu_si128, vext_shuffle_m2_eq_shuffle_m1]

theorem GCM_AuthenticateBlocks_CLMUL_inner_d1 (data table : List Nat) (x s fuel : Nat)
    (i d1 d1' d2 c0 c1 c2 : Nat) :
    GCM_AuthenticateBlocks_CLMUL_inner data table x s fuel i d1 d2 c0 c1 c2
      = GCM_AuthenticateBlocks_CLMUL_inner data table x s fuel i d1' d2 c0 c1 c2 := by
  cases fuel with
  | zero => rfl
  | succ n => rfl

theorem GCM_AuthenticateBlocks_PMULL_loop_eq (table : List Nat) (fuel : Nat) (data : List Nat)
    (x : Nat) :
    GCM_AuthenticateBlocks_PMULL_loop table fuel data x
      = GCM_AuthenticateBlocks_CLMUL_loop table fuel data x := by
  induction fuel generalizing data x with
  | zero => rfl
  | succ n ih =>
    simp only [GCM_AuthenticateBlocks_PMULL_loop, GCM_AuthenticateBlocks_CLMUL_loop,
      GCM_AuthenticateBlocks_PMULL_inner_eq, GCM_Reduce_PMULL_eq, gcm_r_neon_eq,
      vrev64q_eq_shuffle, ih]
    by_cases h16 : 16 ≤ data.length
    · simp only [h16, if_true]
      cases hl : vld1q_u8 data ((groupSize data.length - 1) * 16) with
      | none => simp [_mm_loadu_si128, vld1q_u8] at hl ⊢; simp [hl]
      | some v =>
        have hl' : _mm_loadu_si128 data ((groupSize data.length - 1) * 16) = some v := hl
        simp only [hl', Option.bind_eq_bind, Option.some_bind]
        rw [GCM_AuthenticateBlocks_CLMUL_inner_d1 data table x _ _ 0 0 v]
        rfl
    · simp only [h16, if_false]

/-- C7: with `PMULL_00/01/10/11` and `_mm_clmulepi64_si128` modelled as the same 64 x 64
carry-less multiplication of the selected lanes on a little-endian host, the PMULL
functions compute the same results as the CLMUL functions for all inputs: the
reductions and the multiplications agree, `GCM_SetKeyWithoutResync_PMULL` writes the
same table bytes, and `GCM_AuthenticateBlocks_PMULL` leaves the same `hbuffer` and
returns the same value. -/
theorem PMULL_backend_eq_CLMUL_backend :
    (∀ c0 c1 c2 r, GCM_Reduce_PMULL c0 c1 c2 r = GCM_Reduce_CLMUL c0 c1 c2 r) ∧
    (∀ x h r, GCM_Multiply_PMULL x h r = GCM_Multiply_CLMUL x h r) ∧
    (∀ hashKey mulTable tableSize,
      GCM_SetKeyWithoutResync_PMULL hashKey mulTable tableSize
        = GCM_SetKeyWithoutResync_CLMUL hashKey mulTable tableSize) ∧
    (∀ data mtable hbuffer,
      GCM_AuthenticateBlocks_PMULL data mtable hbuffer
        = GCM_AuthenticateBlocks_CLMUL data mtable hbuffer) := by
  refine ⟨GCM_Reduce_PMULL_eq, GCM_Multiply_PMULL_eq, GCM_SetKeyWithoutResync_PMULL_eq, ?_⟩
  intro data mtable hbuffer
  simp only [GCM_AuthenticateBlocks_PMULL, GCM_AuthenticateBlocks_CLMUL,
    GCM_AuthenticateBlocks_PMULL_loop_eq]
  rfl


/-! ### Loads and stores -/

theorem loadLE_eq {n : Nat} {mem : List Nat} {off : Nat} (h : off + n ≤ mem.length) :
    loadLE n mem off = some (ofBytesLE ((mem.drop off).take n)) := by
  rw [loadLE, if_pos h]

theorem loadLE_16_eq {mem : List Nat} {off : Nat} (h : off + 16 ≤ mem.length) :
    loadLE 16 mem off = some (rawAt mem off) := loadLE_eq h

theorem storeLE_of_eq {n : Nat} {mem P B S : List Nat} {off : Nat} (v : Nat)
    (hmem : mem = P ++ (B ++ S)) (hB : B.length = n) (hoff : off = P.length) :
    storeLE n mem off v = some (P ++ (toBytesLE n v ++ S)) := by
  subst hmem hoff hB
  have hlen : P.length + B.length ≤ (P ++ (B ++ S)).length := by
    simp only [List.length_append]; omega
  rw [storeLE, if_pos hlen, List.take_left', List.drop_append, List.drop_left', List.append_assoc]
  · rfl
  · rfl

theorem loadLE_of_eq {n : Nat} {mem P B S : List Nat} {off : Nat}
    (hmem : mem = P ++ (B ++ S)) (hB : B.length = n) (hoff : off = P.length) :
    loadLE n mem off = some (ofBytesLE B) := by
  subst hmem hoff hB
  have hlen : P.length + B.length ≤ (P ++ (B ++ S)).length := by
    simp only [List.length_append]; omega
  rw [loadLE, if_pos hlen, List.drop_left', List.take_left']
  · rfl
  · rfl

theorem toBytesLE_16 (h : Nat) : toBytesLE 16 h = toBytesLE 8 (lane h 0) ++ toBytesLE 8 (lane h 1) := by
  have e := toBytesLE_add 8 8 h
  have h8 : (256 : Nat) ^ 8 = 2 ^ 64 := by norm_num
  have l0 : lane h 0 = h % 256 ^ 8 := by
    rw [h8]; simp only [lane, Nat.mul_zero, Nat.shiftRight_zero]
  have l1 : lane h 1 = h / 256 ^ 8 % 256 ^ 8 := by
    rw [h8]; simp only [lane, Nat.mul_one, Nat.shiftRight_eq_div_pow]
  rw [l0, l1, toBytesLE_mod, toBytesLE_mod]
  exact e

theorem split32 (X : List Nat) (hX : X.length = 32) :
    ∃ X0 X1 X2 X3 : List Nat, X0.length = 8 ∧ X1.length = 8 ∧ X2.length = 8 ∧ X3.length = 8 ∧
      X = X0 ++ (X1 ++ (X2 ++ X3)) := by
  refine ⟨X.take 8, (X.drop 8).take 8, (X.drop 16).take 8, X.drop 24, ?_, ?_, ?_, ?_, ?_⟩
  · simp [hX]
  · simp [hX]
  · simp [hX]
  · simp [hX]
  · have e1 : X.drop 16 = (X.drop 8).drop 8 := by rw [List.drop_drop]
    have e2 : X.drop 24 = ((X.drop 8).drop 8).drop 8 := by rw [List.drop_drop, List.drop_drop]
    rw [e2, e1, List.take_append_drop, List.take_append_drop, List.take_append_drop]

theorem storeLE_of_eq' {n : Nat} {mem P B S res : List Nat} {off : Nat} (v : Nat)
    (hmem : mem = P ++ (B ++ S)) (hB : B.length = n) (hoff : off = P.length)
    (hres : res = P ++ (toBytesLE n v ++ S)) :
    storeLE n mem off v = some res := by
  rw [hres]; exact storeLE_of_eq v hmem hB hoff

theorem GCM_SetKeyWithoutResync_CLMUL_stores_eq (P X S : List Nat) (hX : X.length = 32)
    (i h h1 : Nat) (hi : i = P.length) :
    GCM_SetKeyWithoutResync_CLMUL_stores (P ++ (X ++ S)) i h h1
      = some (P ++ (roundBytes h h1 ++ S)) := by
  obtain ⟨X0, X1, X2, X3, l0, l1, l2, l3, rfl⟩ := split32 X hX
  have l8 : ∀ v, (toBytesLE 8 v).length = 8 := fun v => toBytesLE_length 8 v
  have s1 : _mm_storel_epi64 (P ++ (X0 ++ (X1 ++ (X2 ++ (X3 ++ S))))) i h
      = some (P ++ (toBytesLE 8 (lane h 0) ++ (X1 ++ (X2 ++ (X3 ++ S))))) :=
    storeLE_of_eq _ rfl l0 hi
  have s2 : _mm_storeu_si128 (P ++ (toBytesLE 8 (lane h 0) ++ (X1 ++ (X2 ++ (X3 ++ S)))))
        (i + 16) h1
      = some (P ++ (toBytesLE 8 (lane h 0) ++ (X1 ++ (toBytesLE 16 h1 ++ S)))) :=
    @storeLE_of_eq' 16 _ (P ++ (toBytesLE 8 (lane h 0) ++ X1)) (X2 ++ X3) S _ _ _
      (by simp)
      (by simp [l2, l3])
      (by simp [l8, l1, hi])
      (by simp)
  have s3 : _mm_storeu_si128 (P ++ (toBytesLE 8 (lane h 0) ++ (X1 ++ (toBytesLE 16 h1 ++ S))))
        (i + 8) h
      = some (P ++ (toBytesLE 8 (lane h 0)
          ++ (toBytesLE 16 h ++ (toBytesLE 8 (lane h1 1) ++ S)))) :=
    @storeLE_of_eq' 16 _ (P ++ toBytesLE 8 (lane h 0)) (X1 ++ toBytesLE 8 (lane h1 0))
      (toBytesLE 8 (lane h1 1) ++ S) _ _ _
      (by simp [toBytesLE_16 h1])
      (by simp [l8, l1])
      (by simp [l8, hi])
      (by simp)
  have s4 : _mm_storel_epi64 (P ++ (toBytesLE 8 (lane h 0)
          ++ (toBytesLE 16 h ++ (toBytesLE 8 (lane h1 1) ++ S)))) (i + 8) h1
      = some (P ++ (toBytesLE 8 (lane h 0)
          ++ (toBytesLE 8 (lane h1 0) ++ (toBytesLE 8 (lane h 1) ++ (toBytesLE 8 (lane h1 1) ++ S))))) :=
    @storeLE_of_eq' 8 _ (P ++ toBytesLE 8 (lane h 0)) (toBytesLE 8 (lane h 0))
      (toBytesLE 8 (lane h 1) ++ (toBytesLE 8 (lane h1 1) ++ S)) _ _ _
      (by simp [toBytesLE_16 h])
      (l8 _)
      (by simp [l8, hi])
      (by simp)
  simp only [GCM_SetKeyWithoutResync_CLMUL_stores, Option.bind_eq_bind, List.append_assoc, s1,
    Option.some_bind, s2, s3, s4, roundBytes]


/-! ### The table of powers -/

theorem roundBytes_length (h h1 : Nat) : (roundBytes h h1).length = 32 := by
  simp [roundBytes, toBytesLE_length]

theorem tableBytes_length (H m : Nat) : (tableBytes H m).length = 32 * m := by
  induction m with
  | zero => rfl
  | succ m ih => rw [tableBytes, List.length_append, ih, roundBytes_length]; omega

theorem drop_eq_take_append_drop (l : List Nat) (a n : Nat) :
    l.drop a = (l.drop a).take n ++ l.drop (a + n) := by
  rw [← List.drop_drop, List.take_append_drop]

theorem GCM_SetKeyWithoutResync_CLMUL_loop_eq (H m : Nat) (mulTable : List Nat)
    (hsz : 32 * m < 2 ^ 32) (hlen : 32 * m ≤ mulTable.length) (fuel k : Nat)
    (hk : k + 1 ≤ m) (hfuel : m - k ≤ fuel) :
    GCM_SetKeyWithoutResync_CLMUL_loop H gcm_r (32 * m) fuel (32 * k) (tablePower H (2 * k))
        (tableBytes H k ++ mulTable.drop (32 * k))
      = some (tableBytes H (m - 1) ++ mulTable.drop (32 * (m - 1)), 32 * (m - 1),
          tablePower H (2 * (m - 1))) := by
  induction fuel generalizing k with
  | zero => omega
  | succ n ih =>
    have hb : (32 * m % 2 ^ 32 + 2 ^ 32 - 32) % 2 ^ 32 = 32 * (m - 1) := by omega
    rw [GCM_SetKeyWithoutResync_CLMUL_loop, hb]
    by_cases hlt : 32 * k < 32 * (m - 1)
    · rw [if_pos hlt]
      have hX : ((mulTable.drop (32 * k)).take 32).length = 32 := by
        rw [List.length_take, List.length_drop]; omega
      have hst := GCM_SetKeyWithoutResync_CLMUL_stores_eq (tableBytes H k)
        ((mulTable.drop (32 * k)).take 32) (mulTable.drop (32 * k + 32)) hX (32 * k)
        (tablePower H (2 * k)) (GCM_Multiply_CLMUL (tablePower H (2 * k)) H gcm_r)
        (tableBytes_length H k).symm
      rw [← drop_eq_take_append_drop] at hst
      have hi : (32 * k + 32) % 2 ^ 32 = 32 * (k + 1) := by omega
      have hp : GCM_Multiply_CLMUL (GCM_Multiply_CLMUL (tablePower H (2 * k)) H gcm_r) H gcm_r
          = tablePower H (2 * (k + 1)) := rfl
      have ht : tableBytes H k ++ (roundBytes (tablePower H (2 * k))
            (GCM_Multiply_CLMUL (tablePower H (2 * k)) H gcm_r) ++ mulTable.drop (32 * k + 32))
          = tableBytes H (k + 1) ++ mulTable.drop (32 * (k + 1)) := by
        rw [tableBytes, List.append_assoc]; rfl
      simp only [hst, Option.bind_eq_bind, Option.some_bind, hi, hp, ht]
      exact ih (k + 1) (by omega) (by omega)
    · rw [if_neg hlt]
      have : k = m - 1 := by omega
      rw [this]

theorem shuffle_lt (v m : Nat) (hm : m = gcm_m1 ∨ m = gcm_m2) : _mm_shuffle_epi8 v m < 2 ^ 128 := by
  rcases hm with rfl | rfl
  · rw [shuffle_gcm_m1]; exact ofLanes_lt _ _
  · rw [shuffle_gcm_m2]; exact ofLanes_lt _ _

theorem GCM_SetKeyWithoutResync_CLMUL_eq (hashKey mulTable : List Nat) (m : Nat) (hm : 1 ≤ m)
    (hsz : 32 * m < 2 ^ 32) (hk : 16 ≤ hashKey.length) (hlen : 32 * m ≤ mulTable.length) :
    GCM_SetKeyWithoutResync_CLMUL hashKey mulTable (32 * m)
      = some (tableBytes (_mm_shuffle_epi8 (rawAt hashKey 0) gcm_m1) m
          ++ mulTable.drop (32 * m)) := by
  have hload : _mm_load_si128 hashKey 0 = some (rawAt hashKey 0) :=
    loadLE_16_eq (by omega)
  unfold GCM_SetKeyWithoutResync_CLMUL
  generalize hfu : 2 ^ 27 + 1 = fuel
  have hfuel : m ≤ fuel := by omega
  have hloop := GCM_SetKeyWithoutResync_CLMUL_loop_eq (_mm_shuffle_epi8 (rawAt hashKey 0) gcm_m1)
    m mulTable hsz hlen fuel 0 (by omega) (by omega)
  simp only [Nat.mul_zero, tableBytes, List.nil_append, List.drop_zero, tablePower] at hloop
  have hX : ((mulTable.drop (32 * (m - 1))).take 32).length = 32 := by
    rw [List.length_take, List.length_drop]; omega
  have hst := GCM_SetKeyWithoutResync_CLMUL_stores_eq
    (tableBytes (_mm_shuffle_epi8 (rawAt hashKey 0) gcm_m1) (m - 1))
    ((mulTable.drop (32 * (m - 1))).take 32) (mulTable.drop (32 * (m - 1) + 32)) hX
    (32 * (m - 1))
    (tablePower (_mm_shuffle_epi8 (rawAt hashKey 0) gcm_m1) (2 * (m - 1)))
    (GCM_Multiply_CLMUL (tablePower (_mm_shuffle_epi8 (rawAt hashKey 0) gcm_m1) (2 * (m - 1)))
      (_mm_shuffle_epi8 (rawAt hashKey 0) gcm_m1) gcm_r)
    (tableBytes_length _ _).symm
  rw [← drop_eq_take_append_drop] at hst
  simp only [hload, Option.bind_eq_bind]
  rw [Option.some_bind, hloop, Option.some_bind, hst]
  obtain ⟨j, rfl⟩ : ∃ j, m = j + 1 := ⟨m - 1, by omega⟩
  have e1 : j + 1 - 1 = j := by omega
  have e2 : 32 * j + 32 = 32 * (j + 1) := by omega
  rw [e1, e2, tableBytes, List.append_assoc]
  rfl

theorem tableBytes_drop_take (H : Nat) (R : List Nat) (m k : Nat) (hk : k < m) :
    ((tableBytes H m ++ R).drop (32 * k)).take 32
      = roundBytes (tablePower H (2 * k)) (tablePower H (2 * k + 1)) := by
  induction m generalizing R with
  | zero => omega
  | succ m ih =>
    rw [tableBytes, List.append_assoc]
    by_cases hkm : k < m
    · exact ih _ hkm
    · have : k = m := by omega
      subst this
      rw [← tableBytes_length H k, List.drop_left, List.take_left' (roundBytes_length _ _)]


theorem ofBytesLE_toBytesLE_pair (a b : Nat) :
    ofBytesLE (toBytesLE 8 a ++ toBytesLE 8 b) = ofLanes a b := by
  rw [← ofLanes_ofBytesLE _ _ (toBytesLE_length 8 a) (toBytesLE_length 8 b),
    ofBytesLE_toBytesLE, ofBytesLE_toBytesLE]
  have h8 : (256 : Nat) ^ 8 = 2 ^ 64 := by norm_num
  rw [h8, ofLanes_mod]

theorem rawAt_tableBytes_even (H : Nat) (R : List Nat) (m k : Nat) (hk : k < m) :
    rawAt (tableBytes H m ++ R) (16 * (2 * k))
      = ofLanes (lane (tablePower H (2 * k)) 0) (lane (tablePower H (2 * k + 1)) 0) := by
  have h := tableBytes_drop_take H R m k hk
  have e : 16 * (2 * k) = 32 * k := by omega
  have t : ((tableBytes H m ++ R).drop (32 * k)).take 16
      = (((tableBytes H m ++ R).drop (32 * k)).take 32).take 16 := by
    rw [List.take_take]; rfl
  rw [rawAt, e, t, h, roundBytes, ← List.append_assoc,
    List.take_left' (by simp [toBytesLE_length]), ofBytesLE_toBytesLE_pair]

theorem rawAt_tableBytes_odd (H : Nat) (R : List Nat) (m k : Nat) (hk : k < m) :
    rawAt (tableBytes H m ++ R) (16 * (2 * k + 1))
      = ofLanes (lane (tablePower H (2 * k)) 1) (lane (tablePower H (2 * k + 1)) 1) := by
  have h := tableBytes_drop_take H R m k hk
  have e : 16 * (2 * k + 1) = 32 * k + 16 := by omega
  have t : ((tableBytes H m ++ R).drop (32 * k + 16)).take 16
      = (((tableBytes H m ++ R).drop (32 * k)).take 32).drop 16 := by
    rw [List.drop_take, List.drop_drop]
  rw [rawAt, e, t, h, roundBytes, ← List.append_assoc,
    List.drop_left' (by simp [toBytesLE_length]), ofBytesLE_toBytesLE_pair]

/-- C5: for a table size that is a positive multiple of 32, `GCM_SetKeyWithoutResync_CLMUL`
fills the table with the powers of `H`, the byte-reversed hash key as loaded by the code:
with `tablePower H j` the power `P_(j+1)` of the claim (`P_1 = H`,
`P_(n+1) = GCM_Multiply_CLMUL(P_n, P_1, r)`), for every `k` below `tableSize / 32` the 32
bytes at offset `32 k` are, in order, the low 64 bits of `P_(2k+1)`, the low 64 bits of
`P_(2k+2)`, the high 64 bits of `P_(2k+1)` and the high 64 bits of `P_(2k+2)`, each stored
little-endian. -/
theorem GCM_SetKeyWithoutResync_CLMUL_fills_table (hashKey mulTable : List Nat) (tableSize : Nat)
    (hpos : 0 < tableSize) (h32 : tableSize % 32 = 0) (hsz : tableSize < 2 ^ 32)
    (hk : 16 ≤ hashKey.length) (hlen : tableSize ≤ mulTable.length) :
    ∃ table, GCM_SetKeyWithoutResync_CLMUL hashKey mulTable tableSize = some table ∧
      ∀ k, k < tableSize / 32 →
        (table.drop (32 * k)).take 32
          = toBytesLE 8 (lane (tablePower (_mm_shuffle_epi8 (rawAt hashKey 0) gcm_m1) (2 * k)) 0)
            ++ (toBytesLE 8
                (lane (tablePower (_mm_shuffle_epi8 (rawAt hashKey 0) gcm_m1) (2 * k + 1)) 0)
            ++ (toBytesLE 8
                (lane (tablePower (_mm_shuffle_epi8 (rawAt hashKey 0) gcm_m1) (2 * k)) 1)
            ++ toBytesLE 8
                (lane (tablePower (_mm_shuffle_epi8 (rawAt hashKey 0) gcm_m1) (2 * k + 1)) 1))) := by
  obtain ⟨m, rfl⟩ : ∃ m, tableSize = 32 * m := ⟨tableSize / 32, by omega⟩
  refine ⟨_, GCM_SetKeyWithoutResync_CLMUL_eq hashKey mulTable m (by omega) hsz hk hlen, ?_⟩
  intro k hkm
  have hkm' : k < m := by omega
  exact tableBytes_drop_take _ _ m k hkm'

theorem GCM_SetKeyWithoutResync_CLMUL_fills_table_witness :
    ∃ table, GCM_SetKeyWithoutResync_CLMUL (List.replicate 16 1) (List.replicate 64 0) 64
        = some table ∧
      ∀ k, k < 64 / 32 →
        (table.drop (32 * k)).take 32
          = toBytesLE 8
              (lane (tablePower (_mm_shuffle_epi8 (rawAt (List.replicate 16 1) 0) gcm_m1) (2 * k)) 0)
            ++ (toBytesLE 8 (lane
                (tablePower (_mm_shuffle_epi8 (rawAt (List.replicate 16 1) 0) gcm_m1) (2 * k + 1)) 0)
            ++ (toBytesLE 8 (lane
                (tablePower (_mm_shuffle_epi8 (rawAt (List.replicate 16 1) 0) gcm_m1) (2 * k)) 1)
            ++ toBytesLE 8 (lane
                (tablePower (_mm_shuffle_epi8 (rawAt (List.replicate 16 1) 0) gcm_m1) (2 * k + 1))
                1))) :=
  GCM_SetKeyWithoutResync_CLMUL_fills_table (List.replicate 16 1) (List.replicate 64 0) 64
    (by decide) (by decide) (by decide) (by decide) (by decide)

/-- C6 (as stated, refuted): in the table built from the hash key
`66e94bd4ef8a2c3b884cfa59ca342b2e` with table size 128, no slot `i` and no power index
`n` are such that the 16-byte load of slot `i` holds the low half of the power `H^(n+1)`
in one lane and the high half of the next power `H^(n+2)` in the other. -/
theorem table_slot_not_low_and_next_high :
    (GCM_SetKeyWithoutResync_CLMUL
        [0x66, 0xe9, 0x4b, 0xd4, 0xef, 0x8a, 0x2c, 0x3b,
         0x88, 0x4c, 0xfa, 0x59, 0xca, 0x34, 0x2b, 0x2e]
        (List.replicate 128 0) 128).map
      (fun table => (List.range 8).any (fun i => (List.range 8).any (fun n =>
        (_mm_load_si128 table (16 * i)).any (fun v =>
          (lane v 0 == lane (tablePower 0x66e94bd4ef8a2c3b884cfa59ca342b2e n) 0
            && lane v 1 == lane (tablePower 0x66e94bd4ef8a2c3b884cfa59ca342b2e (n + 1)) 1)
          || (lane v 1 == lane (tablePower 0x66e94bd4ef8a2c3b884cfa59ca342b2e n) 0
            && lane v 0 == lane (tablePower 0x66e94bd4ef8a2c3b884cfa59ca342b2e (n + 1)) 1)))))
      = some false := by
  set_option maxRecDepth 1000000 in decide

/-- C6 (amended): in every table built by `GCM_SetKeyWithoutResync_CLMUL` the 16-byte load
of the even slot `2k` retrieves the low 64-bit halves of the two consecutive powers
`H^(2k+1)` and `H^(2k+2)`, and the load of the odd slot `2k+1` retrieves the high 64-bit
halves of the same two powers. -/
theorem table_slot_layout (hashKey mulTable : List Nat) (tableSize : Nat)
    (hpos : 0 < tableSize) (h32 : tableSize % 32 = 0) (hsz : tableSize < 2 ^ 32)
    (hk : 16 ≤ hashKey.length) (hlen : tableSize ≤ mulTable.length) :
    ∃ table, GCM_SetKeyWithoutResync_CLMUL hashKey mulTable tableSize = some table ∧
      ∀ k, k < tableSize / 32 →
        _mm_load_si128 table (16 * (2 * k))
          = some (ofLanes
              (lane (tablePower (_mm_shuffle_epi8 (rawAt hashKey 0) gcm_m1) (2 * k)) 0)
              (lane (tablePower (_mm_shuffle_epi8 (rawAt hashKey 0) gcm_m1) (2 * k + 1)) 0)) ∧
        _mm_load_si128 table (16 * (2 * k + 1))
          = some (ofLanes
              (lane (tablePower (_mm_shuffle_epi8 (rawAt hashKey 0) gcm_m1) (2 * k)) 1)
              (lane (tablePower (_mm_shuffle_epi8 (rawAt hashKey 0) gcm_m1) (2 * k + 1)) 1)) := by
  obtain ⟨m, rfl⟩ : ∃ m, tableSize = 32 * m := ⟨tableSize / 32, by omega⟩
  refine ⟨_, GCM_SetKeyWithoutResync_CLMUL_eq hashKey mulTable m (by omega) hsz hk hlen, ?_⟩
  intro k hkm
  have hkm' : k < m := by omega
  have hl : (tableBytes (_mm_shuffle_epi8 (rawAt hashKey 0) gcm_m1) m
      ++ mulTable.drop (32 * m)).length = mulTable.length := by
    rw [List.length_append, tableBytes_length, List.length_drop]; omega
  constructor
  · rw [_mm_load_si128, loadLE_16_eq (by rw [hl]; omega), rawAt_tableBytes_even _ _ _ _ hkm']
  · rw [_mm_load_si128, loadLE_16_eq (by rw [hl]; omega), rawAt_tableBytes_odd _ _ _ _ hkm']

theorem table_slot_layout_witness :
    ∃ table, GCM_SetKeyWithoutResync_CLMUL (List.replicate 16 1) (List.replicate 64 0) 64
        = some table ∧
      ∀ k, k < 64 / 32 →
        _mm_load_si128 table (16 * (2 * k))
          = some (ofLanes
              (lane (tablePower (_mm_shuffle_epi8 (rawAt (List.replicate 16 1) 0) gcm_m1) (2 * k)) 0)
              (lane (tablePower (_mm_shuffle_epi8 (rawAt (List.replicate 16 1) 0) gcm_m1)
                (2 * k + 1)) 0)) ∧
        _mm_load_si128 table (16 * (2 * k + 1))
          = some (ofLanes
              (lane (tablePower (_mm_shuffle_epi8 (rawAt (List.replicate 16 1) 0) gcm_m1) (2 * k)) 1)
              (lane (tablePower (_mm_shuffle_epi8 (rawAt (List.replicate 16 1) 0) gcm_m1)
                (2 * k + 1)) 1)) :=
  table_slot_layout (List.replicate 16 1) (List.replicate 64 0) 64
    (by decide) (by decide) (by decide) (by decide) (by decide)

/-! ### The batched authenticator -/

theorem rawAt_lanes {data : List Nat} {off : Nat} (h : off + 16 ≤ data.length) :
    lane (rawAt data off) 0 = le64At data off ∧ lane (rawAt data off) 1 = le64At data (off + 8) := by
  have e : (data.drop off).take 16
      = (data.drop off).take 8 ++ (data.drop (off + 8)).take 8 := by
    have h1 : (data.drop off).take 16
        = ((data.drop off).take 16).take 8 ++ ((data.drop off).take 16).drop 8 :=
      (List.take_append_drop 8 _).symm
    rw [h1, List.take_take, List.drop_take, List.drop_drop]
    rfl
  have l1 : ((data.drop off).take 8).length = 8 := by
    rw [List.length_take, List.length_drop]; omega
  have l2 : ((data.drop (off + 8)).take 8).length = 8 := by
    rw [List.length_take, List.length_drop]; omega
  rw [rawAt, e, ← ofLanes_ofBytesLE _ _ l1 l2, lane_ofLanes_zero, lane_ofLanes_one]
  have b1 := ofBytesLE_lt ((data.drop off).take 8)
  have b2 := ofBytesLE_lt ((data.drop (off + 8)).take 8)
  rw [l1] at b1; rw [l2] at b2
  have h8 : (256 : Nat) ^ 8 = 2 ^ 64 := by norm_num
  rw [h8] at b1 b2
  exact ⟨Nat.mod_eq_of_lt b1, Nat.mod_eq_of_lt b2⟩

theorem clmulepi64_00 (a b : Nat) : _mm_clmulepi64_si128 a b 0 = clmul64 (lane a 0) (lane b 0) := rfl
theorem clmulepi64_01 (a b : Nat) : _mm_clmulepi64_si128 a b 1 = clmul64 (lane a 1) (lane b 0) := rfl
theorem clmulepi64_10 (a b : Nat) : _mm_clmulepi64_si128 a b 0x10 = clmul64 (lane a 0) (lane b 1) := rfl
theorem clmulepi64_11 (a b : Nat) : _mm_clmulepi64_si128 a b 0x11 = clmul64 (lane a 1) (lane b 1) := rfl

theorem lane_shuffle_m1_zero (v : Nat) : lane (_mm_shuffle_epi8 v gcm_m1) 0 = bswap64 (lane v 1) := by
  rw [shuffle_gcm_m1, lane_ofLanes_zero, bswap64_mod]
theorem lane_shuffle_m1_one (v : Nat) : lane (_mm_shuffle_epi8 v gcm_m1) 1 = bswap64 (lane v 0) := by
  rw [shuffle_gcm_m1, lane_ofLanes_one, bswap64_mod]
theorem lane_shuffle_m2_zero (v : Nat) : lane (_mm_shuffle_epi8 v gcm_m2) 0 = bswap64 (lane v 0) := by
  rw [shuffle_gcm_m2, lane_ofLanes_zero, bswap64_mod]
theorem lane_shuffle_m2_one (v : Nat) : lane (_mm_shuffle_epi8 v gcm_m2) 1 = bswap64 (lane v 1) := by
  rw [shuffle_gcm_m2, lane_ofLanes_one, bswap64_mod]

theorem lane_swap_zero (d : Nat) :
    lane (_mm_shuffle_epi32 d (_MM_SHUFFLE 1 0 3 2)) 0 = lane d 1 := by
  rw [shuffle_epi32_swap, lane_ofLanes_zero, lane_mod]
theorem lane_swap_one (d : Nat) :
    lane (_mm_shuffle_epi32 d (_MM_SHUFFLE 1 0 3 2)) 1 = lane d 0 := by
  rw [shuffle_epi32_swap, lane_ofLanes_one, lane_mod]

theorem groupTerm_even (table : List Nat) (e k : Nat) :
    groupTerm table e (2 * k)
      = (clmul64 (lane e 0) (lane (rawAt table (16 * (2 * k))) 0),
         clmul64 (lane e 0 ^^^ lane e 1)
           (lane (rawAt table (16 * (2 * k))) 0 ^^^ lane (rawAt table (16 * (2 * k + 1))) 0),
         clmul64 (lane e 1) (lane (rawAt table (16 * (2 * k + 1))) 0)) := by
  have h1 : 2 * k / 2 = k := by omega
  have h2 : 2 * k % 2 = 0 := by omega
  simp only [groupTerm, h1, h2]

theorem groupTerm_odd (table : List Nat) (e k : Nat) :
    groupTerm table e (2 * k + 1)
      = (clmul64 (lane e 0) (lane (rawAt table (16 * (2 * k))) 1),
         clmul64 (lane e 0 ^^^ lane e 1)
           (lane (rawAt table (16 * (2 * k))) 1 ^^^ lane (rawAt table (16 * (2 * k + 1))) 1),
         clmul64 (lane e 1) (lane (rawAt table (16 * (2 * k + 1))) 1)) := by
  have h1 : (2 * k + 1) / 2 = k := by omega
  have h2 : (2 * k + 1) % 2 = 1 := by omega
  simp only [groupTerm, h1, h2]

theorem xor3_assoc (a b c : Nat × Nat × Nat) : xor3 (xor3 a b) c = xor3 a (xor3 b c) := by
  simp only [xor3, Nat.xor_assoc]

theorem xor3_zero (a : Nat × Nat × Nat) : xor3 a (0, 0, 0) = a := by
  simp only [xor3, Nat.xor_zero]

theorem groupStep_first_final (table : List Nat) (e k c0 c1 c2 : Nat) :
    (_mm_xor_si128 c0 (_mm_clmulepi64_si128 e (rawAt table (16 * (2 * k))) 0),
     _mm_xor_si128 c1 (_mm_clmulepi64_si128
        (_mm_xor_si128 e (_mm_shuffle_epi32 e (_MM_SHUFFLE 1 0 3 2)))
        (_mm_xor_si128 (rawAt table (16 * (2 * k))) (rawAt table (16 * (2 * k + 1)))) 0),
     _mm_xor_si128 c2 (_mm_clmulepi64_si128 e (rawAt table (16 * (2 * k + 1))) 1))
      = xor3 (c0, c1, c2) (groupTerm table e (2 * k)) := by
  simp only [groupTerm_even, xor3, _mm_xor_si128, clmulepi64_00, clmulepi64_01, lane_xor,
    lane_swap_zero]

theorem groupStep_second_final (table : List Nat) (e k c0 c1 c2 : Nat) :
    (_mm_xor_si128 c0 (_mm_clmulepi64_si128 e (rawAt table (16 * (2 * k))) 0x10),
     _mm_xor_si128 c1 (_mm_clmulepi64_si128
        (_mm_xor_si128 e (_mm_shuffle_epi32 e (_MM_SHUFFLE 1 0 3 2)))
        (_mm_xor_si128 (rawAt table (16 * (2 * k))) (rawAt table (16 * (2 * k + 1)))) 0x10),
     _mm_xor_si128 c2 (_mm_clmulepi64_si128 e (rawAt table (16 * (2 * k + 1))) 0x11))
      = xor3 (c0, c1, c2) (groupTerm table e (2 * k + 1)) := by
  simp only [groupTerm_odd, xor3, _mm_xor_si128, clmulepi64_10, clmulepi64_11, lane_xor,
    lane_swap_zero]

theorem groupStep_first (table : List Nat) (e d2 l1 k c0 c1 c2 : Nat)
    (h0 : lane d2 1 = lane e 0) (h1 : lane l1 1 = lane e 1) :
    (_mm_xor_si128 c0 (_mm_clmulepi64_si128 d2 (rawAt table (16 * (2 * k))) 1),
     _mm_xor_si128 c1 (_mm_clmulepi64_si128 (_mm_xor_si128 d2 l1)
        (_mm_xor_si128 (rawAt table (16 * (2 * k))) (rawAt table (16 * (2 * k + 1)))) 1),
     _mm_xor_si128 c2 (_mm_clmulepi64_si128 l1 (rawAt table (16 * (2 * k + 1))) 1))
      = xor3 (c0, c1, c2) (groupTerm table e (2 * k)) := by
  simp only [groupTerm_even, xor3, _mm_xor_si128, clmulepi64_01, lane_xor, h0, h1]

theorem groupStep_second (table : List Nat) (e l1 l2 k : Nat) (c : Nat × Nat × Nat)
    (h0 : lane l1 0 = lane e 0) (h1 : lane l2 0 = lane e 1) :
    (_mm_xor_si128 c.1 (_mm_clmulepi64_si128 l1 (rawAt table (16 * (2 * k))) 0x10),
     _mm_xor_si128 c.2.1 (_mm_clmulepi64_si128 (_mm_xor_si128 l1 l2)
        (_mm_xor_si128 (rawAt table (16 * (2 * k))) (rawAt table (16 * (2 * k + 1)))) 0x10),
     _mm_xor_si128 c.2.2 (_mm_clmulepi64_si128 l2 (rawAt table (16 * (2 * k + 1))) 0x10))
      = xor3 c (groupTerm table e (2 * k + 1)) := by
  simp only [groupTerm_odd, xor3, _mm_xor_si128, clmulepi64_10, lane_xor, h0, h1]

theorem blockIn_zero (data : List Nat) (x : Nat) :
    blockIn data x 0 = _mm_xor_si128 (_mm_shuffle_epi8 (rawAt data 0) gcm_m1) x := by
  simp [blockIn, _mm_xor_si128]

theorem lane_blockIn {data : List Nat} (x : Nat) {j : Nat} (hj : 0 < j)
    (h : 16 * j + 16 ≤ data.length) :
    lane (blockIn data x j) 0 = bswap64 (le64At data (16 * j + 8)) ∧
    lane (blockIn data x j) 1 = bswap64 (le64At data (16 * j)) := by
  have hj0 : j ≠ 0 := by omega
  obtain ⟨r0, r1⟩ := rawAt_lanes h
  simp only [blockIn, hj0, if_false, lane_shuffle_m1_zero, lane_shuffle_m1_one, r0, r1]
  exact ⟨trivial, trivial⟩

/-- The inner loop from an even position `2 k` adds the partial products of the
remaining `s - 2 k` table entries to the accumulators. -/
theorem GCM_AuthenticateBlocks_CLMUL_inner_eq (data table : List Nat) (x s : Nat)
    (hdata : 16 * s ≤ data.length) (htable : 16 * (2 * ((s + 1) / 2)) ≤ table.length)
    (n k d1 d2 c0 c1 c2 : Nat) (hk : 2 * k < s) (hn : (s - 2 * k + 1) / 2 ≤ n)
    (hd2 : lane d2 1 = bswap64 (le64At data (16 * (s - 1 - 2 * k) + 8))) :
    GCM_AuthenticateBlocks_CLMUL_inner data table x s n (2 * k) d1 d2 c0 c1 c2
      = some (xor3 (c0, c1, c2) (groupAcc data table x s (s - 2 * k) (2 * k))) := by
  induction n generalizing k d1 d2 c0 c1 c2 with
  | zero => omega
  | succ n ih =>
    have ht0 : _mm_load_si128 table (16 * (2 * k)) = some (rawAt table (16 * (2 * k))) :=
      loadLE_16_eq (by omega)
    have ht1 : _mm_load_si128 table (16 * (2 * k + 1)) = some (rawAt table (16 * (2 * k + 1))) :=
      loadLE_16_eq (by omega)
    have hl0 : _mm_loadu_si128 data 0 = some (rawAt data 0) := loadLE_16_eq (by omega)
    rw [GCM_AuthenticateBlocks_CLMUL_inner]
    simp only [Option.bind_eq_bind]
    rw [ht0, Option.some_bind, ht1, Option.some_bind]
    by_cases h1 : 2 * k + 1 = s
    · rw [if_pos h1, hl0, Option.some_bind, ← blockIn_zero, groupStep_first_final]
      have e1 : s - 2 * k = 1 := by omega
      have e2 : s - 1 - 2 * k = 0 := by omega
      rw [e1, groupAcc, groupAcc, xor3_zero, e2]
    · rw [if_neg h1]
      have hl1 : _mm_loadu_si128 data ((s - (2 * k + 1)) * 16 - 8)
          = some (rawAt data (16 * (s - 2 - 2 * k) + 8)) := by
        have e : (s - (2 * k + 1)) * 16 - 8 = 16 * (s - 2 - 2 * k) + 8 := by omega
        rw [e]; exact loadLE_16_eq (by omega)
      rw [hl1, Option.some_bind]
      obtain ⟨r10, r11⟩ := @rawAt_lanes data (16 * (s - 2 - 2 * k) + 8) (by omega)
      have e3 : 16 * (s - 2 - 2 * k) + 8 + 8 = 16 * (s - 1 - 2 * k) := by omega
      rw [e3] at r11
      have hb1 := @lane_blockIn data x (s - 1 - 2 * k) (by omega) (by omega)
      have g1 := groupStep_first table (blockIn data x (s - 1 - 2 * k)) d2
        (_mm_shuffle_epi8 (rawAt data (16 * (s - 2 - 2 * k) + 8)) gcm_m2) k c0 c1 c2
        (by rw [hd2, hb1.1])
        (by rw [lane_shuffle_m2_one, r11, hb1.2])
      by_cases h2 : 2 * k + 1 + 1 = s
      · rw [if_pos h2, hl0, Option.some_bind, ← blockIn_zero]
        have e1 : s - 2 * k = 2 := by omega
        have e2 : s - 1 - (2 * k + 1) = 0 := by omega
        rw [e1, groupAcc, groupAcc, groupAcc, xor3_zero, e2, ← xor3_assoc, ← g1,
          groupStep_second_final]
      · rw [if_neg h2]
        have hl2 : _mm_loadu_si128 data ((s - (2 * k + 1 + 1)) * 16 - 8)
            = some (rawAt data (16 * (s - 3 - 2 * k) + 8)) := by
          have e : (s - (2 * k + 1 + 1)) * 16 - 8 = 16 * (s - 3 - 2 * k) + 8 := by omega
          rw [e]; exact loadLE_16_eq (by omega)
        rw [hl2, Option.some_bind]
        obtain ⟨r20, r21⟩ := @rawAt_lanes data (16 * (s - 3 - 2 * k) + 8) (by omega)
        have e4 : 16 * (s - 3 - 2 * k) + 8 + 8 = 16 * (s - 2 - 2 * k) := by omega
        rw [e4] at r21
        have hb2 := @lane_blockIn data x (s - 2 - 2 * k) (by omega) (by omega)
        have g2 := groupStep_second table (blockIn data x (s - 2 - 2 * k))
          (_mm_shuffle_epi8 (rawAt data (16 * (s - 2 - 2 * k) + 8)) gcm_m2)
          (_mm_shuffle_epi8 (rawAt data (16 * (s - 3 - 2 * k) + 8)) gcm_m1) k
          (_mm_xor_si128 c0 (_mm_clmulepi64_si128 d2 (rawAt table (16 * (2 * k))) 1),
           _mm_xor_si128 c1 (_mm_clmulepi64_si128 (_mm_xor_si128 d2
              (_mm_shuffle_epi8 (rawAt data (16 * (s - 2 - 2 * k) + 8)) gcm_m2))
              (_mm_xor_si128 (rawAt table (16 * (2 * k))) (rawAt table (16 * (2 * k + 1)))) 1),
           _mm_xor_si128 c2 (_mm_clmulepi64_si128
              (_mm_shuffle_epi8 (rawAt data (16 * (s - 2 - 2 * k) + 8)) gcm_m2)
              (rawAt table (16 * (2 * k + 1))) 1))
          (by rw [lane_shuffle_m2_zero, r10, hb2.1])
          (by rw [lane_shuffle_m1_zero, r21, hb2.2])
        have e5 : 2 * k + 1 + 1 = 2 * (k + 1) := by omega
        have hd2n : lane (_mm_shuffle_epi8 (rawAt data (16 * (s - 3 - 2 * k) + 8)) gcm_m1) 1
            = bswap64 (le64At data (16 * (s - 1 - 2 * (k + 1)) + 8)) := by
          have e : s - 1 - 2 * (k + 1) = s - 3 - 2 * k := by omega
          rw [lane_shuffle_m1_one, r20, e]
        rw [e5, ih (k + 1) _ _ _ _ _ (by omega) (by omega) hd2n]
        have e6 : s - 2 * k = (s - 2 * (k + 1)) + 1 + 1 := by omega
        have e7 : s - 1 - (2 * k + 1) = s - 2 - 2 * k := by omega
        have e8 : 2 * k + 1 + 1 = 2 * (k + 1) := by omega
        rw [e6, groupAcc, groupAcc, e7, e8, ← xor3_assoc, ← xor3_assoc, ← g1, ← g2]


theorem zero_xor3 (a : Nat × Nat × Nat) : xor3 (0, 0, 0) a = a := by
  simp only [xor3, Nat.zero_xor]

theorem groupSize_pos {len : Nat} (h : 16 ≤ len) : 1 ≤ groupSize len := by
  unfold groupSize; omega

theorem groupSize_le (len : Nat) : groupSize len ≤ 8 := by
  unfold groupSize; omega

theorem groupSize_mul_le (len : Nat) : groupSize len * 16 ≤ len := by
  unfold groupSize; omega

/-- One pass of the outer loop. -/
theorem GCM_AuthenticateBlocks_CLMUL_loop_succ (table data : List Nat) (x fuel : Nat)
    (hlen : 16 ≤ data.length)
    (htable : 16 * (2 * ((groupSize data.length + 1) / 2)) ≤ table.length) :
    GCM_AuthenticateBlocks_CLMUL_loop table (fuel + 1) data x
      = GCM_AuthenticateBlocks_CLMUL_loop table fuel (data.drop (groupSize data.length * 16))
          (groupStep data table x (groupSize data.length)) := by
  have hs1 := groupSize_pos hlen
  have hs8 := groupSize_le data.length
  have hsl := groupSize_mul_le data.length
  generalize hs : groupSize data.length = s at hs1 hs8 hsl htable
  have hl : _mm_loadu_si128 data ((s - 1) * 16) = some (rawAt data ((s - 1) * 16)) :=
    loadLE_16_eq (by omega)
  obtain ⟨-, r1⟩ := @rawAt_lanes data ((s - 1) * 16) (by omega)
  have hd2 : lane (_mm_shuffle_epi8 (rawAt data ((s - 1) * 16)) gcm_m2) 1
      = bswap64 (le64At data (16 * (s - 1 - 2 * 0) + 8)) := by
    have e : 16 * (s - 1 - 2 * 0) + 8 = (s - 1) * 16 + 8 := by omega
    rw [lane_shuffle_m2_one, r1, e]
  have hin := GCM_AuthenticateBlocks_CLMUL_inner_eq data table x s (by omega) (by omega) s 0
    (rawAt data ((s - 1) * 16)) (_mm_shuffle_epi8 (rawAt data ((s - 1) * 16)) gcm_m2) 0 0 0
    (by omega) (by omega) hd2
  rw [Nat.mul_zero, Nat.sub_zero, zero_xor3] at hin
  rw [GCM_AuthenticateBlocks_CLMUL_loop, if_pos hlen]
  simp only [Option.bind_eq_bind, hs]
  rw [hl, Option.some_bind]
  simp only [_mm_setzero_si128]
  rw [hin, Option.some_bind]
  rfl

/-- The outer loop returns the accumulator `authAcc` and stops with the cursor
advanced over all full blocks. -/
theorem GCM_AuthenticateBlocks_CLMUL_loop_eq (table : List Nat)
    (fuel : Nat) (data : List Nat) (x : Nat) (hfuel : data.length / 16 < fuel)
    (htable : 16 * (2 * ((groupSize data.length + 1) / 2)) ≤ table.length) :
    GCM_AuthenticateBlocks_CLMUL_loop table fuel data x
      = some (authAcc table fuel data x, data.drop (16 * (data.length / 16))) := by
  induction fuel generalizing data x with
  | zero => omega
  | succ n ih =>
    by_cases hlen : 16 ≤ data.length
    · have hs1 := groupSize_pos hlen
      have hsl := groupSize_mul_le data.length
      have hmono : 16 * (2 * ((groupSize (data.drop (groupSize data.length * 16)).length + 1) / 2))
          ≤ table.length := by
        rw [List.length_drop]
        unfold groupSize at htable hs1 hsl ⊢
        omega
      rw [GCM_AuthenticateBlocks_CLMUL_loop_succ table data x n hlen htable,
        ih _ _ (by rw [List.length_drop]; omega) hmono, authAcc, if_pos hlen, List.drop_drop,
        List.length_drop]
      congr 3
      omega
    · rw [GCM_AuthenticateBlocks_CLMUL_loop, if_neg hlen, authAcc, if_neg hlen]
      have : data.length / 16 = 0 := by omega
      rw [this]; rfl

theorem rawAt_lt (mem : List Nat) (off : Nat) : rawAt mem off < 2 ^ 128 := by
  have h := ofBytesLE_lt ((mem.drop off).take 16)
  have hl : ((mem.drop off).take 16).length ≤ 16 := by
    rw [List.length_take]; omega
  have : (256 : Nat) ^ ((mem.drop off).take 16).length ≤ 256 ^ 16 :=
    Nat.pow_le_pow_right (by norm_num) hl
  have h16 : (256 : Nat) ^ 16 = 2 ^ 128 := by norm_num
  rw [rawAt]; omega

/-- The whole function in closed form. -/
theorem GCM_AuthenticateBlocks_CLMUL_eq (data mtable hbuffer : List Nat)
    (htable : 16 * (2 * ((groupSize data.length + 1) / 2)) ≤ mtable.length)
    (hh : hbuffer.length = 16) :
    GCM_AuthenticateBlocks_CLMUL data mtable hbuffer
      = some (toBytesLE 16 (authAcc mtable (data.length / 16 + 1) data (rawAt hbuffer 0)),
          data.length % 16) := by
  have hl : _mm_load_si128 hbuffer 0 = some (rawAt hbuffer 0) := loadLE_16_eq (by omega)
  have hloop := GCM_AuthenticateBlocks_CLMUL_loop_eq mtable (data.length / 16 + 1) data
    (rawAt hbuffer 0) (by omega) htable
  have hst : ∀ v, _mm_store_si128 hbuffer 0 v = some (toBytesLE 16 v) := by
    intro v
    have := @storeLE_of_eq 16 hbuffer [] hbuffer [] 0 v (by simp) hh rfl
    simpa using this
  rw [GCM_AuthenticateBlocks_CLMUL]
  simp only [Option.bind_eq_bind]
  rw [hl, Option.some_bind, hloop, Option.some_bind]
  simp only [hst, Option.some_bind, List.length_drop]
  congr 2
  omega

theorem slots_le_128 (len : Nat) : 16 * (2 * ((groupSize len + 1) / 2)) ≤ 128 := by
  unfold groupSize; omega

/-! ### The accumulator as a polynomial in the hash key -/

theorem field_two : (2 : GcmField) = 0 := by
  have h : fieldOf 1 + fieldOf 1 = 0 := by
    rw [← fieldOf_xor, Nat.xor_self, fieldOf_zero]
  rw [fieldOf_one] at h
  rw [← h]; norm_num

theorem mont_xor (a b : Nat) : mont (a ^^^ b) = mont a + mont b := by
  rw [mont, mont, mont, fieldOf_xor]; ring

theorem mont_GCM_Multiply_CLMUL {x h : Nat} (hx : x < 2 ^ 128) (hh : h < 2 ^ 128) :
    mont (GCM_Multiply_CLMUL x h gcm_r) = mont x * mont h := by
  have h1 := fieldOf_GCM_Multiply_CLMUL hx hh
  have h2 := fX_pow_mul_fY_pow 127
  rw [mont, mont, mont]
  linear_combination (fY ^ 127 * fY ^ 127) * h1
    - (fieldOf (GCM_Multiply_CLMUL x h gcm_r) * fY ^ 127) * h2

theorem mont_injective {a b : Nat} (ha : a < 2 ^ 128) (hb : b < 2 ^ 128) (h : mont a = mont b) :
    a = b := by
  apply fieldOf_injective ha hb
  have := congrArg (fun z => z * fX ^ 127) h
  simp only [mont, mul_assoc] at this
  have h2 : fY ^ 127 * fX ^ 127 = 1 := by rw [mul_comm]; exact fX_pow_mul_fY_pow 127
  rw [h2, mul_one, mul_one] at this
  exact this

theorem mont_of_mul_pow {z : Nat} {w : GcmField} (h : fieldOf z * fX ^ 127 = w) :
    mont z = w * fY ^ 127 * fY ^ 127 := by
  have h2 := fX_pow_mul_fY_pow 127
  rw [mont]
  linear_combination (fY ^ 127 * fY ^ 127) * h - (fieldOf z * fY ^ 127) * h2

theorem tablePower_lt {H : Nat} (hH : H < 2 ^ 128) (m : Nat) : tablePower H m < 2 ^ 128 := by
  cases m with
  | zero => exact hH
  | succ m => exact GCM_Multiply_CLMUL_lt _ _ _

theorem mont_tablePower {H : Nat} (hH : H < 2 ^ 128) (m : Nat) :
    mont (tablePower H m) = mont H ^ (m + 1) := by
  induction m with
  | zero => simp [tablePower]
  | succ m ih =>
    rw [tablePower, mont_GCM_Multiply_CLMUL (tablePower_lt hH m) hH, ih]; ring

theorem psi_xor3 (a b : Nat × Nat × Nat) : psi (xor3 a b) = psi a + psi b := by
  simp only [psi, xor3, fieldOf_xor]; ring

theorem psi_zero : psi (0, 0, 0) = 0 := by
  simp [psi, fieldOf_zero]

theorem psi_karatsuba {e p : Nat} (he : e < 2 ^ 128) (hp : p < 2 ^ 128) :
    psi (clmul64 (lane e 0) (lane p 0),
         clmul64 (lane e 0 ^^^ lane e 1) (lane p 0 ^^^ lane p 1),
         clmul64 (lane e 1) (lane p 1)) = fieldOf e * fieldOf p := by
  have hm : ∀ a b, (lane a 0 ^^^ lane b 1) % 2 ^ 64 = lane a 0 ^^^ lane b 1 := fun a b =>
    Nat.mod_eq_of_lt (Nat.xor_lt_two_pow (lane_lt _ _) (lane_lt _ _))
  simp only [psi, fieldOf_clmul64, lane_mod, hm, fieldOf_xor, fieldOf_lanes he, fieldOf_lanes hp]
  linear_combination (fX ^ 64 * (fieldOf (lane e 0) * fieldOf (lane p 0)
    + fieldOf (lane e 1) * fieldOf (lane p 1))) * field_two

theorem groupTerm_power {table : List Nat} {H : Nat} (hT : IsPowerTable table H) (e : Nat)
    {m : Nat} (hm : m < 8) :
    groupTerm table e m
      = (clmul64 (lane e 0) (lane (tablePower H m) 0),
         clmul64 (lane e 0 ^^^ lane e 1) (lane (tablePower H m) 0 ^^^ lane (tablePower H m) 1),
         clmul64 (lane e 1) (lane (tablePower H m) 1)) := by
  rcases Nat.mod_two_eq_zero_or_one m with hpar | hpar
  · obtain ⟨k, rfl⟩ : ∃ k, m = 2 * k := ⟨m / 2, by omega⟩
    obtain ⟨h0, h1⟩ := hT k (by omega)
    rw [groupTerm_even, h0, h1]
    simp only [lane_ofLanes_zero, lane_mod]
  · obtain ⟨k, rfl⟩ : ∃ k, m = 2 * k + 1 := ⟨m / 2, by omega⟩
    obtain ⟨h0, h1⟩ := hT k (by omega)
    rw [groupTerm_odd, h0, h1]
    simp only [lane_ofLanes_one, lane_mod]

theorem blockIn_lt (data : List Nat) {x : Nat} (hx : x < 2 ^ 128) (j : Nat) :
    blockIn data x j < 2 ^ 128 := by
  unfold blockIn
  split
  · exact Nat.xor_lt_two_pow (shuffle_lt _ _ (Or.inl rfl)) hx
  · exact shuffle_lt _ _ (Or.inl rfl)

theorem groupAcc_spec {table : List Nat} {H : Nat} (hT : IsPowerTable table H) (hH : H < 2 ^ 128)
    (data : List Nat) {x : Nat} (hx : x < 2 ^ 128) (s n i : Nat) (hi : i + n ≤ 8) :
    ((groupAcc data table x s n i).1 < 2 ^ 127 ∧ (groupAcc data table x s n i).2.1 < 2 ^ 127 ∧
      (groupAcc data table x s n i).2.2 < 2 ^ 127) ∧
    psi (groupAcc data table x s n i)
      = ∑ t in Finset.range n,
          fieldOf (blockIn data x (s - 1 - (i + t))) * fieldOf (tablePower H (i + t)) := by
  induction n generalizing i with
  | zero =>
    refine ⟨⟨by norm_num [groupAcc], by norm_num [groupAcc], by norm_num [groupAcc]⟩, ?_⟩
    rw [groupAcc, psi_zero, Finset.sum_range_zero]
  | succ n ih =>
    obtain ⟨⟨b0, b1, b2⟩, hp⟩ := ih (i + 1) (by omega)
    have hg := groupTerm_power hT (blockIn data x (s - 1 - i)) (by omega : i < 8)
    rw [groupAcc, hg]
    refine ⟨⟨?_, ?_, ?_⟩, ?_⟩
    · exact Nat.xor_lt_two_pow (clmul64_lt _ _) b0
    · exact Nat.xor_lt_two_pow (clmul64_lt _ _) b1
    · exact Nat.xor_lt_two_pow (clmul64_lt _ _) b2
    · rw [psi_xor3, psi_karatsuba (blockIn_lt data hx _) (tablePower_lt hH _), hp,
        Finset.sum_range_succ']
      simp only [Nat.add_zero]
      rw [add_comm]
      congr 1
      apply Finset.sum_congr rfl
      intro t _
      have e : i + 1 + t = i + (t + 1) := by omega
      rw [e]

theorem mont_groupStep {table : List Nat} {H : Nat} (hT : IsPowerTable table H)
    (hH : H < 2 ^ 128) (data : List Nat) {x : Nat} (hx : x < 2 ^ 128) (s : Nat) (hs : s ≤ 8) :
    mont (groupStep data table x s)
      = ∑ t in Finset.range s, mont (blockIn data x (s - 1 - t)) * mont H ^ (t + 1) := by
  obtain ⟨⟨b0, b1, b2⟩, hp⟩ := groupAcc_spec hT hH data hx s s 0 (by omega)
  have hred := fieldOf_GCM_Reduce_CLMUL b0
    (lt_trans (Nat.xor_lt_two_pow (Nat.xor_lt_two_pow b1 b0) b2) (by norm_num)) b2
  rw [fieldOf_xor, fieldOf_xor] at hred
  have hpsi : fieldOf (groupStep data table x s) * fX ^ 127 = psi (groupAcc data table x s s 0) := by
    rw [psi]; exact hred
  rw [mont_of_mul_pow hpsi, hp, Finset.sum_mul, Finset.sum_mul]
  apply Finset.sum_congr rfl
  intro t _
  rw [Nat.zero_add, ← mont_tablePower hH t, mont, mont]
  ring

theorem mont_ghashBlocks {H : Nat} (hH : H < 2 ^ 128) (data : List Nat) {X : Nat}
    (hX : X < 2 ^ 128) (n : Nat) :
    ghashBlocks H data n X < 2 ^ 128 ∧
    mont (ghashBlocks H data n X)
      = mont X * mont H ^ n
        + ∑ j in Finset.range n,
            mont (_mm_shuffle_epi8 (rawAt data (16 * j)) gcm_m1) * mont H ^ (n - j) := by
  induction n with
  | zero => exact ⟨hX, by simp [ghashBlocks]⟩
  | succ n ih =>
    obtain ⟨hb, hm⟩ := ih
    refine ⟨GCM_Multiply_CLMUL_lt _ _ _, ?_⟩
    have hsum : ∑ j in Finset.range n,
          mont (_mm_shuffle_epi8 (rawAt data (16 * j)) gcm_m1) * mont H ^ (n + 1 - j)
        = (∑ j in Finset.range n,
            mont (_mm_shuffle_epi8 (rawAt data (16 * j)) gcm_m1) * mont H ^ (n - j)) * mont H := by
      rw [Finset.sum_mul]
      apply Finset.sum_congr rfl
      intro j hj
      have hjn : j < n := Finset.mem_range.mp hj
      have e2 : n + 1 - j = (n - j) + 1 := by omega
      rw [e2, pow_succ, mul_assoc]
    have e1 : n + 1 - n = 1 := by omega
    rw [ghashBlocks, mont_GCM_Multiply_CLMUL
      (Nat.xor_lt_two_pow hb (shuffle_lt _ _ (Or.inl rfl))) hH, mont_xor, hm,
      Finset.sum_range_succ, hsum, e1]
    ring

/-- One group of `s` blocks is `s` steps of the block-by-block recurrence. -/
theorem groupStep_eq_ghashBlocks {table : List Nat} {H : Nat} (hT : IsPowerTable table H)
    (hH : H < 2 ^ 128) (data : List Nat) {x : Nat} (hx : x < 2 ^ 128) (s : Nat) (hs1 : 1 ≤ s)
    (hs : s ≤ 8) :
    groupStep data table x s = ghashBlocks H data s x := by
  obtain ⟨hb, hm⟩ := mont_ghashBlocks hH data hx s
  have hlt : groupStep data table x s < 2 ^ 128 := GCM_Reduce_CLMUL_lt _ _ _ _
  apply mont_injective hlt hb
  rw [mont_groupStep hT hH data hx s hs, hm]
  obtain ⟨s', rfl⟩ : ∃ s', s = s' + 1 := ⟨s - 1, by omega⟩
  have hrefl := Finset.sum_range_reflect
    (fun j => mont (blockIn data x j) * mont H ^ (s' + 1 - j)) (s' + 1)
  have hl : ∑ t in Finset.range (s' + 1), mont (blockIn data x (s' + 1 - 1 - t)) * mont H ^ (t + 1)
      = ∑ j in Finset.range (s' + 1), mont (blockIn data x j) * mont H ^ (s' + 1 - j) := by
    rw [← hrefl]
    apply Finset.sum_congr rfl
    intro t ht
    have htn : t < s' + 1 := Finset.mem_range.mp ht
    have e : s' + 1 - (s' + 1 - 1 - t) = t + 1 := by omega
    simp only [e]
  rw [hl, Finset.sum_range_succ', Finset.sum_range_succ']
  simp only [blockIn, if_true, Nat.sub_zero, Nat.mul_zero, mont_xor]
  have hr : ∀ j, (if j + 1 = 0 then _mm_shuffle_epi8 (rawAt data 0) gcm_m1 ^^^ x
      else _mm_shuffle_epi8 (rawAt data (16 * (j + 1))) gcm_m1)
      = _mm_shuffle_epi8 (rawAt data (16 * (j + 1))) gcm_m1 := fun j => by simp
  simp only [hr]
  ring

theorem rawAt_drop (mem : List Nat) (a b : Nat) : rawAt (mem.drop a) b = rawAt mem (a + b) := by
  unfold rawAt
  rw [List.drop_drop]

theorem ghashBlocks_lt {H : Nat} (data : List Nat) {X : Nat} (hX : X < 2 ^ 128) (n : Nat) :
    ghashBlocks H data n X < 2 ^ 128 := by
  cases n with
  | zero => exact hX
  | succ n => exact GCM_Multiply_CLMUL_lt _ _ _

/-- The recurrence over `s + m` blocks is the recurrence over the first `s` blocks
followed by the recurrence over the next `m` blocks. -/
theorem ghashBlocks_add (H : Nat) (data : List Nat) (X s m : Nat) :
    ghashBlocks H data (s + m) X
      = ghashBlocks H (data.drop (16 * s)) m (ghashBlocks H data s X) := by
  induction m with
  | zero => rfl
  | succ m ih =>
    have e : s + (m + 1) = (s + m) + 1 := by omega
    have e2 : 16 * (s + m) = 16 * s + 16 * m := by ring
    rw [e, ghashBlocks, ghashBlocks, ih, rawAt_drop, e2]

/-- The recurrence reads only the blocks it processes. -/
theorem ghashBlocks_append (H : Nat) (d1 d2 : List Nat) (X n : Nat) (hn : 16 * n ≤ d1.length) :
    ghashBlocks H (d1 ++ d2) n X = ghashBlocks H d1 n X := by
  induction n with
  | zero => rfl
  | succ n ih =>
    have hr : rawAt (d1 ++ d2) (16 * n) = rawAt d1 (16 * n) := by
      unfold rawAt
      rw [List.drop_append_of_le_length (by omega), List.take_append_of_le_length]
      rw [List.length_drop]; omega
    rw [ghashBlocks, ghashBlocks, ih (by omega), hr]

/-- With a table of the powers of `H`, the grouped outer loop computes the
block-by-block recurrence over all full blocks. -/
theorem authAcc_eq_ghashBlocks {table : List Nat} {H : Nat} (hT : IsPowerTable table H)
    (hH : H < 2 ^ 128) (fuel : Nat) (data : List Nat) {x : Nat} (hx : x < 2 ^ 128)
    (hfuel : data.length / 16 < fuel) :
    authAcc table fuel data x = ghashBlocks H data (data.length / 16) x := by
  induction fuel generalizing data x with
  | zero => omega
  | succ fuel ih =>
    rw [authAcc]
    by_cases hlen : 16 ≤ data.length
    · rw [if_pos hlen]
      have hs1 := groupSize_pos hlen
      have hs8 := groupSize_le data.length
      have hsl := groupSize_mul_le data.length
      have hg := groupStep_eq_ghashBlocks hT hH data hx (groupSize data.length) hs1 hs8
      have hl : (data.drop (groupSize data.length * 16)).length
          = data.length - groupSize data.length * 16 := List.length_drop _ _
      have hd : (data.drop (groupSize data.length * 16)).length / 16
          = data.length / 16 - groupSize data.length := by
        rw [hl]; omega
      rw [ih (data.drop (groupSize data.length * 16)) (hg ▸ ghashBlocks_lt data hx _)
        (by rw [hd]; omega), hg, hd]
      have e : data.length / 16
          = groupSize data.length + (data.length / 16 - groupSize data.length) := by omega
      have e16 : groupSize data.length * 16 = 16 * groupSize data.length := by ring
      conv_rhs => rw [e, ghashBlocks_add]
      rw [e16]
    · rw [if_neg hlen]
      have e : data.length / 16 = 0 := by omega
      rw [e]; rfl

/-- The table written by `GCM_SetKeyWithoutResync_CLMUL` for at least 128 bytes is a
table of the first eight powers. -/
theorem isPowerTable_tableBytes (H : Nat) (R : List Nat) (m : Nat) (hm : 4 ≤ m) :
    IsPowerTable (tableBytes H m ++ R) H := by
  intro k hk
  exact ⟨rawAt_tableBytes_even H R m k (by omega), rawAt_tableBytes_odd H R m k (by omega)⟩

/-! ### Return value, consumed bytes and dependence on the input -/

/-- C3: for every input length (0 and lengths below 16 included)
`GCM_AuthenticateBlocks_CLMUL` returns exactly `len mod 16`, and its outer loop stops
with the `data` cursor advanced over `len - (len mod 16)` bytes.  The table is the
128-byte table of the callers and `hbuffer` a 16-byte buffer. -/
theorem GCM_AuthenticateBlocks_CLMUL_returns_len_mod_16 (data mtable hbuffer : List Nat)
    (htable : 128 ≤ mtable.length) (hh : hbuffer.length = 16) :
    (∃ hb, GCM_AuthenticateBlocks_CLMUL data mtable hbuffer = some (hb, data.length % 16)) ∧
    (∃ x, GCM_AuthenticateBlocks_CLMUL_loop mtable (data.length / 16 + 1) data (rawAt hbuffer 0)
        = some (x, data.drop (data.length - data.length % 16))) := by
  have hs := le_trans (slots_le_128 data.length) htable
  have e : data.length - data.length % 16 = 16 * (data.length / 16) := by omega
  refine ⟨⟨_, GCM_AuthenticateBlocks_CLMUL_eq data mtable hbuffer hs hh⟩,
    ⟨authAcc mtable (data.length / 16 + 1) data (rawAt hbuffer 0), ?_⟩⟩
  rw [e]
  exact GCM_AuthenticateBlocks_CLMUL_loop_eq mtable _ data _ (by omega) hs

theorem GCM_AuthenticateBlocks_CLMUL_returns_len_mod_16_witness :
    (∃ hb, GCM_AuthenticateBlocks_CLMUL (List.replicate 37 5) (List.replicate 128 3)
        (List.replicate 16 0) = some (hb, (List.replicate 37 5).length % 16)) ∧
    (∃ x, GCM_AuthenticateBlocks_CLMUL_loop (List.replicate 128 3)
        ((List.replicate 37 5).length / 16 + 1) (List.replicate 37 5)
        (rawAt (List.replicate 16 0) 0)
        = some (x, (List.replicate 37 5).drop
            ((List.replicate 37 5).length - (List.replicate 37 5).length % 16))) :=
  GCM_AuthenticateBlocks_CLMUL_returns_len_mod_16 (List.replicate 37 5) (List.replicate 128 3)
    (List.replicate 16 0) (by simp) (by simp)

theorem rawAt_take {data : List Nat} {L off : Nat} (h : off + 16 ≤ L) :
    rawAt (data.take L) off = rawAt data off := by
  rw [rawAt, rawAt, List.drop_take, List.take_take]
  congr 2
  omega

theorem blockIn_take {data : List Nat} {L : Nat} (x : Nat) {j : Nat} (h : 16 * j + 16 ≤ L) :
    blockIn (data.take L) x j = blockIn data x j := by
  unfold blockIn
  rw [rawAt_take h, rawAt_take (by omega : 0 + 16 ≤ L)]

theorem groupAcc_take (data table : List Nat) (x s L : Nat) (hL : 16 * s ≤ L) (hs : 0 < s)
    (n i : Nat) :
    groupAcc (data.take L) table x s n i = groupAcc data table x s n i := by
  induction n generalizing i with
  | zero => rfl
  | succ n ih =>
    rw [groupAcc, groupAcc, ih, blockIn_take x (by omega)]

theorem groupStep_take (data table : List Nat) (x s L : Nat) (hL : 16 * s ≤ L) (hs : 0 < s) :
    groupStep (data.take L) table x s = groupStep data table x s := by
  unfold groupStep
  rw [groupAcc_take data table x s L hL hs]

theorem authAcc_take (table : List Nat) (fuel : Nat) (data : List Nat) (x : Nat) :
    authAcc table fuel (data.take (16 * (data.length / 16))) x = authAcc table fuel data x := by
  induction fuel generalizing data x with
  | zero => rfl
  | succ n ih =>
    have hl : (data.take (16 * (data.length / 16))).length = 16 * (data.length / 16) := by
      rw [List.length_take]; omega
    by_cases hlen : 16 ≤ data.length
    · have hlen2 : 16 ≤ 16 * (data.length / 16) := by omega
      have hg : groupSize (16 * (data.length / 16)) = groupSize data.length := by
        unfold groupSize; omega
      have hs1 := groupSize_pos hlen
      have hsl := groupSize_mul_le data.length
      rw [authAcc, authAcc, hl, if_pos hlen, if_pos hlen2, hg,
        groupStep_take data table x _ _ (by omega) (by omega), List.drop_take]
      have e : 16 * (data.length / 16) - groupSize data.length * 16
          = 16 * ((data.drop (groupSize data.length * 16)).length / 16) := by
        rw [List.length_drop]; omega
      rw [e, ih]
    · have hlen2 : ¬ 16 ≤ 16 * (data.length / 16) := by omega
      rw [authAcc, authAcc, hl, if_neg hlen, if_neg hlen2]

theorem toBytesLE_ofBytesLE (l : List Nat) (h : ∀ b ∈ l, b < 256) :
    toBytesLE l.length (ofBytesLE l) = l := by
  induction l with
  | nil => rfl
  | cons b l ih =>
    have hb : b < 256 := h b (List.mem_cons_self _ _)
    have h1 : (b % 256 + 256 * ofBytesLE l) % 256 = b := by omega
    have h2 : (b % 256 + 256 * ofBytesLE l) / 256 = ofBytesLE l := by omega
    rw [List.length_cons, ofBytesLE, toBytesLE, h1, h2,
      ih (fun c hc => h c (List.mem_cons_of_mem _ hc))]

/-- C8: the accumulator left by `GCM_AuthenticateBlocks_CLMUL` on `N` bytes equals the one
left by a call on the block-aligned prefix of `N - (N mod 16)` bytes alone, so it does not
depend on the trailing `N mod 16` bytes; when `N < 16` the 16 bytes of `hbuffer` are left
unchanged. -/
theorem GCM_AuthenticateBlocks_CLMUL_aligned_prefix (data mtable hbuffer : List Nat)
    (htable : 128 ≤ mtable.length) (hh : hbuffer.length = 16) (hbytes : ∀ b ∈ hbuffer, b < 256) :
    ∃ hb, GCM_AuthenticateBlocks_CLMUL data mtable hbuffer = some (hb, data.length % 16) ∧
      GCM_AuthenticateBlocks_CLMUL (data.take (data.length - data.length % 16)) mtable hbuffer
        = some (hb, 0) ∧
      (data.length < 16 → hb = hbuffer) := by
  have hs := le_trans (slots_le_128 data.length) htable
  have e : data.length - data.length % 16 = 16 * (data.length / 16) := by omega
  have hl : (data.take (16 * (data.length / 16))).length = 16 * (data.length / 16) := by
    rw [List.length_take]; omega
  have hs2 := le_trans (slots_le_128 (data.take (16 * (data.length / 16))).length) htable
  refine ⟨_, GCM_AuthenticateBlocks_CLMUL_eq data mtable hbuffer hs hh, ?_, ?_⟩
  · rw [e, GCM_AuthenticateBlocks_CLMUL_eq _ mtable hbuffer hs2 hh, hl, authAcc_take]
    have e1 : 16 * (data.length / 16) / 16 = data.length / 16 := by omega
    have e2 : 16 * (data.length / 16) % 16 = 0 := by omega
    rw [e1, e2]
  · intro hlt
    have e0 : data.length / 16 + 1 = 0 + 1 := by omega
    have hn : ¬ 16 ≤ data.length := by omega
    rw [e0, authAcc, if_neg hn, rawAt, List.drop_zero, List.take_of_length_le (by omega)]
    have := toBytesLE_ofBytesLE hbuffer hbytes
    rw [hh] at this
    exact this

theorem GCM_AuthenticateBlocks_CLMUL_aligned_prefix_witness :
    ∃ hb, GCM_AuthenticateBlocks_CLMUL (List.replicate 37 5) (List.replicate 128 3)
        (List.replicate 16 9) = some (hb, (List.replicate 37 5).length % 16) ∧
      GCM_AuthenticateBlocks_CLMUL
        ((List.replicate 37 5).take
          ((List.replicate 37 5).length - (List.replicate 37 5).length % 16))
        (List.replicate 128 3) (List.replicate 16 9) = some (hb, 0) ∧
      ((List.replicate 37 5).length < 16 → hb = List.replicate 16 9) :=
  GCM_AuthenticateBlocks_CLMUL_aligned_prefix (List.replicate 37 5) (List.replicate 128 3)
    (List.replicate 16 9) (by simp) (by simp) (by simp)

/-! ### The table as an optimisation, splitting of calls, table capacity -/

theorem rawAt_toBytesLE {y : Nat} (hy : y < 2 ^ 128) : rawAt (toBytesLE 16 y) 0 = y := by
  have hl := toBytesLE_length 16 y
  rw [rawAt, List.drop_zero, List.take_of_length_le (by omega), ofBytesLE_toBytesLE]
  have e : (256 : Nat) ^ 16 = 2 ^ 128 := by norm_num
  rw [e, Nat.mod_eq_of_lt hy]

theorem built_table_length (H : Nat) (mulTable : List Nat) (m : Nat)
    (hlen : 32 * m ≤ mulTable.length) :
    (tableBytes H m ++ mulTable.drop (32 * m)).length = mulTable.length := by
  rw [List.length_append, tableBytes_length, List.length_drop]; omega

/-- The call with a table of powers of `H` that has 128 bytes or more leaves the value of
the block-by-block recurrence in `hbuffer`. -/
theorem GCM_AuthenticateBlocks_CLMUL_powerTable {table : List Nat} {H : Nat}
    (hT : IsPowerTable table H) (hH : H < 2 ^ 128) (htl : 128 ≤ table.length)
    (data hbuffer : List Nat) (hh : hbuffer.length = 16) :
    GCM_AuthenticateBlocks_CLMUL data table hbuffer
      = some (toBytesLE 16 (ghashBlocks H data (data.length / 16) (rawAt hbuffer 0)),
          data.length % 16) := by
  rw [GCM_AuthenticateBlocks_CLMUL_eq data table hbuffer
    (le_trans (slots_le_128 data.length) htl) hh,
    authAcc_eq_ghashBlocks hT hH _ data (rawAt_lt hbuffer 0) (by omega)]

/-- C2: for every hash key (16 bytes or more readable at `hashKey`), every initial
accumulator `X` (the 16 bytes of `hbuffer`) and every data buffer,
`GCM_AuthenticateBlocks_CLMUL` run with the table produced by
`GCM_SetKeyWithoutResync_CLMUL(hashKey, mulTable, 128)` leaves in `hbuffer` exactly the
value `X_n`, `n = len / 16`, of the block-by-block recurrence `X_0 = X`,
`X_(j+1) = GCM_Multiply_CLMUL(X_j XOR rev16(B_j), rev16(H), r)` (and returns
`len mod 16`); for a buffer of `n` full blocks this is the claim. -/
theorem GCM_AuthenticateBlocks_CLMUL_eq_recurrence (hashKey mulTable hbuffer data : List Nat)
    (hk : 16 ≤ hashKey.length) (hlen : 128 ≤ mulTable.length) (hh : hbuffer.length = 16) :
    ∃ table, GCM_SetKeyWithoutResync_CLMUL hashKey mulTable 128 = some table ∧
      GCM_AuthenticateBlocks_CLMUL data table hbuffer
        = some (toBytesLE 16 (ghashBlocks (_mm_shuffle_epi8 (rawAt hashKey 0) gcm_m1) data
            (data.length / 16) (rawAt hbuffer 0)), data.length % 16) := by
  have hset := GCM_SetKeyWithoutResync_CLMUL_eq hashKey mulTable 4 (by omega) (by norm_num) hk
    (by omega)
  refine ⟨_, hset, ?_⟩
  exact GCM_AuthenticateBlocks_CLMUL_powerTable
    (isPowerTable_tableBytes _ _ 4 (le_refl 4)) (shuffle_lt _ _ (Or.inl rfl))
    (by rw [built_table_length _ _ _ (by omega)]; exact hlen) data hbuffer hh

theorem GCM_AuthenticateBlocks_CLMUL_eq_recurrence_witness :
    ∃ table, GCM_SetKeyWithoutResync_CLMUL (List.replicate 16 1) (List.replicate 128 0) 128
        = some table ∧
      GCM_AuthenticateBlocks_CLMUL (List.replicate 48 5) table (List.replicate 16 7)
        = some (toBytesLE 16
            (ghashBlocks (_mm_shuffle_epi8 (rawAt (List.replicate 16 1) 0) gcm_m1)
              (List.replicate 48 5) ((List.replicate 48 5).length / 16)
              (rawAt (List.replicate 16 7) 0)), (List.replicate 48 5).length % 16) :=
  GCM_AuthenticateBlocks_CLMUL_eq_recurrence (List.replicate 16 1) (List.replicate 128 0)
    (List.replicate 16 7) (List.replicate 48 5) (by simp) (by simp) (by simp)

/-- C4 (as stated, refuted): with the 128-byte table whose first byte is 1 and whose other
bytes are 0 (not a table of powers), a zero accumulator, `D1` the block `01 00 .. 00` and
`D2` the zero block, one call on `D1 ++ D2` leaves the zero accumulator, while the call on
`D1` followed by the call on `D2` leaves the bytes `00 .. 00 10 40 05`. -/
theorem split_call_differs_on_arbitrary_table :
    GCM_AuthenticateBlocks_CLMUL ((1 :: List.replicate 15 0) ++ List.replicate 16 0)
        (1 :: List.replicate 127 0) (List.replicate 16 0)
      = some ([0, 0, 0, 0, 0, 0, 0, 0, 0, 0, 0, 0, 0, 0, 0, 0], 0) ∧
    (GCM_AuthenticateBlocks_CLMUL (1 :: List.replicate 15 0)
        (1 :: List.replicate 127 0) (List.replicate 16 0)).bind
      (fun r => GCM_AuthenticateBlocks_CLMUL (List.replicate 16 0)
        (1 :: List.replicate 127 0) r.1)
      = some ([0, 0, 0, 0, 0, 0, 0, 0, 0, 0, 0, 0, 0, 16, 64, 5], 0) := by
  set_option maxRecDepth 1000000 in decide

/-- C4 (amended): for every table built by `GCM_SetKeyWithoutResync_CLMUL` with a table
size of 128 bytes or more, every accumulator and every data `D = D1 ++ D2` where the
length of `D1` is a multiple of 16, one call on `D` yields the same final `hbuffer` and
the same return value as the call on `D1` followed by the call on `D2`. -/
theorem GCM_AuthenticateBlocks_CLMUL_split (hashKey mulTable hbuffer d1 d2 : List Nat)
    (tableSize : Nat) (h128 : 128 ≤ tableSize) (h32 : tableSize % 32 = 0)
    (hsz : tableSize < 2 ^ 32) (hk : 16 ≤ hashKey.length) (hlen : tableSize ≤ mulTable.length)
    (hh : hbuffer.length = 16) (hd1 : d1.length % 16 = 0) :
    ∃ table hb1 hb2, GCM_SetKeyWithoutResync_CLMUL hashKey mulTable tableSize = some table ∧
      GCM_AuthenticateBlocks_CLMUL d1 table hbuffer = some (hb1, 0) ∧
      GCM_AuthenticateBlocks_CLMUL d2 table hb1 = some (hb2, d2.length % 16) ∧
      GCM_AuthenticateBlocks_CLMUL (d1 ++ d2) table hbuffer = some (hb2, d2.length % 16) := by
  obtain ⟨m, rfl⟩ : ∃ m, tableSize = 32 * m := ⟨tableSize / 32, by omega⟩
  have hT := isPowerTable_tableBytes (_mm_shuffle_epi8 (rawAt hashKey 0) gcm_m1)
    (mulTable.drop (32 * m)) m (by omega)
  have hH : _mm_shuffle_epi8 (rawAt hashKey 0) gcm_m1 < 2 ^ 128 := shuffle_lt _ _ (Or.inl rfl)
  have htl : 128 ≤ (tableBytes (_mm_shuffle_epi8 (rawAt hashKey 0) gcm_m1) m
      ++ mulTable.drop (32 * m)).length := by
    rw [built_table_length _ _ _ hlen]; omega
  have hX := rawAt_lt hbuffer 0
  have hY := @ghashBlocks_lt (_mm_shuffle_epi8 (rawAt hashKey 0) gcm_m1) d1 _ hX (d1.length / 16)
  refine ⟨_, toBytesLE 16 (ghashBlocks (_mm_shuffle_epi8 (rawAt hashKey 0) gcm_m1) d1
      (d1.length / 16) (rawAt hbuffer 0)),
    toBytesLE 16 (ghashBlocks (_mm_shuffle_epi8 (rawAt hashKey 0) gcm_m1) d2 (d2.length / 16)
      (ghashBlocks (_mm_shuffle_epi8 (rawAt hashKey 0) gcm_m1) d1 (d1.length / 16)
        (rawAt hbuffer 0))),
    GCM_SetKeyWithoutResync_CLMUL_eq hashKey mulTable m (by omega) hsz hk hlen, ?_, ?_, ?_⟩
  · rw [GCM_AuthenticateBlocks_CLMUL_powerTable hT hH htl d1 hbuffer hh, hd1]
  · rw [GCM_AuthenticateBlocks_CLMUL_powerTable hT hH htl d2 _ (toBytesLE_length 16 _),
      rawAt_toBytesLE hY]
  · rw [GCM_AuthenticateBlocks_CLMUL_powerTable hT hH htl (d1 ++ d2) hbuffer hh,
      List.length_append]
    have e1 : (d1.length + d2.length) / 16 = d1.length / 16 + d2.length / 16 := by omega
    have e2 : (d1.length + d2.length) % 16 = d2.length % 16 := by omega
    have e3 : 16 * (d1.length / 16) = d1.length := by omega
    rw [e1, e2, ghashBlocks_add, e3, List.drop_left,
      ghashBlocks_append _ d1 d2 _ _ (by omega)]

theorem GCM_AuthenticateBlocks_CLMUL_split_witness :
    ∃ table hb1 hb2,
      GCM_SetKeyWithoutResync_CLMUL (List.replicate 16 1) (List.replicate 128 0) 128
        = some table ∧
      GCM_AuthenticateBlocks_CLMUL (List.replicate 16 5) table (List.replicate 16 7)
        = some (hb1, 0) ∧
      GCM_AuthenticateBlocks_CLMUL (List.replicate 21 6) table hb1
        = some (hb2, (List.replicate 21 6).length % 16) ∧
      GCM_AuthenticateBlocks_CLMUL (List.replicate 16 5 ++ List.replicate 21 6) table
        (List.replicate 16 7) = some (hb2, (List.replicate 21 6).length % 16) :=
  GCM_AuthenticateBlocks_CLMUL_split (List.replicate 16 1) (List.replicate 128 0)
    (List.replicate 16 7) (List.replicate 16 5) (List.replicate 21 6) 128
    (by decide) (by decide) (by decide) (by simp) (by simp) (by simp) (by simp)

/-- C9 (as stated, refuted): the table built with table size 32 from the zero key has 32
bytes, so 2 slots; for 48 bytes of data the group has `min(48/16, 8) = 3` blocks, more
than the capacity `32/16 = 2`, the load of slot 2 (`table+i` with `i = 2`) is outside the
table and the call has no defined result. -/
theorem group_size_exceeds_small_table :
    GCM_SetKeyWithoutResync_CLMUL (List.replicate 16 0) (List.replicate 32 0) 32
      = some (List.replicate 32 0) ∧
    groupSize (List.replicate 48 0).length = 3 ∧
    32 / 16 < groupSize (List.replicate 48 0).length ∧
    _mm_load_si128 (List.replicate 32 0) (16 * 2) = none ∧
    GCM_AuthenticateBlocks_CLMUL (List.replicate 48 0) (List.replicate 32 0)
      (List.replicate 16 0) = none := by
  set_option maxRecDepth 1000000 in decide

/-- C9 (amended): for every table built with a table size that is a positive multiple of
32 and every input length, the number of blocks of one group is `min(len/16, 8)`, at most
8 whatever the table size; it is bounded by the capacity `tableSize / 16` when the table
size is 128 or more, and whenever it is bounded by the capacity every load of the call
lies inside the table, so that the call returns. -/
theorem group_size_within_table (hashKey mulTable hbuffer data : List Nat) (tableSize : Nat)
    (hpos : 0 < tableSize) (h32 : tableSize % 32 = 0) (hsz : tableSize < 2 ^ 32)
    (hk : 16 ≤ hashKey.length) (hlen : mulTable.length = tableSize)
    (hh : hbuffer.length = 16) :
    ∃ table, GCM_SetKeyWithoutResync_CLMUL hashKey mulTable tableSize = some table ∧
      table.length = tableSize ∧
      groupSize data.length = min (data.length / 16) 8 ∧
      (128 ≤ tableSize → groupSize data.length ≤ tableSize / 16) ∧
      (groupSize data.length ≤ tableSize / 16 →
        ∃ hb, GCM_AuthenticateBlocks_CLMUL data table hbuffer = some (hb, data.length % 16)) := by
  obtain ⟨m, rfl⟩ : ∃ m, tableSize = 32 * m := ⟨tableSize / 32, by omega⟩
  have hl := built_table_length (_mm_shuffle_epi8 (rawAt hashKey 0) gcm_m1) mulTable m
    (by omega)
  refine ⟨_, GCM_SetKeyWithoutResync_CLMUL_eq hashKey mulTable m (by omega) hsz hk (by omega),
    by rw [hl, hlen], rfl, ?_, ?_⟩
  · intro h128
    have := groupSize_le data.length
    omega
  · intro hcap
    exact ⟨_, GCM_AuthenticateBlocks_CLMUL_eq data _ hbuffer (by rw [hl, hlen]; omega) hh⟩

theorem group_size_within_table_witness :
    ∃ table, GCM_SetKeyWithoutResync_CLMUL (List.replicate 16 1) (List.replicate 64 0) 64
        = some table ∧
      table.length = 64 ∧
      groupSize (List.replicate 37 5).length = min ((List.replicate 37 5).length / 16) 8 ∧
      (128 ≤ 64 → groupSize (List.replicate 37 5).length ≤ 64 / 16) ∧
      (groupSize (List.replicate 37 5).length ≤ 64 / 16 →
        ∃ hb, GCM_AuthenticateBlocks_CLMUL (List.replicate 37 5) table (List.replicate 16 7)
          = some (hb, (List.replicate 37 5).length % 16)) :=
  group_size_within_table (List.replicate 16 1) (List.replicate 64 0) (List.replicate 16 7)
    (List.replicate 37 5) 64 (by decide) (by decide) (by decide) (by simp) (by simp) (by simp)

/-! ### Zero blocks -/

theorem ofBytesLE_replicate_zero (n : Nat) : ofBytesLE (List.replicate n 0) = 0 := by
  induction n with
  | zero => rfl
  | succ n ih => rw [List.replicate_succ, ofBytesLE, ih]

theorem rawAt_replicate_zero (n off : Nat) : rawAt (List.replicate n 0) off = 0 := by
  rw [rawAt, List.drop_replicate, List.take_replicate, ofBytesLE_replicate_zero]

theorem shuffle_zero_gcm_m1 : _mm_shuffle_epi8 0 gcm_m1 = 0 := by decide

theorem mont_zero : mont 0 = 0 := by
  rw [mont, fieldOf_zero, zero_mul]

theorem GCM_Multiply_CLMUL_zero_left {h : Nat} (hh : h < 2 ^ 128) :
    GCM_Multiply_CLMUL 0 h gcm_r = 0 := by
  apply mont_injective (GCM_Multiply_CLMUL_lt _ _ _) (by norm_num)
  rw [mont_GCM_Multiply_CLMUL (by norm_num) hh, mont_zero, zero_mul]

theorem ghashBlocks_zero {H : Nat} (hH : H < 2 ^ 128) (len n : Nat) :
    ghashBlocks H (List.replicate len 0) n 0 = 0 := by
  induction n with
  | zero => rfl
  | succ n ih =>
    rw [ghashBlocks, ih, rawAt_replicate_zero, shuffle_zero_gcm_m1, Nat.xor_self,
      GCM_Multiply_CLMUL_zero_left hH]

theorem toBytesLE_zero (n : Nat) : toBytesLE n 0 = List.replicate n 0 := by
  induction n with
  | zero => rfl
  | succ n ih => rw [toBytesLE, List.replicate_succ, Nat.zero_div, ih]

/-- C11: for every hash key and every number `n` of blocks (in particular `n >= 1`),
authenticating `n` all-zero 16-byte blocks from an all-zero accumulator with the table
built from the key (table size 128 or more) leaves the accumulator all-zero and
returns 0. -/
theorem zero_blocks_leave_zero_accumulator (hashKey mulTable : List Nat) (tableSize n : Nat)
    (h128 : 128 ≤ tableSize) (h32 : tableSize % 32 = 0) (hsz : tableSize < 2 ^ 32)
    (hk : 16 ≤ hashKey.length) (hlen : tableSize ≤ mulTable.length) :
    ∃ table, GCM_SetKeyWithoutResync_CLMUL hashKey mulTable tableSize = some table ∧
      GCM_AuthenticateBlocks_CLMUL (List.replicate (16 * n) 0) table (List.replicate 16 0)
        = some (List.replicate 16 0, 0) := by
  obtain ⟨m, rfl⟩ : ∃ m, tableSize = 32 * m := ⟨tableSize / 32, by omega⟩
  have hH : _mm_shuffle_epi8 (rawAt hashKey 0) gcm_m1 < 2 ^ 128 := shuffle_lt _ _ (Or.inl rfl)
  refine ⟨_, GCM_SetKeyWithoutResync_CLMUL_eq hashKey mulTable m (by omega) hsz hk hlen, ?_⟩
  rw [GCM_AuthenticateBlocks_CLMUL_powerTable (isPowerTable_tableBytes _ _ m (by omega)) hH
    (by rw [built_table_length _ _ _ hlen]; omega) _ _ (List.length_replicate _ _),
    rawAt_replicate_zero, ghashBlocks_zero hH, toBytesLE_zero, List.length_replicate,
    Nat.mul_mod_right]

theorem zero_blocks_leave_zero_accumulator_witness :
    ∃ table, GCM_SetKeyWithoutResync_CLMUL
        [0x66, 0xe9, 0x4b, 0xd4, 0xef, 0x8a, 0x2c, 0x3b,
         0x88, 0x4c, 0xfa, 0x59, 0xca, 0x34, 0x2b, 0x2e] (List.replicate 128 0) 128
        = some table ∧
      GCM_AuthenticateBlocks_CLMUL (List.replicate (16 * 1) 0) table (List.replicate 16 0)
        = some (List.replicate 16 0, 0) :=
  zero_blocks_leave_zero_accumulator
    [0x66, 0xe9, 0x4b, 0xd4, 0xef, 0x8a, 0x2c, 0x3b,
     0x88, 0x4c, 0xfa, 0x59, 0xca, 0x34, 0x2b, 0x2e] (List.replicate 128 0) 128 1
    (by decide) (by decide) (by decide) (by decide) (by simp)

/-! ### Reversal of the hash buffer -/

theorem byteOf_cons_zero (b r : Nat) : byteOf (b % 256 + 256 * r) 0 = b % 256 := by
  simp only [byteOf, Nat.mul_zero, Nat.shiftRight_zero]
  omega

theorem byteOf_cons_succ (b r k : Nat) : byteOf (b % 256 + 256 * r) (k + 1) = byteOf r k := by
  simp only [byteOf, Nat.shiftRight_eq_div_pow]
  have e : 2 ^ (8 * (k + 1)) = 256 * 2 ^ (8 * k) := by
    rw [Nat.mul_add, Nat.pow_add]; norm_num; ring
  have e2 : (b % 256 + 256 * r) / 256 = r := by omega
  rw [e, ← Nat.div_div_eq_div_mul, e2]

theorem map_byteOf_ofBytesLE (l : List Nat) (h : ∀ b ∈ l, b < 256) :
    (List.range l.length).map (byteOf (ofBytesLE l)) = l := by
  induction l with
  | nil => rfl
  | cons b l ih =>
    have hb : b < 256 := h b (List.mem_cons_self _ _)
    rw [List.length_cons, List.range_succ_eq_map, List.map_cons, List.map_map, ofBytesLE,
      byteOf_cons_zero, Nat.mod_eq_of_lt hb]
    congr 1
    have hf : (byteOf (b + 256 * ofBytesLE l) ∘ Nat.succ) = byteOf (ofBytesLE l) := by
      funext k
      have := byteOf_cons_succ b (ofBytesLE l) k
      rw [Nat.mod_eq_of_lt hb] at this
      exact this
    rw [hf]
    exact ih (fun c hc => h c (List.mem_cons_of_mem _ hc))

theorem toBytesLE_shuffle_gcm_m1 (b : List Nat) (hl : b.length = 16) (hb : ∀ x ∈ b, x < 256) :
    toBytesLE 16 (_mm_shuffle_epi8 (ofBytesLE b) gcm_m1) = b.reverse := by
  have hm := map_byteOf_ofBytesLE b hb
  rw [hl] at hm
  rw [shuffle_gcm_m1_bytes, List.map_reverse, hm]
  have := toBytesLE_ofBytesLE b.reverse (fun x hx => hb x (List.mem_reverse.mp hx))
  rw [List.length_reverse, hl] at this
  exact this

theorem store16_whole (b : List Nat) (hl : b.length = 16) (v : Nat) :
    storeLE 16 b 0 v = some (toBytesLE 16 v) := by
  have h := @storeLE_of_eq 16 b [] b [] 0 v (by simp) hl rfl
  rw [h]; simp

theorem load16_whole (b : List Nat) (hl : b.length = 16) : loadLE 16 b 0 = some (ofBytesLE b) := by
  rw [loadLE_16_eq (by omega), rawAt, List.drop_zero, List.take_of_length_le (by omega)]

theorem vextq_u8_eight (x : Nat) : vextq_u8 x x 8 = vextq_u64 x x 1 := rfl

/-- C12: `GCM_ReverseHashBufferIfNeeded` maps the 16-byte buffer `b` to the buffer whose
byte `k` is `b[15-k]`, the reversed buffer, in the CLMUL back end and in the PMULL back
end on a host whose native order is not big-endian, and leaves the buffer unchanged in
the PMULL back end on a big-endian host. -/
theorem GCM_ReverseHashBufferIfNeeded_reverses (b : List Nat) (hl : b.length = 16)
    (hb : ∀ x ∈ b, x < 256) :
    GCM_ReverseHashBufferIfNeeded_CLMUL b = some b.reverse ∧
    GCM_ReverseHashBufferIfNeeded_PMULL false b = some b.reverse ∧
    GCM_ReverseHashBufferIfNeeded_PMULL true b = some b ∧
    ∀ k, k < 16 → b.reverse.getD k 0 = b.getD (15 - k) 0 := by
  refine ⟨?_, ?_, rfl, ?_⟩
  · rw [GCM_ReverseHashBufferIfNeeded_CLMUL, _mm_load_si128, load16_whole b hl]
    simp only [Option.bind_eq_bind, Option.some_bind]
    rw [_mm_store_si128, store16_whole b hl, toBytesLE_shuffle_gcm_m1 b hl hb]
  · rw [GCM_ReverseHashBufferIfNeeded_PMULL]
    simp only [Bool.false_eq_true, not_false_eq_true, if_true]
    rw [vld1q_u8, load16_whole b hl]
    simp only [Option.bind_eq_bind, Option.some_bind]
    rw [vst1q_u8, store16_whole b hl, vextq_u8_eight, vrev64q_vext_eq_shuffle,
      toBytesLE_shuffle_gcm_m1 b hl hb]
  · intro k hk
    rw [List.getD_eq_getElem?_getD, List.getD_eq_getElem?_getD,
      List.getElem?_reverse (by omega), hl]

theorem GCM_ReverseHashBufferIfNeeded_reverses_witness :
    GCM_ReverseHashBufferIfNeeded_CLMUL (List.range 16) = some (List.range 16).reverse ∧
    GCM_ReverseHashBufferIfNeeded_PMULL false (List.range 16) = some (List.range 16).reverse ∧
    GCM_ReverseHashBufferIfNeeded_PMULL true (List.range 16) = some (List.range 16) ∧
    ∀ k, k < 16 → (List.range 16).reverse.getD k 0 = (List.range 16).getD (15 - k) 0 :=
  GCM_ReverseHashBufferIfNeeded_reverses (List.range 16) (by decide) (by decide)

/-! ### The capability probe -/

/-- When the mask query succeeds, the handler and the mask on return are the ones on
entry: this covers a failed installation of the handler, a faulting trial, and a trial
that ran to the comparison, whatever its result. -/
theorem CPU_ProbePMULL_guarded_restores (signalFails : Bool) (trial : Option Bool)
    (st : SigState) :
    (CPU_ProbePMULL_guarded signalFails false trial st).2 = st := by
  cases signalFails <;> cases trial <;> rfl

/-- When the handler is installed and the mask query fails, the probe returns `false`
with `SigIllHandler` still installed. -/
theorem CPU_ProbePMULL_guarded_query_fails (trial : Option Bool) (st : SigState) :
    CPU_ProbePMULL_guarded false true trial st
      = (false, SigState.mk SigHandler.SigIllHandler st.mask) := rfl

/-- C13 (the failing exit path): entered with the default disposition of `SIGILL`, when
`signal` succeeds and the `sigprocmask` query fails, both probes return `false` and leave
`SigIllHandler` installed, so the handler on return is not the handler on entry; on
the four other exit paths the state on return is the state on entry. -/
theorem CPU_ProbePMULL_query_failure_keeps_SigIllHandler :
    (∀ pmull, CPU_ProbePMULL false true pmull (SigState.mk SigHandler.SIG_DFL 0)
      = (false, SigState.mk SigHandler.SigIllHandler 0)) ∧
    (∀ P vpmsumd, CPU_ProbePMULL_PPC false true P vpmsumd (SigState.mk SigHandler.SIG_DFL 0)
      = (false, SigState.mk SigHandler.SigIllHandler 0)) ∧
    SigState.mk SigHandler.SigIllHandler 0 ≠ SigState.mk SigHandler.SIG_DFL 0 ∧
    (∀ signalFails pmull st, (CPU_ProbePMULL signalFails false pmull st).2 = st) ∧
    (∀ signalFails P vpmsumd st, (CPU_ProbePMULL_PPC signalFails false P vpmsumd st).2 = st) :=
  ⟨fun _ => rfl, fun _ _ => rfl, by decide,
    fun signalFails pmull st => CPU_ProbePMULL_guarded_restores signalFails _ st,
    fun signalFails P vpmsumd st => CPU_ProbePMULL_guarded_restores signalFails _ st⟩

theorem clmul64_probe_low :
    clmul64 0x9090909090909090 0xb0b0b0b0b0b0b0b0
      = ofLanes 0x5300530053005300 0x5300530053005300 := by
  set_option maxRecDepth 100000 in decide

theorem clmul64_probe_high :
    clmul64 0xa0a0a0a0a0a0a0a0 0xe0e0e0e0e0e0e0e0
      = ofLanes 0x6c006c006c006c00 0x6c006c006c006c00 := by
  set_option maxRecDepth 100000 in decide

theorem CPU_ProbePMULL_trial_correct :
    CPU_ProbePMULL_trial (fun a b => some (clmul64 a b)) = some true := by
  set_option maxRecDepth 100000 in decide

/-- C14: the expected values of the probe are the carry-less products of its test
vectors: the product of `0x9090909090909090` and `0xb0b0b0b0b0b0b0b0` has both 64-bit
halves `0x5300530053005300`, the product of the high lanes `0xa0a0a0a0a0a0a0a0` and
`0xe0e0e0e0e0e0e0e0` has both halves `0x6c006c006c006c00`; hence with a correct
multiplier and no failing call the ARM probe returns `true`, and so does the POWER8
probe when the helpers of `ppc-simd.h` clear, shift down by one doubleword and store
in element order. -/
theorem CPU_ProbePMULL_expected_values (P : PpcSimd) (st : SigState)
    (hxor : ∀ a, P.VectorXor a a = 0)
    (hshift : ∀ a, P.VectorShiftRight8 a 0 = ofLanes (lane a 1) 0)
    (hstore : ∀ v, P.VectorStore v = (lane v 0, lane v 1)) :
    clmul64 0x9090909090909090 0xb0b0b0b0b0b0b0b0
      = ofLanes 0x5300530053005300 0x5300530053005300 ∧
    clmul64 0xa0a0a0a0a0a0a0a0 0xe0e0e0e0e0e0e0e0
      = ofLanes 0x6c006c006c006c00 0x6c006c006c006c00 ∧
    CPU_ProbePMULL false false (fun a b => some (clmul64 a b)) st = (true, st) ∧
    CPU_ProbePMULL_PPC false false P
      (fun a b => some (clmul64 (lane a 0) (lane b 0) ^^^ clmul64 (lane a 1) (lane b 1))) st
      = (true, st) := by
  refine ⟨clmul64_probe_low, clmul64_probe_high, ?_, ?_⟩
  · rw [CPU_ProbePMULL, CPU_ProbePMULL_trial_correct]; rfl
  · have ht : CPU_ProbePMULL_PPC_trial P
        (fun a b => some (clmul64 (lane a 0) (lane b 0) ^^^ clmul64 (lane a 1) (lane b 1)))
        = some true := by
      simp only [CPU_ProbePMULL_PPC_trial, VMULL_P64_PPC, VMULL_HIGH_P64_PPC, hxor, hshift,
        hstore, Option.bind_eq_bind, Option.some_bind, Option.pure_def]
      set_option maxRecDepth 100000 in decide
    rw [CPU_ProbePMULL_PPC, ht]; rfl

theorem CPU_ProbePMULL_expected_values_witness :
    clmul64 0x9090909090909090 0xb0b0b0b0b0b0b0b0
      = ofLanes 0x5300530053005300 0x5300530053005300 ∧
    clmul64 0xa0a0a0a0a0a0a0a0 0xe0e0e0e0e0e0e0e0
      = ofLanes 0x6c006c006c006c00 0x6c006c006c006c00 ∧
    CPU_ProbePMULL false false (fun a b => some (clmul64 a b))
      (SigState.mk SigHandler.SIG_DFL 0) = (true, SigState.mk SigHandler.SIG_DFL 0) ∧
    CPU_ProbePMULL_PPC false false
      (PpcSimd.mk (fun a b => a ^^^ b) (fun a z => ofLanes (lane a 1) (lane z 0))
        (fun v => (lane v 0, lane v 1)))
      (fun a b => some (clmul64 (lane a 0) (lane b 0) ^^^ clmul64 (lane a 1) (lane b 1)))
      (SigState.mk SigHandler.SIG_DFL 0) = (true, SigState.mk SigHandler.SIG_DFL 0) :=
  CPU_ProbePMULL_expected_values
    (PpcSimd.mk (fun a b => a ^^^ b) (fun a z => ofLanes (lane a 1) (lane z 0))
      (fun v => (lane v 0, lane v 1)))
    (SigState.mk SigHandler.SIG_DFL 0) (fun a => Nat.xor_self a) (fun _ => rfl) (fun _ => rfl)

/-! ### The reduction as a remainder -/

theorem coeff_reflPoly (n v j : Nat) :
    (reflPoly n v).coeff j = if j ≤ n ∧ v.testBit (n - j) = true then 1 else 0 := by
  unfold reflPoly
  rw [Polynomial.finset_sum_coeff]
  have h : ∀ k ∈ Finset.range (n + 1),
      (if v.testBit k then (X : (ZMod 2)[X]) ^ (n - k) else 0).coeff j
        = if k = n - j then (if j ≤ n ∧ v.testBit (n - j) = true then 1 else 0) else 0 := by
    intro k hk
    have hkn : k ≤ n := by have := Finset.mem_range.mp hk; omega
    by_cases hb : v.testBit k = true
    · rw [if_pos hb, coeff_X_pow]
      by_cases hj : j = n - k
      · have e : k = n - j := by omega
        have hjn : j ≤ n := by omega
        rw [if_pos hj, if_pos e, if_pos ⟨hjn, e ▸ hb⟩]
      · rw [if_neg hj]
        by_cases e : k = n - j
        · have hjn : ¬ j ≤ n := by omega
          rw [if_pos e, if_neg (fun h => hjn h.1)]
        · rw [if_neg e]
    · rw [if_neg hb, coeff_zero]
      by_cases e : k = n - j
      · rw [if_pos e, if_neg (fun h => hb (e ▸ h.2))]
      · rw [if_neg e]
  rw [Finset.sum_congr rfl h, Finset.sum_ite_eq' (Finset.range (n + 1)) (n - j)]
  rw [if_pos (Finset.mem_range.mpr (by omega))]

theorem reflPoly_eq_reflect {n v : Nat} (hv : v < 2 ^ (n + 1)) :
    reflPoly n v = reflect n (polyOf v) := by
  ext j
  rw [coeff_reflPoly, coeff_reflect, coeff_polyOf]
  by_cases hj : j ≤ n
  · rw [revAt_le hj]
    by_cases hb : v.testBit (n - j) = true
    · rw [if_pos ⟨hj, hb⟩, if_pos hb]
    · rw [if_neg (fun h => hb h.2), if_neg hb]
  · have hr : revAt n j = j := by
      simp [revAt, revAtFun, hj]
    have hb : v.testBit j = false :=
      Nat.testBit_lt_two_pow (lt_of_lt_of_le hv (Nat.pow_le_pow_right (by norm_num) (by omega)))
    rw [hr, if_neg (fun h => hj h.1), hb]
    simp

theorem poly_two_eq_zero : (2 : (ZMod 2)[X]) = 0 := by
  have h := polyOf_xor 1 1
  rw [Nat.xor_self, polyOf_zero, polyOf_one] at h
  rw [h]; norm_num

theorem gcmPoly_eq : gcmPoly = X ^ 128 + X ^ 127 + X ^ 126 + X ^ 121 + 1 := by
  rw [← polyOf_two_pow, ← polyOf_two_pow, ← polyOf_two_pow, ← polyOf_two_pow, ← polyOf_one,
    ← polyOf_xor, ← polyOf_xor, ← polyOf_xor, ← polyOf_xor, gcmPoly]
  congr 1

theorem reflect_gcmPoly : reflect 128 gcmPoly = gcmStdPoly := by
  rw [gcmPoly_eq, gcmStdPoly]
  simp only [reflect_add, reflect_monomial, reflect_one]
  rw [revAt_le (le_refl 128), revAt_le (by norm_num : 127 ≤ 128),
    revAt_le (by norm_num : 126 ≤ 128), revAt_le (by norm_num : 121 ≤ 128)]
  norm_num
  ring

theorem gcmStdPoly_monic : gcmStdPoly.Monic := by
  unfold gcmStdPoly
  monicity!

theorem degree_gcmStdPoly : gcmStdPoly.degree = (128 : ℕ) := by
  unfold gcmStdPoly
  compute_degree!

theorem degree_reflPoly_lt (n v : Nat) : (reflPoly n v).degree < (n + 1 : ℕ) := by
  rw [Polynomial.degree_lt_iff_coeff_zero]
  intro m hm
  rw [coeff_reflPoly, if_neg (fun h => by omega)]

theorem natDegree_polyOf_le {a n : Nat} (h : a < 2 ^ (n + 1)) : (polyOf a).natDegree ≤ n :=
  Polynomial.natDegree_le_of_degree_le (degree_polyOf_le h)

/-- The 256-bit value `c0 XOR (c1 << 64) XOR (c2 << 128)` of the code comment. -/
theorem polyOf_wide (c0 c1 c2 : Nat) :
    polyOf (c0 ^^^ (c1 <<< 64) ^^^ (c2 <<< 128))
      = polyOf c0 + X ^ 64 * polyOf c1 + X ^ 128 * polyOf c2 := by
  rw [polyOf_xor, polyOf_xor, polyOf_shiftLeft, polyOf_shiftLeft]

theorem wide_lt {c0 c1 c2 : Nat} (h0 : c0 < 2 ^ 127) (h1 : c1 < 2 ^ 127) (h2 : c2 < 2 ^ 127) :
    c0 ^^^ (c1 <<< 64) ^^^ (c2 <<< 128) < 2 ^ 255 := by
  apply Nat.xor_lt_two_pow
  · apply Nat.xor_lt_two_pow
    · exact lt_trans h0 (by norm_num)
    · rw [Nat.shiftLeft_eq]
      have : c1 * 2 ^ 64 < 2 ^ 127 * 2 ^ 64 := Nat.mul_lt_mul_of_pos_right h1 (by norm_num)
      exact lt_trans this (by norm_num)
  · rw [Nat.shiftLeft_eq]
    have : c2 * 2 ^ 128 < 2 ^ 127 * 2 ^ 128 := Nat.mul_lt_mul_of_pos_right h2 (by norm_num)
    exact lt_of_lt_of_le this (by norm_num)

/-- C15: for all 128-bit `c0`, `c1`, `c2` whose bit 127 is clear,
`GCM_Reduce_CLMUL(c0, c1, c2, r)` is the 128-bit bit-reflected representation (bit `j` is
the coefficient of `x^(127-j)`) of the remainder modulo `x^128 + x^7 + x^2 + x + 1` of the
polynomial of the 256-bit value `c0 XOR (c1 << 64) XOR (c2 << 128)`, whose bit `k` is the
coefficient of `x^(254-k)`. -/
theorem GCM_Reduce_CLMUL_eq_remainder (c0 c1 c2 : Nat)
    (h0 : c0 < 2 ^ 127) (h1 : c1 < 2 ^ 127) (h2 : c2 < 2 ^ 127) :
    GCM_Reduce_CLMUL c0 c1 c2 gcm_r < 2 ^ 128 ∧
    reflPoly 127 (GCM_Reduce_CLMUL c0 c1 c2 gcm_r)
      = reflPoly 254 (c0 ^^^ (c1 <<< 64) ^^^ (c2 <<< 128)) %ₘ gcmStdPoly := by
  have hZ := GCM_Reduce_CLMUL_lt c0 c1 c2 gcm_r
  refine ⟨hZ, ?_⟩
  obtain ⟨k, hk⟩ := polyOf_GCM_Reduce_CLMUL h0 (lt_trans h1 (by norm_num)) h2
  rw [← polyOf_wide] at hk
  have hV := wide_lt h0 h1 h2
  generalize c0 ^^^ (c1 <<< 64) ^^^ (c2 <<< 128) = V at hk hV
  generalize GCM_Reduce_CLMUL c0 c1 c2 gcm_r = Z at hk hZ
  -- degrees
  have dZ : (polyOf Z).natDegree ≤ 127 := natDegree_polyOf_le hZ
  have dV : (polyOf V).natDegree ≤ 254 := natDegree_polyOf_le hV
  have dX : ((X : (ZMod 2)[X]) ^ 127).natDegree ≤ 127 := by rw [natDegree_X_pow]
  have dp : (polyOf Z * X ^ 127).natDegree ≤ 254 :=
    le_trans natDegree_mul_le (by omega)
  have hkq : k * gcmPoly = polyOf Z * X ^ 127 - polyOf V := by rw [hk]; ring
  have dkq : (k * gcmPoly).natDegree ≤ 254 := by
    rw [hkq]; exact le_trans (natDegree_sub_le _ _) (max_le dp dV)
  have dq : gcmPoly.natDegree = 128 := natDegree_eq_of_degree_eq_some degree_gcmPoly
  have hq0 : gcmPoly ≠ 0 := by
    intro h; rw [h, natDegree_zero] at dq; omega
  have dk : k.natDegree ≤ 126 := by
    by_cases hk0 : k = 0
    · rw [hk0, natDegree_zero]; omega
    · have := natDegree_mul hk0 hq0
      omega
  -- reflect the identity
  have r1 := reflect_mul (polyOf Z) (X ^ 127) dZ dX
  have r2 := reflect_mul k gcmPoly dk (le_of_eq dq)
  have hrefl := congrArg (reflect 254) hk
  rw [reflect_add] at hrefl
  have e1 : 127 + 127 = 254 := rfl
  have e2 : 126 + 128 = 254 := rfl
  rw [e1, reflect_monomial, revAt_le (le_refl 127), Nat.sub_self, pow_zero, mul_one] at r1
  rw [e2, reflect_gcmPoly] at r2
  rw [r1, r2, ← reflPoly_eq_reflect hZ, ← reflPoly_eq_reflect hV] at hrefl
  have hsum : reflPoly 127 Z + gcmStdPoly * reflect 126 k = reflPoly 254 V := by
    rw [hrefl]
    have h2 := poly_two_eq_zero
    linear_combination (reflect 126 k * gcmStdPoly) * h2
  have hdeg : (reflPoly 127 Z).degree < gcmStdPoly.degree := by
    rw [degree_gcmStdPoly]; exact_mod_cast degree_reflPoly_lt 127 Z
  exact ((div_modByMonic_unique _ _ gcmStdPoly_monic ⟨hsum, hdeg⟩).2).symm

theorem GCM_Reduce_CLMUL_eq_remainder_witness :
    GCM_Reduce_CLMUL 5 9 3 gcm_r < 2 ^ 128 ∧
    reflPoly 127 (GCM_Reduce_CLMUL 5 9 3 gcm_r)
      = reflPoly 254 (5 ^^^ (9 <<< 64) ^^^ (3 <<< 128)) %ₘ gcmStdPoly :=
  GCM_Reduce_CLMUL_eq_remainder 5 9 3 (by norm_num) (by norm_num) (by norm_num)

/-! ### One group of blocks -/

theorem groupProducts_spec {H : Nat} (hH : H < 2 ^ 128) (data : List Nat) {x : Nat}
    (hx : x < 2 ^ 128) (s n : Nat) (hn : n ≤ s) :
    groupProducts H data x s n < 2 ^ 128 ∧
    mont (groupProducts H data x s n)
      = ∑ j in Finset.range n, mont (blockIn data x j) * mont H ^ (s - j) := by
  induction n with
  | zero =>
    refine ⟨by rw [groupProducts]; norm_num, ?_⟩
    rw [groupProducts, mont_zero, Finset.sum_range_zero]
  | succ n ih =>
    obtain ⟨hlt, hm⟩ := ih (by omega)
    refine ⟨Nat.xor_lt_two_pow hlt (GCM_Multiply_CLMUL_lt _ _ _), ?_⟩
    have e : s - n - 1 + 1 = s - n := by omega
    rw [groupProducts, mont_xor, hm,
      mont_GCM_Multiply_CLMUL (blockIn_lt data hx n) (tablePower_lt hH _), mont_tablePower hH,
      e, Finset.sum_range_succ]

/-- With a table of powers, the accumulator after a group of `s` blocks is the
exclusive-or of the `s` products of the blocks with the powers in reverse order. -/
theorem groupStep_eq_groupProducts {table : List Nat} {H : Nat} (hT : IsPowerTable table H)
    (hH : H < 2 ^ 128) (data : List Nat) {x : Nat} (hx : x < 2 ^ 128) (s : Nat) (hs1 : 1 ≤ s)
    (hs : s ≤ 8) :
    groupStep data table x s = groupProducts H data x s s := by
  obtain ⟨hb, hm⟩ := groupProducts_spec hH data hx s s (le_refl s)
  have hlt : groupStep data table x s < 2 ^ 128 := GCM_Reduce_CLMUL_lt _ _ _ _
  apply mont_injective hlt hb
  rw [mont_groupStep hT hH data hx s hs, hm]
  have hrefl := Finset.sum_range_reflect
    (fun j => mont (blockIn data x j) * mont H ^ (s - j)) s
  rw [← hrefl]
  apply Finset.sum_congr rfl
  intro t ht
  have htn : t < s := Finset.mem_range.mp ht
  have e : s - (s - 1 - t) = t + 1 := by omega
  simp only [e]

theorem authAcc_short (table : List Nat) (fuel : Nat) (data : List Nat) (x : Nat)
    (h : data.length < 16) : authAcc table fuel data x = x := by
  cases fuel with
  | zero => rfl
  | succ n => rw [authAcc, if_neg (by omega)]

/-- The accumulator after a call on at most 8 blocks is the result of one group. -/
theorem authAcc_one_group (table data : List Nat) (x : Nat) (h16 : 16 ≤ data.length)
    (h8 : data.length / 16 ≤ 8) :
    authAcc table (data.length / 16 + 1) data x = groupStep data table x (data.length / 16) := by
  have hg : groupSize data.length = data.length / 16 := by unfold groupSize; omega
  rw [authAcc, if_pos h16, hg, authAcc_short]
  rw [List.length_drop]; omega

/-- C16: in one outer iteration of `GCM_AuthenticateBlocks_CLMUL` over a group of `s`
blocks (`s = min(len/16, 8)`, `1 <= s <= 8`) with incoming accumulator `X` and a table
built from the key, the new accumulator is the exclusive-or over `j = 0 .. s-1` of
`GCM_Multiply_CLMUL(E_j, H^(s-j), r)`, `E_0 = rev16(B_0) XOR X`, `E_j = rev16(B_j)`: the
outer loop continues on the rest of the data with that accumulator, and a call on a
buffer of one group leaves it in `hbuffer`. -/
theorem group_is_xor_of_products (hashKey mulTable data hbuffer : List Nat)
    (tableSize x fuel : Nat) (h128 : 128 ≤ tableSize) (h32 : tableSize % 32 = 0)
    (hsz : tableSize < 2 ^ 32) (hk : 16 ≤ hashKey.length) (hlen : tableSize ≤ mulTable.length)
    (hx : x < 2 ^ 128) (hdata : 16 ≤ data.length) (hh : hbuffer.length = 16) :
    ∃ table, GCM_SetKeyWithoutResync_CLMUL hashKey mulTable tableSize = some table ∧
      1 ≤ groupSize data.length ∧ groupSize data.length ≤ 8 ∧
      GCM_AuthenticateBlocks_CLMUL_loop table (fuel + 1) data x
        = GCM_AuthenticateBlocks_CLMUL_loop table fuel (data.drop (groupSize data.length * 16))
            (groupProducts (_mm_shuffle_epi8 (rawAt hashKey 0) gcm_m1) data x
              (groupSize data.length) (groupSize data.length)) ∧
      (data.length / 16 ≤ 8 →
        GCM_AuthenticateBlocks_CLMUL data table hbuffer
          = some (toBytesLE 16 (groupProducts (_mm_shuffle_epi8 (rawAt hashKey 0) gcm_m1) data
              (rawAt hbuffer 0) (data.length / 16) (data.length / 16)), data.length % 16)) := by
  obtain ⟨m, rfl⟩ : ∃ m, tableSize = 32 * m := ⟨tableSize / 32, by omega⟩
  have hT := isPowerTable_tableBytes (_mm_shuffle_epi8 (rawAt hashKey 0) gcm_m1)
    (mulTable.drop (32 * m)) m (by omega)
  have hH : _mm_shuffle_epi8 (rawAt hashKey 0) gcm_m1 < 2 ^ 128 := shuffle_lt _ _ (Or.inl rfl)
  have htl : 128 ≤ (tableBytes (_mm_shuffle_epi8 (rawAt hashKey 0) gcm_m1) m
      ++ mulTable.drop (32 * m)).length := by
    rw [built_table_length _ _ _ hlen]; omega
  have hs1 := groupSize_pos hdata
  have hs8 := groupSize_le data.length
  have hslots := le_trans (slots_le_128 data.length) htl
  refine ⟨_, GCM_SetKeyWithoutResync_CLMUL_eq hashKey mulTable m (by omega) hsz hk hlen,
    hs1, hs8, ?_, ?_⟩
  · rw [GCM_AuthenticateBlocks_CLMUL_loop_succ _ data x fuel hdata hslots,
      groupStep_eq_groupProducts hT hH data hx _ hs1 hs8]
  · intro h8
    rw [GCM_AuthenticateBlocks_CLMUL_eq data _ hbuffer hslots hh,
      authAcc_one_group _ data _ hdata h8,
      groupStep_eq_groupProducts hT hH data (rawAt_lt hbuffer 0) _ (by omega) h8]

theorem group_is_xor_of_products_witness :
    ∃ table, GCM_SetKeyWithoutResync_CLMUL (List.replicate 16 1) (List.replicate 128 0) 128
        = some table ∧
      1 ≤ groupSize (List.replicate 48 5).length ∧ groupSize (List.replicate 48 5).length ≤ 8 ∧
      GCM_AuthenticateBlocks_CLMUL_loop table (1 + 1) (List.replicate 48 5) 7
        = GCM_AuthenticateBlocks_CLMUL_loop table 1
            ((List.replicate 48 5).drop (groupSize (List.replicate 48 5).length * 16))
            (groupProducts (_mm_shuffle_epi8 (rawAt (List.replicate 16 1) 0) gcm_m1)
              (List.replicate 48 5) 7
              (groupSize (List.replicate 48 5).length)
              (groupSize (List.replicate 48 5).length)) ∧
      ((List.replicate 48 5).length / 16 ≤ 8 →
        GCM_AuthenticateBlocks_CLMUL (List.replicate 48 5) table (List.replicate 16 7)
          = some (toBytesLE 16
              (groupProducts (_mm_shuffle_epi8 (rawAt (List.replicate 16 1) 0) gcm_m1)
                (List.replicate 48 5) (rawAt (List.replicate 16 7) 0)
                ((List.replicate 48 5).length / 16) ((List.replicate 48 5).length / 16)),
              (List.replicate 48 5).length % 16)) :=
  group_is_xor_of_products (List.replicate 16 1) (List.replicate 128 0) (List.replicate 48 5)
    (List.replicate 16 7) 128 7 1 (by decide) (by decide) (by decide) (by simp) (by simp)
    (by norm_num) (by simp) (by simp)

theorem blockIn_succ (data : List Nat) (x j : Nat) :
    blockIn data x (j + 1) = blockIn data 0 (j + 1) := by
  unfold blockIn
  rw [if_neg (Nat.succ_ne_zero j), if_neg (Nat.succ_ne_zero j)]

theorem blockIn_zero_xor (data : List Nat) (x : Nat) :
    blockIn data x 0 = blockIn data 0 0 ^^^ x := by
  unfold blockIn
  rw [if_pos rfl, if_pos rfl, Nat.xor_zero]

/-- The incoming accumulator enters the result of a group through the product with the
highest power of the group. -/
theorem groupProducts_accumulator {H : Nat} (hH : H < 2 ^ 128) (data : List Nat) {x : Nat}
    (hx : x < 2 ^ 128) (s : Nat) (hs1 : 1 ≤ s) :
    groupProducts H data x s s
      = GCM_Multiply_CLMUL x (tablePower H (s - 1)) gcm_r ^^^ groupProducts H data 0 s s := by
  obtain ⟨hb, hm⟩ := groupProducts_spec hH data hx s s (le_refl s)
  obtain ⟨hb0, hm0⟩ := groupProducts_spec hH data (by norm_num : 0 < 2 ^ 128) s s (le_refl s)
  apply mont_injective hb (Nat.xor_lt_two_pow (GCM_Multiply_CLMUL_lt _ _ _) hb0)
  obtain ⟨s', rfl⟩ : ∃ s', s = s' + 1 := ⟨s - 1, by omega⟩
  have e : s' + 1 - 1 = s' := by omega
  rw [mont_xor, mont_GCM_Multiply_CLMUL hx (tablePower_lt hH _), mont_tablePower hH, hm, hm0,
    Finset.sum_range_succ', Finset.sum_range_succ', blockIn_zero_xor data x, mont_xor, e]
  simp only [blockIn_succ data x, Nat.sub_zero]
  ring

/-- C17 (as stated, refuted): with the table built from the key
`66e94bd4ef8a2c3b884cfa59ca342b2e` and a group of two zero blocks, the zero accumulator
gives the zero result and the zero product, so the term that depends only on the data
and the table is zero;
the accumulator `X` with bytes `01 00 .. 00` gives the result `b1 8a d2 ..`, which is
`GCM_Multiply_CLMUL(X, H^2, r)` and not `GCM_Multiply_CLMUL(X, H^1, r)`, `49 b8 6e ..`. -/
theorem accumulator_not_multiplied_by_lowest_power :
    (GCM_SetKeyWithoutResync_CLMUL
        [0x66, 0xe9, 0x4b, 0xd4, 0xef, 0x8a, 0x2c, 0x3b,
         0x88, 0x4c, 0xfa, 0x59, 0xca, 0x34, 0x2b, 0x2e]
        (List.replicate 128 0) 128).bind
      (fun table =>
        (GCM_AuthenticateBlocks_CLMUL (List.replicate 32 0) table (List.replicate 16 0)).bind
        (fun r0 =>
          (GCM_AuthenticateBlocks_CLMUL (List.replicate 32 0) table
            (1 :: List.replicate 15 0)).map
          (fun r1 => (r0.1,
            toBytesLE 16 (GCM_Multiply_CLMUL 0
              (tablePower 0x66e94bd4ef8a2c3b884cfa59ca342b2e 0) gcm_r), r1.1,
            toBytesLE 16 (GCM_Multiply_CLMUL 1
              (tablePower 0x66e94bd4ef8a2c3b884cfa59ca342b2e 0) gcm_r),
            toBytesLE 16 (GCM_Multiply_CLMUL 1
              (tablePower 0x66e94bd4ef8a2c3b884cfa59ca342b2e 1) gcm_r)))))
      = some ([0, 0, 0, 0, 0, 0, 0, 0, 0, 0, 0, 0, 0, 0, 0, 0],
          [0, 0, 0, 0, 0, 0, 0, 0, 0, 0, 0, 0, 0, 0, 0, 0],
          [177, 138, 210, 120, 138, 127, 88, 126, 172, 153, 88, 105, 97, 222, 243, 191],
          [73, 184, 110, 220, 47, 64, 210, 178, 225, 74, 229, 20, 184, 220, 164, 82],
          [177, 138, 210, 120, 138, 127, 88, 126, 172, 153, 88, 105, 97, 222, 243, 191]) := by
  set_option maxRecDepth 1000000 in decide

/-- C17 (amended): in every group of `s` blocks (`1 <= s <= 8`) processed by
`GCM_AuthenticateBlocks_CLMUL` the incoming accumulator `X` is exclusive-ored into the
first block, which is multiplied by the highest power `H^s` of the group: the result of
the group is `GCM_Multiply_CLMUL(X, H^s, r)` XOR a term `T` that depends only on the data
blocks and the table. -/
theorem accumulator_multiplied_by_highest_power (hashKey mulTable data : List Nat)
    (tableSize : Nat) (h128 : 128 ≤ tableSize) (h32 : tableSize % 32 = 0)
    (hsz : tableSize < 2 ^ 32) (hk : 16 ≤ hashKey.length) (hlen : tableSize ≤ mulTable.length)
    (hdata : 16 ≤ data.length) :
    ∃ table T, GCM_SetKeyWithoutResync_CLMUL hashKey mulTable tableSize = some table ∧
      1 ≤ groupSize data.length ∧ groupSize data.length ≤ 8 ∧
      ∀ x fuel, x < 2 ^ 128 →
        GCM_AuthenticateBlocks_CLMUL_loop table (fuel + 1) data x
          = GCM_AuthenticateBlocks_CLMUL_loop table fuel
              (data.drop (groupSize data.length * 16))
              (GCM_Multiply_CLMUL x
                (tablePower (_mm_shuffle_epi8 (rawAt hashKey 0) gcm_m1)
                  (groupSize data.length - 1)) gcm_r ^^^ T) := by
  obtain ⟨m, rfl⟩ : ∃ m, tableSize = 32 * m := ⟨tableSize / 32, by omega⟩
  have hT := isPowerTable_tableBytes (_mm_shuffle_epi8 (rawAt hashKey 0) gcm_m1)
    (mulTable.drop (32 * m)) m (by omega)
  have hH : _mm_shuffle_epi8 (rawAt hashKey 0) gcm_m1 < 2 ^ 128 := shuffle_lt _ _ (Or.inl rfl)
  have htl : 128 ≤ (tableBytes (_mm_shuffle_epi8 (rawAt hashKey 0) gcm_m1) m
      ++ mulTable.drop (32 * m)).length := by
    rw [built_table_length _ _ _ hlen]; omega
  have hs1 := groupSize_pos hdata
  have hs8 := groupSize_le data.length
  have hslots := le_trans (slots_le_128 data.length) htl
  refine ⟨_, groupProducts (_mm_shuffle_epi8 (rawAt hashKey 0) gcm_m1) data 0
      (groupSize data.length) (groupSize data.length),
    GCM_SetKeyWithoutResync_CLMUL_eq hashKey mulTable m (by omega) hsz hk hlen, hs1, hs8, ?_⟩
  intro x fuel hx
  rw [GCM_AuthenticateBlocks_CLMUL_loop_succ _ data x fuel hdata hslots,
    groupStep_eq_groupProducts hT hH data hx _ hs1 hs8,
    groupProducts_accumulator hH data hx _ hs1]

theorem accumulator_multiplied_by_highest_power_witness :
    ∃ table T, GCM_SetKeyWithoutResync_CLMUL (List.replicate 16 1) (List.replicate 128 0) 128
        = some table ∧
      1 ≤ groupSize (List.replicate 48 5).length ∧ groupSize (List.replicate 48 5).length ≤ 8 ∧
      ∀ x fuel, x < 2 ^ 128 →
        GCM_AuthenticateBlocks_CLMUL_loop table (fuel + 1) (List.replicate 48 5) x
          = GCM_AuthenticateBlocks_CLMUL_loop table fuel
              ((List.replicate 48 5).drop (groupSize (List.replicate 48 5).length * 16))
              (GCM_Multiply_CLMUL x
                (tablePower (_mm_shuffle_epi8 (rawAt (List.replicate 16 1) 0) gcm_m1)
                  (groupSize (List.replicate 48 5).length - 1)) gcm_r ^^^ T) :=
  accumulator_multiplied_by_highest_power (List.replicate 16 1) (List.replicate 128 0)
    (List.replicate 48 5) 128 (by decide) (by decide) (by decide) (by simp) (by simp) (by simp)

/-! ### Bounds of the stores and loads, termination -/

/-- C18: for a table size that is a positive multiple of 32,
`GCM_SetKeyWithoutResync_CLMUL` writes every byte of `mulTable[0 .. tableSize)` (the first
`tableSize` bytes of the result do not depend on the bytes the buffer held) and no byte
at an offset `>= tableSize` (the call succeeds on a buffer of exactly `tableSize` bytes,
and the bytes from `tableSize` on are unchanged); the stores of one round replace
exactly the 32 bytes of the round, and the last round starts at `tableSize - 32`. -/
theorem GCM_SetKeyWithoutResync_CLMUL_writes_table_only (hashKey mulTable : List Nat)
    (tableSize : Nat) (hpos : 0 < tableSize) (h32 : tableSize % 32 = 0)
    (hsz : tableSize < 2 ^ 32) (hk : 16 ≤ hashKey.length) (hlen : tableSize ≤ mulTable.length) :
    ∃ table, GCM_SetKeyWithoutResync_CLMUL hashKey mulTable tableSize = some table ∧
      table.length = mulTable.length ∧
      table.drop tableSize = mulTable.drop tableSize ∧
      (∀ other : List Nat, tableSize ≤ other.length →
        ∃ table2, GCM_SetKeyWithoutResync_CLMUL hashKey other tableSize = some table2 ∧
          table2.take tableSize = table.take tableSize) ∧
      (∃ exact, GCM_SetKeyWithoutResync_CLMUL hashKey (mulTable.take tableSize) tableSize
        = some exact) ∧
      (∀ (P X S : List Nat) (h h1 : Nat), X.length = 32 →
        GCM_SetKeyWithoutResync_CLMUL_stores (P ++ (X ++ S)) P.length h h1
          = some (P ++ (roundBytes h h1 ++ S))) ∧
      (∃ t h, GCM_SetKeyWithoutResync_CLMUL_loop (_mm_shuffle_epi8 (rawAt hashKey 0) gcm_m1)
          gcm_r tableSize (2 ^ 27 + 1) 0 (_mm_shuffle_epi8 (rawAt hashKey 0) gcm_m1) mulTable
        = some (t, tableSize - 32, h)) := by
  obtain ⟨m, rfl⟩ : ∃ m, tableSize = 32 * m := ⟨tableSize / 32, by omega⟩
  have hm : 1 ≤ m := by omega
  have hlt : (tableBytes (_mm_shuffle_epi8 (rawAt hashKey 0) gcm_m1) m).length = 32 * m :=
    tableBytes_length _ _
  refine ⟨_, GCM_SetKeyWithoutResync_CLMUL_eq hashKey mulTable m hm hsz hk hlen,
    built_table_length _ _ _ hlen, List.drop_left' hlt, ?_, ?_, ?_, ?_⟩
  · intro other ho
    refine ⟨_, GCM_SetKeyWithoutResync_CLMUL_eq hashKey other m hm hsz hk ho, ?_⟩
    rw [List.take_left' hlt, List.take_left' hlt]
  · exact ⟨_, GCM_SetKeyWithoutResync_CLMUL_eq hashKey (mulTable.take (32 * m)) m hm hsz hk
      (by rw [List.length_take]; omega)⟩
  · intro P X S h h1 hX
    exact GCM_SetKeyWithoutResync_CLMUL_stores_eq P X S hX P.length h h1 rfl
  · have hloop := GCM_SetKeyWithoutResync_CLMUL_loop_eq
      (_mm_shuffle_epi8 (rawAt hashKey 0) gcm_m1) m mulTable hsz hlen (2 ^ 27 + 1) 0
      (by omega) (by omega)
    simp only [Nat.mul_zero, tableBytes, List.nil_append, List.drop_zero, tablePower] at hloop
    have e : 32 * m - 32 = 32 * (m - 1) := by omega
    rw [e]
    exact ⟨_, _, hloop⟩

theorem GCM_SetKeyWithoutResync_CLMUL_writes_table_only_witness :
    ∃ table, GCM_SetKeyWithoutResync_CLMUL (List.replicate 16 1) (List.replicate 70 9) 64
        = some table ∧
      table.length = (List.replicate 70 9).length ∧
      table.drop 64 = (List.replicate 70 9).drop 64 ∧
      (∀ other : List Nat, 64 ≤ other.length →
        ∃ table2, GCM_SetKeyWithoutResync_CLMUL (List.replicate 16 1) other 64 = some table2 ∧
          table2.take 64 = table.take 64) ∧
      (∃ exact, GCM_SetKeyWithoutResync_CLMUL (List.replicate 16 1)
        ((List.replicate 70 9).take 64) 64 = some exact) ∧
      (∀ (P X S : List Nat) (h h1 : Nat), X.length = 32 →
        GCM_SetKeyWithoutResync_CLMUL_stores (P ++ (X ++ S)) P.length h h1
          = some (P ++ (roundBytes h h1 ++ S))) ∧
      (∃ t h, GCM_SetKeyWithoutResync_CLMUL_loop
          (_mm_shuffle_epi8 (rawAt (List.replicate 16 1) 0) gcm_m1)
          gcm_r 64 (2 ^ 27 + 1) 0 (_mm_shuffle_epi8 (rawAt (List.replicate 16 1) 0) gcm_m1)
          (List.replicate 70 9)
        = some (t, 64 - 32, h)) :=
  GCM_SetKeyWithoutResync_CLMUL_writes_table_only (List.replicate 16 1) (List.replicate 70 9) 64
    (by decide) (by decide) (by decide) (by simp) (by simp)

/-- The first load of a group and its inner loop, for any buffer holding the group and
any fuel of at least `ceil(s/2)`. -/
theorem GCM_AuthenticateBlocks_CLMUL_group (data table : List Nat) (x s n : Nat)
    (hs : 1 ≤ s) (hdata : 16 * s ≤ data.length)
    (htable : 16 * (2 * ((s + 1) / 2)) ≤ table.length) (hn : (s + 1) / 2 ≤ n) :
    _mm_loadu_si128 data ((s - 1) * 16) = some (rawAt data ((s - 1) * 16)) ∧
    GCM_AuthenticateBlocks_CLMUL_inner data table x s n 0 (rawAt data ((s - 1) * 16))
        (_mm_shuffle_epi8 (rawAt data ((s - 1) * 16)) gcm_m2) 0 0 0
      = some (groupAcc data table x s s 0) := by
  have hl : _mm_loadu_si128 data ((s - 1) * 16) = some (rawAt data ((s - 1) * 16)) :=
    loadLE_16_eq (by omega)
  obtain ⟨-, r1⟩ := @rawAt_lanes data ((s - 1) * 16) (by omega)
  have hd2 : lane (_mm_shuffle_epi8 (rawAt data ((s - 1) * 16)) gcm_m2) 1
      = bswap64 (le64At data (16 * (s - 1 - 2 * 0) + 8)) := by
    have e : 16 * (s - 1 - 2 * 0) + 8 = (s - 1) * 16 + 8 := by omega
    rw [lane_shuffle_m2_one, r1, e]
  have hin := GCM_AuthenticateBlocks_CLMUL_inner_eq data table x s hdata htable n 0
    (rawAt data ((s - 1) * 16)) (_mm_shuffle_epi8 (rawAt data ((s - 1) * 16)) gcm_m2) 0 0 0
    (by omega) (by omega) hd2
  rw [Nat.mul_zero, Nat.sub_zero, zero_xor3] at hin
  exact ⟨hl, hin⟩

/-- With fewer than `ceil((s - i)/2)` iterations left the inner loop has not reached
its `break`. -/
theorem GCM_AuthenticateBlocks_CLMUL_inner_none (data table : List Nat) (x s : Nat)
    (hdata : 16 * s ≤ data.length) (htable : 16 * (2 * ((s + 1) / 2)) ≤ table.length)
    (n k d1 d2 c0 c1 c2 : Nat) (hk : 2 * k < s) (hn : n < (s - 2 * k + 1) / 2) :
    GCM_AuthenticateBlocks_CLMUL_inner data table x s n (2 * k) d1 d2 c0 c1 c2 = none := by
  induction n generalizing k d1 d2 c0 c1 c2 with
  | zero => rfl
  | succ n ih =>
    have ht0 : _mm_load_si128 table (16 * (2 * k)) = some (rawAt table (16 * (2 * k))) :=
      loadLE_16_eq (by omega)
    have ht1 : _mm_load_si128 table (16 * (2 * k + 1)) = some (rawAt table (16 * (2 * k + 1))) :=
      loadLE_16_eq (by omega)
    have h1 : ¬ 2 * k + 1 = s := by omega
    have h2 : ¬ 2 * k + 1 + 1 = s := by omega
    have hl1 : _mm_loadu_si128 data ((s - (2 * k + 1)) * 16 - 8)
        = some (rawAt data ((s - (2 * k + 1)) * 16 - 8)) := loadLE_16_eq (by omega)
    have hl2 : _mm_loadu_si128 data ((s - (2 * k + 1 + 1)) * 16 - 8)
        = some (rawAt data ((s - (2 * k + 1 + 1)) * 16 - 8)) := loadLE_16_eq (by omega)
    rw [GCM_AuthenticateBlocks_CLMUL_inner]
    simp only [Option.bind_eq_bind]
    rw [ht0, Option.some_bind, ht1, Option.some_bind, if_neg h1, hl1, Option.some_bind,
      if_neg h2, hl2, Option.some_bind]
    have e5 : 2 * k + 1 + 1 = 2 * (k + 1) := by omega
    rw [e5]
    exact ih (k + 1) _ _ _ _ _ (by omega) (by omega)

/-- C19: `GCM_AuthenticateBlocks_CLMUL` terminates for every input length.  The call
returns; whenever the body of the outer loop runs, `s = min(len/16, 8) >= 1`, the inner
loop reaches its `break` within `ceil(s/2)` iterations and not before, and the outer
loop continues on a buffer that is `16 s` bytes shorter; below 16 bytes the outer loop
stops. -/
theorem GCM_AuthenticateBlocks_CLMUL_terminates (data table hbuffer : List Nat) (x : Nat)
    (htable : 128 ≤ table.length) (hh : hbuffer.length = 16) :
    (∃ hb, GCM_AuthenticateBlocks_CLMUL data table hbuffer = some (hb, data.length % 16)) ∧
    (∃ y, GCM_AuthenticateBlocks_CLMUL_loop table (data.length / 16 + 1) data x
      = some (y, data.drop (16 * (data.length / 16)))) ∧
    (16 ≤ data.length →
      1 ≤ groupSize data.length ∧
      (∃ c, GCM_AuthenticateBlocks_CLMUL_inner data table x (groupSize data.length)
          ((groupSize data.length + 1) / 2) 0 (rawAt data ((groupSize data.length - 1) * 16))
          (_mm_shuffle_epi8 (rawAt data ((groupSize data.length - 1) * 16)) gcm_m2) 0 0 0
        = some c) ∧
      (∀ n, n < (groupSize data.length + 1) / 2 →
        GCM_AuthenticateBlocks_CLMUL_inner data table x (groupSize data.length)
          n 0 (rawAt data ((groupSize data.length - 1) * 16))
          (_mm_shuffle_epi8 (rawAt data ((groupSize data.length - 1) * 16)) gcm_m2) 0 0 0
        = none) ∧
      (data.drop (groupSize data.length * 16)).length + 16 * groupSize data.length
        = data.length ∧
      ∀ fuel, ∃ y, GCM_AuthenticateBlocks_CLMUL_loop table (fuel + 1) data x
        = GCM_AuthenticateBlocks_CLMUL_loop table fuel
            (data.drop (groupSize data.length * 16)) y) ∧
    (data.length < 16 → ∀ fuel,
      GCM_AuthenticateBlocks_CLMUL_loop table (fuel + 1) data x = some (x, data)) := by
  have hslots := le_trans (slots_le_128 data.length) htable
  refine ⟨⟨_, GCM_AuthenticateBlocks_CLMUL_eq data table hbuffer hslots hh⟩,
    ⟨_, GCM_AuthenticateBlocks_CLMUL_loop_eq table _ data x (by omega) hslots⟩, ?_, ?_⟩
  · intro h16
    have hs1 := groupSize_pos h16
    have hsl := groupSize_mul_le data.length
    refine ⟨hs1, ⟨_, (GCM_AuthenticateBlocks_CLMUL_group data table x _ _ hs1 (by omega)
      hslots (le_refl _)).2⟩, ?_, ?_, ?_⟩
    · intro n hn
      have := GCM_AuthenticateBlocks_CLMUL_inner_none data table x (groupSize data.length)
        (by omega) hslots n 0 (rawAt data ((groupSize data.length - 1) * 16))
        (_mm_shuffle_epi8 (rawAt data ((groupSize data.length - 1) * 16)) gcm_m2) 0 0 0
        (by omega) (by omega)
      rw [Nat.mul_zero] at this
      exact this
    · rw [List.length_drop]; omega
    · intro fuel
      exact ⟨_, GCM_AuthenticateBlocks_CLMUL_loop_succ table data x fuel h16 hslots⟩
  · intro hlt fuel
    rw [GCM_AuthenticateBlocks_CLMUL_loop, if_neg (by omega)]

theorem GCM_AuthenticateBlocks_CLMUL_terminates_witness :
    (∃ hb, GCM_AuthenticateBlocks_CLMUL (List.replicate 37 5) (List.replicate 128 3)
      (List.replicate 16 0) = some (hb, (List.replicate 37 5).length % 16)) ∧
    (∃ y, GCM_AuthenticateBlocks_CLMUL_loop (List.replicate 128 3)
        ((List.replicate 37 5).length / 16 + 1) (List.replicate 37 5) 7
      = some (y, (List.replicate 37 5).drop (16 * ((List.replicate 37 5).length / 16)))) ∧
    (16 ≤ (List.replicate 37 5).length →
      1 ≤ groupSize (List.replicate 37 5).length ∧
      (∃ c, GCM_AuthenticateBlocks_CLMUL_inner (List.replicate 37 5) (List.replicate 128 3) 7
          (groupSize (List.replicate 37 5).length)
          ((groupSize (List.replicate 37 5).length + 1) / 2) 0
          (rawAt (List.replicate 37 5) ((groupSize (List.replicate 37 5).length - 1) * 16))
          (_mm_shuffle_epi8
            (rawAt (List.replicate 37 5) ((groupSize (List.replicate 37 5).length - 1) * 16))
            gcm_m2) 0 0 0
        = some c) ∧
      (∀ n, n < (groupSize (List.replicate 37 5).length + 1) / 2 →
        GCM_AuthenticateBlocks_CLMUL_inner (List.replicate 37 5) (List.replicate 128 3) 7
          (groupSize (List.replicate 37 5).length)
          n 0 (rawAt (List.replicate 37 5) ((groupSize (List.replicate 37 5).length - 1) * 16))
          (_mm_shuffle_epi8
            (rawAt (List.replicate 37 5) ((groupSize (List.replicate 37 5).length - 1) * 16))
            gcm_m2) 0 0 0
        = none) ∧
      ((List.replicate 37 5).drop (groupSize (List.replicate 37 5).length * 16)).length
          + 16 * groupSize (List.replicate 37 5).length
        = (List.replicate 37 5).length ∧
      ∀ fuel, ∃ y, GCM_AuthenticateBlocks_CLMUL_loop (List.replicate 128 3) (fuel + 1)
          (List.replicate 37 5) 7
        = GCM_AuthenticateBlocks_CLMUL_loop (List.replicate 128 3) fuel
            ((List.replicate 37 5).drop (groupSize (List.replicate 37 5).length * 16)) y) ∧
    ((List.replicate 37 5).length < 16 → ∀ fuel,
      GCM_AuthenticateBlocks_CLMUL_loop (List.replicate 128 3) (fuel + 1)
        (List.replicate 37 5) 7 = some (7, List.replicate 37 5)) :=
  GCM_AuthenticateBlocks_CLMUL_terminates (List.replicate 37 5) (List.replicate 128 3)
    (List.replicate 16 0) 7 (by simp) (by simp)

/-- C20: for every input length, every 16-byte load that `GCM_AuthenticateBlocks_CLMUL`
performs on `data` (at `data+(s-1)*16`, at `data+(s-i)*16-8` for `1 <= i < s`, and at
`data`) covers only offsets in `[0, 16 s)` relative to the start of the group: the
offsets lie in that range, and the first load and the inner loop of the group succeed,
with the same results, on the buffer cut after the group's `16 s` bytes.  Hence the
loads cover only the first `len - (len mod 16)` bytes: the call succeeds, with the same
`hbuffer`, on the buffer cut to that length. -/
theorem GCM_AuthenticateBlocks_CLMUL_loads_within_group (data table hbuffer : List Nat)
    (x : Nat) (htable : 128 ≤ table.length) (hh : hbuffer.length = 16) :
    (16 ≤ data.length →
      (groupSize data.length - 1) * 16 + 16 ≤ 16 * groupSize data.length ∧
      (∀ i, 1 ≤ i → i < groupSize data.length →
        16 ≤ (groupSize data.length - i) * 16 ∧
        (groupSize data.length - i) * 16 - 8 + 16 ≤ 16 * groupSize data.length) ∧
      0 + 16 ≤ 16 * groupSize data.length ∧
      16 * groupSize data.length ≤ data.length - data.length % 16 ∧
      ∃ d1 c,
        _mm_loadu_si128 (data.take (16 * groupSize data.length))
          ((groupSize data.length - 1) * 16) = some d1 ∧
        _mm_loadu_si128 data ((groupSize data.length - 1) * 16) = some d1 ∧
        GCM_AuthenticateBlocks_CLMUL_inner (data.take (16 * groupSize data.length)) table x
          (groupSize data.length) (groupSize data.length) 0 d1
          (_mm_shuffle_epi8 d1 gcm_m2) 0 0 0 = some c ∧
        GCM_AuthenticateBlocks_CLMUL_inner data table x
          (groupSize data.length) (groupSize data.length) 0 d1
          (_mm_shuffle_epi8 d1 gcm_m2) 0 0 0 = some c) ∧
    (∃ hb, GCM_AuthenticateBlocks_CLMUL data table hbuffer = some (hb, data.length % 16) ∧
      GCM_AuthenticateBlocks_CLMUL (data.take (data.length - data.length % 16)) table hbuffer
        = some (hb, 0)) := by
  have hslots := le_trans (slots_le_128 data.length) htable
  constructor
  · intro h16
    have hs1 := groupSize_pos h16
    have hs8 := groupSize_le data.length
    have hsl := groupSize_mul_le data.length
    generalize hs : groupSize data.length = s at hs1 hs8 hsl hslots
    have hlt : (data.take (16 * s)).length = 16 * s := by
      rw [List.length_take]; omega
    have g1 := GCM_AuthenticateBlocks_CLMUL_group (data.take (16 * s)) table x s s hs1
      (by omega) hslots (by omega)
    have g2 := GCM_AuthenticateBlocks_CLMUL_group data table x s s hs1 (by omega) hslots
      (by omega)
    have hr : rawAt (data.take (16 * s)) ((s - 1) * 16) = rawAt data ((s - 1) * 16) :=
      rawAt_take (by omega)
    rw [hr, groupAcc_take data table x s (16 * s) (le_refl _) (by omega)] at g1
    refine ⟨by omega, fun i hi1 his => ⟨by omega, by omega⟩, by omega, by omega,
      rawAt data ((s - 1) * 16), groupAcc data table x s s 0, g1.1, g2.1, g1.2, g2.2⟩
  · have e : data.length - data.length % 16 = 16 * (data.length / 16) := by omega
    have hl : (data.take (16 * (data.length / 16))).length = 16 * (data.length / 16) := by
      rw [List.length_take]; omega
    have hs2 := le_trans (slots_le_128 (data.take (16 * (data.length / 16))).length) htable
    refine ⟨_, GCM_AuthenticateBlocks_CLMUL_eq data table hbuffer hslots hh, ?_⟩
    rw [e, GCM_AuthenticateBlocks_CLMUL_eq _ table hbuffer hs2 hh, hl, authAcc_take]
    have e1 : 16 * (data.length / 16) / 16 = data.length / 16 := by omega
    have e2 : 16 * (data.length / 16) % 16 = 0 := by omega
    rw [e1, e2]

theorem GCM_AuthenticateBlocks_CLMUL_loads_within_group_witness :
    (16 ≤ (List.replicate 37 5).length →
      (groupSize (List.replicate 37 5).length - 1) * 16 + 16
        ≤ 16 * groupSize (List.replicate 37 5).length ∧
      (∀ i, 1 ≤ i → i < groupSize (List.replicate 37 5).length →
        16 ≤ (groupSize (List.replicate 37 5).length - i) * 16 ∧
        (groupSize (List.replicate 37 5).length - i) * 16 - 8 + 16
          ≤ 16 * groupSize (List.replicate 37 5).length) ∧
      0 + 16 ≤ 16 * groupSize (List.replicate 37 5).length ∧
      16 * groupSize (List.replicate 37 5).length
        ≤ (List.replicate 37 5).length - (List.replicate 37 5).length % 16 ∧
      ∃ d1 c,
        _mm_loadu_si128 ((List.replicate 37 5).take (16 * groupSize (List.replicate 37 5).length))
          ((groupSize (List.replicate 37 5).length - 1) * 16) = some d1 ∧
        _mm_loadu_si128 (List.replicate 37 5)
          ((groupSize (List.replicate 37 5).length - 1) * 16) = some d1 ∧
        GCM_AuthenticateBlocks_CLMUL_inner
          ((List.replicate 37 5).take (16 * groupSize (List.replicate 37 5).length))
          (List.replicate 128 3) 7
          (groupSize (List.replicate 37 5).length) (groupSize (List.replicate 37 5).length) 0 d1
          (_mm_shuffle_epi8 d1 gcm_m2) 0 0 0 = some c ∧
        GCM_AuthenticateBlocks_CLMUL_inner (List.replicate 37 5) (List.replicate 128 3) 7
          (groupSize (List.replicate 37 5).length) (groupSize (List.replicate 37 5).length) 0 d1
          (_mm_shuffle_epi8 d1 gcm_m2) 0 0 0 = some c) ∧
    (∃ hb, GCM_AuthenticateBlocks_CLMUL (List.replicate 37 5) (List.replicate 128 3)
        (List.replicate 16 0) = some (hb, (List.replicate 37 5).length % 16) ∧
      GCM_AuthenticateBlocks_CLMUL
        ((List.replicate 37 5).take
          ((List.replicate 37 5).length - (List.replicate 37 5).length % 16))
        (List.replicate 128 3) (List.replicate 16 0) = some (hb, 0)) :=
  GCM_AuthenticateBlocks_CLMUL_loads_within_group (List.replicate 37 5) (List.replicate 128 3)
    (List.replicate 16 0) 7 (by simp) (by simp)

/-! ### Algebraic laws of the reduction and the multiplication -/

theorem shiftLeft_xor (a b n : Nat) : (a ^^^ b) <<< n = a <<< n ^^^ b <<< n := by
  apply Nat.eq_of_testBit_eq
  intro i
  simp only [Nat.testBit_shiftLeft, Nat.testBit_xor]
  by_cases h : n ≤ i <;> simp [h]

theorem xor_div_two_pow (a b n : Nat) : (a ^^^ b) / 2 ^ n = a / 2 ^ n ^^^ b / 2 ^ n := by
  rw [← Nat.shiftRight_eq_div_pow, ← Nat.shiftRight_eq_div_pow, ← Nat.shiftRight_eq_div_pow]
  apply Nat.eq_of_testBit_eq
  intro i
  simp only [Nat.testBit_shiftRight, Nat.testBit_xor]

theorem clmul64_xor_left (a b c : Nat) :
    clmul64 (a ^^^ b) c = clmul64 a c ^^^ clmul64 b c := by
  apply polyOf_injective
  rw [polyOf_xor, polyOf_clmul64, polyOf_clmul64, polyOf_clmul64, xor_mod_two_pow, polyOf_xor]
  ring

theorem GCM_Reduce_CLMUL_xor (c0 c1 c2 d0 d1 d2 r : Nat) :
    GCM_Reduce_CLMUL (c0 ^^^ d0) (c1 ^^^ d1) (c2 ^^^ d2) r
      = GCM_Reduce_CLMUL c0 c1 c2 r ^^^ GCM_Reduce_CLMUL d0 d1 d2 r := by
  rw [GCM_Reduce_CLMUL_lanes, GCM_Reduce_CLMUL_lanes, GCM_Reduce_CLMUL_lanes]
  simp only [lane_xor, clmul64_xor_left, shiftLeft_xor, xor_div_two_pow, ofLanes_xor]
  congr 1 <;> ac_rfl

theorem GCM_Multiply_CLMUL_xor (a b h r : Nat) :
    GCM_Multiply_CLMUL (a ^^^ b) h r
      = GCM_Multiply_CLMUL a h r ^^^ GCM_Multiply_CLMUL b h r := by
  unfold GCM_Multiply_CLMUL
  simp only [_mm_clmulepi64_si128, _mm_xor_si128, lane_xor, clmul64_xor_left]
  rw [← GCM_Reduce_CLMUL_xor]
  congr 1
  ac_rfl

/-- C21: `GCM_Reduce_CLMUL` is linear over GF(2) for a fixed `r`:
`GCM_Reduce_CLMUL(c0 XOR d0, c1 XOR d1, c2 XOR d2, r)
= GCM_Reduce_CLMUL(c0, c1, c2, r) XOR GCM_Reduce_CLMUL(d0, d1, d2, r)` for all register
values and every `r`; consequently `GCM_Multiply_CLMUL(a XOR b, h, r)
= GCM_Multiply_CLMUL(a, h, r) XOR GCM_Multiply_CLMUL(b, h, r)`. -/
theorem GCM_Reduce_CLMUL_linear :
    (∀ c0 c1 c2 d0 d1 d2 r,
      GCM_Reduce_CLMUL (c0 ^^^ d0) (c1 ^^^ d1) (c2 ^^^ d2) r
        = GCM_Reduce_CLMUL c0 c1 c2 r ^^^ GCM_Reduce_CLMUL d0 d1 d2 r) ∧
    (∀ a b h r,
      GCM_Multiply_CLMUL (a ^^^ b) h r
        = GCM_Multiply_CLMUL a h r ^^^ GCM_Multiply_CLMUL b h r) :=
  ⟨GCM_Reduce_CLMUL_xor, GCM_Multiply_CLMUL_xor⟩

theorem clmul64_comm (a b : Nat) : clmul64 a b = clmul64 b a := by
  apply polyOf_injective
  rw [polyOf_clmul64, polyOf_clmul64, mul_comm]

/-- C22: `GCM_Multiply_CLMUL` is commutative: for all register values `x` and `h` (in
particular all 128-bit ones) and every `r`,
`GCM_Multiply_CLMUL(x, h, r) = GCM_Multiply_CLMUL(h, x, r)`. -/
theorem GCM_Multiply_CLMUL_comm (x h r : Nat) :
    GCM_Multiply_CLMUL x h r = GCM_Multiply_CLMUL h x r := by
  unfold GCM_Multiply_CLMUL
  simp only [_mm_clmulepi64_si128, _mm_xor_si128, Nat.reduceMod, Nat.reduceDiv]
  rw [clmul64_comm (lane h 0) (lane x 0), clmul64_comm (lane h 1) (lane x 0),
    clmul64_comm (lane h 0) (lane x 1), clmul64_comm (lane h 1) (lane x 1)]
  congr 1
  exact Nat.xor_comm _ _

theorem fieldOf_two_pow (k : Nat) : fieldOf (2 ^ k) = fX ^ k := by
  rw [fieldOf, polyOf_two_pow, map_pow, fX]

theorem GCM_Multiply_CLMUL_one_left {h : Nat} (hh : h < 2 ^ 128) :
    GCM_Multiply_CLMUL (2 ^ 127) h gcm_r = h := by
  apply fieldOf_eq_of_mul_pow (GCM_Multiply_CLMUL_lt _ _ _) hh 127
  rw [fieldOf_GCM_Multiply_CLMUL (by norm_num) hh, fieldOf_two_pow, mul_comm]

theorem GCM_Multiply_CLMUL_one_right {h : Nat} (hh : h < 2 ^ 128) :
    GCM_Multiply_CLMUL h (2 ^ 127) gcm_r = h := by
  apply fieldOf_eq_of_mul_pow (GCM_Multiply_CLMUL_lt _ _ _) hh 127
  rw [fieldOf_GCM_Multiply_CLMUL hh (by norm_num), fieldOf_two_pow]

/-- C23: the bit-reflected field one, the 128-bit value with only bit 127 set (high half
`0x8000000000000000`, low half 0), is a two-sided identity of `GCM_Multiply_CLMUL` with
the reduction constant `r` of the source: multiplying it by any 128-bit `h` in either
argument order returns `h`. -/
theorem GCM_Multiply_CLMUL_one (h : Nat) (hh : h < 2 ^ 128) :
    ofLanes 0 0x8000000000000000 = 2 ^ 127 ∧
    lane gcm_r 0 = 0xe100000000000000 ∧ lane gcm_r 1 = 0xc200000000000000 ∧
    GCM_Multiply_CLMUL (ofLanes 0 0x8000000000000000) h gcm_r = h ∧
    GCM_Multiply_CLMUL h (ofLanes 0 0x8000000000000000) gcm_r = h := by
  have e : ofLanes 0 0x8000000000000000 = 2 ^ 127 := by decide
  refine ⟨e, by decide, by decide, ?_, ?_⟩
  · rw [e]; exact GCM_Multiply_CLMUL_one_left hh
  · rw [e]; exact GCM_Multiply_CLMUL_one_right hh

theorem GCM_Multiply_CLMUL_one_witness :
    ofLanes 0 0x8000000000000000 = 2 ^ 127 ∧
    lane gcm_r 0 = 0xe100000000000000 ∧ lane gcm_r 1 = 0xc200000000000000 ∧
    GCM_Multiply_CLMUL (ofLanes 0 0x8000000000000000) 0x66e94bd4ef8a2c3b884cfa59ca342b2e gcm_r
      = 0x66e94bd4ef8a2c3b884cfa59ca342b2e ∧
    GCM_Multiply_CLMUL 0x66e94bd4ef8a2c3b884cfa59ca342b2e (ofLanes 0 0x8000000000000000) gcm_r
      = 0x66e94bd4ef8a2c3b884cfa59ca342b2e :=
  GCM_Multiply_CLMUL_one 0x66e94bd4ef8a2c3b884cfa59ca342b2e (by decide)

/-! ### The reversal of the hash buffer is an involution -/

theorem GCM_ReverseHashBufferIfNeeded_CLMUL_eq (b : List Nat) (hl : b.length = 16)
    (hb : ∀ x ∈ b, x < 256) : GCM_ReverseHashBufferIfNeeded_CLMUL b = some b.reverse := by
  rw [GCM_ReverseHashBufferIfNeeded_CLMUL, _mm_load_si128, load16_whole b hl]
  simp only [Option.bind_eq_bind, Option.some_bind]
  rw [_mm_store_si128, store16_whole b hl, toBytesLE_shuffle_gcm_m1 b hl hb]

theorem GCM_ReverseHashBufferIfNeeded_PMULL_eq (b : List Nat) (hl : b.length = 16)
    (hb : ∀ x ∈ b, x < 256) :
    GCM_ReverseHashBufferIfNeeded_PMULL false b = some b.reverse := by
  rw [GCM_ReverseHashBufferIfNeeded_PMULL]
  simp only [Bool.false_eq_true, not_false_eq_true, if_true]
  rw [vld1q_u8, load16_whole b hl]
  simp only [Option.bind_eq_bind, Option.some_bind]
  rw [vst1q_u8, store16_whole b hl, vextq_u8_eight, vrev64q_vext_eq_shuffle,
    toBytesLE_shuffle_gcm_m1 b hl hb]

/-- C24: `GCM_ReverseHashBufferIfNeeded_CLMUL` is an involution on 16-byte buffers:
applying it twice restores the original bytes; likewise
`GCM_ReverseHashBufferIfNeeded_PMULL` under either host byte order. -/
theorem GCM_ReverseHashBufferIfNeeded_involution (b : List Nat) (hl : b.length = 16)
    (hb : ∀ x ∈ b, x < 256) :
    (GCM_ReverseHashBufferIfNeeded_CLMUL b).bind GCM_ReverseHashBufferIfNeeded_CLMUL = some b ∧
    (GCM_ReverseHashBufferIfNeeded_PMULL false b).bind (GCM_ReverseHashBufferIfNeeded_PMULL false)
      = some b ∧
    (GCM_ReverseHashBufferIfNeeded_PMULL true b).bind (GCM_ReverseHashBufferIfNeeded_PMULL true)
      = some b := by
  have hl2 : b.reverse.length = 16 := by rw [List.length_reverse, hl]
  have hb2 : ∀ x ∈ b.reverse, x < 256 := fun x hx => hb x (List.mem_reverse.mp hx)
  refine ⟨?_, ?_, rfl⟩
  · rw [GCM_ReverseHashBufferIfNeeded_CLMUL_eq b hl hb, Option.some_bind,
      GCM_ReverseHashBufferIfNeeded_CLMUL_eq _ hl2 hb2, List.reverse_reverse]
  · rw [GCM_ReverseHashBufferIfNeeded_PMULL_eq b hl hb, Option.some_bind,
      GCM_ReverseHashBufferIfNeeded_PMULL_eq _ hl2 hb2, List.reverse_reverse]

theorem GCM_ReverseHashBufferIfNeeded_involution_witness :
    (GCM_ReverseHashBufferIfNeeded_CLMUL (List.range 16)).bind
        GCM_ReverseHashBufferIfNeeded_CLMUL = some (List.range 16) ∧
    (GCM_ReverseHashBufferIfNeeded_PMULL false (List.range 16)).bind
        (GCM_ReverseHashBufferIfNeeded_PMULL false) = some (List.range 16) ∧
    (GCM_ReverseHashBufferIfNeeded_PMULL true (List.range 16)).bind
        (GCM_ReverseHashBufferIfNeeded_PMULL true) = some (List.range 16) :=
  GCM_ReverseHashBufferIfNeeded_involution (List.range 16) (by decide) (by decide)

/-- C10: with hash key bytes `66e94bd4ef8a2c3b884cfa59ca342b2e`, the table built by
`GCM_SetKeyWithoutResync_CLMUL` with table size 128 and an all-zero `hbuffer`,
`GCM_AuthenticateBlocks_CLMUL` on the ciphertext block and the length block of GCM test
case 2 returns 0, and after `GCM_ReverseHashBufferIfNeeded_CLMUL` the `hbuffer` holds the
published GHASH value `f38cbb1ad69223dcc3457ae5b6b0f885`. -/
theorem ghash_test_case_2 :
    ((GCM_SetKeyWithoutResync_CLMUL
        [0x66, 0xe9, 0x4b, 0xd4, 0xef, 0x8a, 0x2c, 0x3b,
         0x88, 0x4c, 0xfa, 0x59, 0xca, 0x34, 0x2b, 0x2e]
        (List.replicate 128 0) 128).bind
      (fun table =>
        (GCM_AuthenticateBlocks_CLMUL
          [0x03, 0x88, 0xda, 0xce, 0x60, 0xb6, 0xa3, 0x92,
           0xf3, 0x28, 0xc2, 0xb9, 0x71, 0xb2, 0xfe, 0x78,
           0x00, 0x00, 0x00, 0x00, 0x00, 0x00, 0x00, 0x00,
           0x00, 0x00, 0x00, 0x00, 0x00, 0x00, 0x00, 0x80]
          table (List.replicate 16 0)).bind
        (fun res => (GCM_ReverseHashBufferIfNeeded_CLMUL res.1).map (fun hb => (hb, res.2)))))
      = some ([0xf3, 0x8c, 0xbb, 0x1a, 0xd6, 0x92, 0x23, 0xdc,
               0xc3, 0x45, 0x7a, 0xe5, 0xb6, 0xb0, 0xf8, 0x85], 0) := by
  set_option maxRecDepth 1000000 in decide

end GcmSimd
